import Mathlib

/-!
Shallow embedding of the owned-array growth engine of `src/impl_owned_array.rs`
(`try_append_array`, `move_into`, `drop_unreachable_elements`,
`drop_unreachable_elements_slow`, and the axis bubble sorts), together with
proofs about the frozen specification claims.

Modelling conventions:
* a buffer is a `List α` holding exactly the logically live elements (the Rust
  `OwnedRepr` logical length is the list length); `usize`/`isize` quantities are
  `Nat`/`Int`;
* shapes are `List Nat` (one extent per axis) and strides are `List Int`
  (signed steps in elements), matching `D: Dimension` instances;
* views carry their own backing list plus (offset, shape, strides);
* fallible element construction (`A::clone` that may panic) is a
  `cloneF : α → Option α` parameter; `none` models the panic, after which the
  `SetLenOnDrop` guard runs during unwinding;
* `debug_assert!` statements of the source are modelled as explicit checks
  returning the `assertFailed` outcome, matching a debug build.
-/

namespace NdModel

/-- Error kinds used by the append protocol.  Modelled from the spec:
the error enum itself (`ErrorKind`) is defined outside `src/`; the spec names
the three recoverable kinds IncompatibleShape, IncompatibleLayout and
ShapeOverflow. -/
inductive ErrKind where
  | IncompatibleShape
  | IncompatibleLayout
  | ShapeOverflow
  deriving DecidableEq, Inhabited

/-- Multi-indices of a shape in row-major (C) order: the first axis varies
slowest.  This is the traversal order used by `Zip`/`Baseiter` on an array in
standard order (external traversal collaborator per the spec). -/
def indicesOf : List Nat → List (List Nat)
  | [] => [[]]
  | d :: ds => (List.range d).flatMap (fun i => (indicesOf ds).map (fun idx => i :: idx))

/-- Memory offset (in elements) of a multi-index under the given strides. -/
def offsetOf (strides : List Int) (idx : List Nat) : Int :=
  (List.zipWith (fun s (i : Nat) => s * (i : Int)) strides idx).sum

/-- Modelled from the spec: `default_strides(shape)`, the canonical row-major
strides — each axis's stride is the product of the extents to its right. -/
def defaultStrides : List Nat → List Int
  | [] => []
  | _ :: ds => ((ds.prod : Nat) : Int) :: defaultStrides ds

def fortranAux (acc : Int) : List Nat → List Int
  | [] => []
  | d :: ds => acc :: fortranAux (acc * (d : Int)) ds

/-- Modelled from the spec: `reverse_default_strides(shape)` (`fortran_strides`),
the canonical column-major strides — each axis's stride is the product of the
extents to its left. -/
def fortranStrides (dim : List Nat) : List Int := fortranAux 1 dim

/-- Modelled from the spec: `is_standard_layout()` is "true iff strides are
exactly the canonical descending strides for the shape, i.e. no holes and
row-major order". -/
def isStandardLayout (dim : List Nat) (strides : List Int) : Prop :=
  strides = defaultStrides dim

instance (dim : List Nat) (strides : List Int) : Decidable (isStandardLayout dim strides) := by
  unfold isStandardLayout; infer_instance

/-- `Vec::swap(i, j)` on a list (both reads happen before the writes). -/
def listSwap [Inhabited α] (l : List α) (i j : Nat) : List α :=
  (l.set i (l.getD j default)).set j (l.getD i default)

/-- The maximum representable allocation size; product-of-extents beyond this
cannot be represented.  (Rust bounds allocations by `isize::MAX`.) -/
def isizeMax : Nat := 2 ^ 63 - 1

/-- Modelled from the spec: `size_of_shape_checked` / `total_elements(shape)`,
"product of extents, checked for overflow — fails with a ShapeOverflow kind if
it cannot be represented". -/
def sizeOfShapeChecked (dim : List Nat) : Except ErrKind Nat :=
  if dim.prod ≤ isizeMax then .ok dim.prod else .error .ShapeOverflow

/-- `self.axes()`: the list of (axis index, length, stride) descriptions. -/
def axesOf (dim : List Nat) (strides : List Int) : List (Nat × Nat × Int) :=
  (List.range dim.length).map (fun i => (i, dim.getD i 0, strides.getD i 0))

/-- `Iterator::max_by_key(|ax| ax.stride)`: returns the last element attaining
the maximum stride, `none` for an empty list. -/
def maxByStrideLast : List (Nat × Nat × Int) → Option (Nat × Nat × Int)
  | [] => none
  | x :: xs => some (xs.foldl (fun acc y => if acc.2.2 ≤ y.2.2 then y else acc) x)

/-- An owned array: buffer of live elements, head-pointer offset from the
buffer base (`self.ptr - self.data base`), shape, strides. -/
structure OwnedArray (α : Type) where
  data : List α
  off : Nat
  dim : List Nat
  strides : List Int
  deriving DecidableEq

/-- A borrowed view: its own backing elements plus (offset, shape, strides). -/
structure View (α : Type) where
  data : List α
  off : Int
  dim : List Nat
  strides : List Int
  deriving DecidableEq

/-- Element of a view at a multi-index. -/
def View.elemAt [Inhabited α] (v : View α) (idx : List Nat) : α :=
  v.data.getD (v.off + offsetOf v.strides idx).toNat default

/-- Modelled from the spec: `invert_axis` reverses an axis's traversal
direction without moving memory — the head pointer moves to what was the last
element along the axis and the stride is negated. -/
def View.invertAxis (v : View α) (i : Nat) : View α :=
  let d := v.dim.getD i 0
  let s := v.strides.getD i 0
  { v with
    off := v.off + (if d = 0 then 0 else ((d : Int) - 1) * s),
    strides := v.strides.set i (-s) }

/-- The raw destination view over the new tail region of the buffer
(`RawArrayViewMut::new(tail_ptr, array_shape, strides)`); `off` is relative to
`tail_ptr` (offset `data.length` in the buffer). -/
structure TailView where
  dim : List Nat
  strides : List Int
  off : Int
  deriving DecidableEq

def TailView.invertAxis (t : TailView) (i : Nat) : TailView :=
  let d := t.dim.getD i 0
  let s := t.strides.getD i 0
  { t with
    off := t.off + (if d = 0 then 0 else ((d : Int) - 1) * s),
    strides := t.strides.set i (-s) }

/-- Lines 432–437 of the source: un-invert every negative-stride axis of the
tail view, applying the same inversion to the source view in lockstep. -/
def invertNegativeAxes (t : TailView) (arr : View α) : TailView × View α :=
  (List.range t.dim.length).foldl
    (fun (p : TailView × View α) i =>
      if p.1.strides.getD i 0 < 0 then (p.1.invertAxis i, p.2.invertAxis i) else p)
    (t, arr)

/-- One left-to-right pass of adjacent compare-and-swap, phrased with the
element currently being carried rightward as an accumulator (structurally
recursive rendering of the pass): at each position, if the carried record's
tail stride is less than the next one's, the next is emitted and the carried
record bubbles on; otherwise the carried record is emitted. -/
def bubblePassAuxT (cur : Nat × Int × Nat × Int) :
    List (Nat × Int × Nat × Int) → List (Nat × Int × Nat × Int)
  | [] => [cur]
  | y :: rest =>
    if cur.2.1 < y.2.1 then y :: bubblePassAuxT cur rest else cur :: bubblePassAuxT y rest

/-- One pass of `sort_axes_impl`'s inner `for` loop over tandem axis records
`(tail dim, tail stride, source dim, source stride)`, ordering by tail stride
descending. -/
def bubblePassT : List (Nat × Int × Nat × Int) → List (Nat × Int × Nat × Int)
  | [] => []
  | x :: rest => bubblePassAuxT x rest

/-- `while changed { … }` of `sort_axes_impl`: repeat passes until a pass makes
no swap.  A pass that swaps always changes the list, and bubble sort reaches
its fixpoint within `length` passes, so the fuel `(n+1)^2` is never exhausted
on the loop's actual executions. -/
def bubbleIterT : Nat → List (Nat × Int × Nat × Int) → List (Nat × Int × Nat × Int)
  | 0, l => l
  | fuel + 1, l =>
    if bubblePassT l = l then l else bubbleIterT fuel (bubblePassT l)

/-- `sort_axes_to_standard_order_tandem`: no-op for rank ≤ 1, else tandem
bubble sort of both views' axes by the first view's strides. -/
def sortAxesTandem (t : TailView) (arr : View α) : TailView × View α :=
  if t.dim.length ≤ 1 then (t, arr)
  else
    let packed := List.zip t.dim (List.zip t.strides (List.zip arr.dim arr.strides))
    let sorted := bubbleIterT ((packed.length + 1) * (packed.length + 1)) packed
    ({ t with dim := sorted.map (fun q => q.1), strides := sorted.map (fun q => q.2.1) },
     { arr with dim := sorted.map (fun q => q.2.2.1), strides := sorted.map (fun q => q.2.2.2) })

/-- Lines 431–439: for rank > 1, un-invert negative axes of the destination
(and source, in lockstep) and sort both to descending-stride order. -/
def writeTransform (t : TailView) (arr : View α) : TailView × View α :=
  if 1 < t.dim.length then
    let p := invertNegativeAxes t arr
    sortAxesTandem p.1 p.2
  else (t, arr)

/-- The paired traversal of the write loop: for each destination multi-index in
row-major order, the destination offset (relative to the tail base) and the
source element to clone into it. -/
def writePairs [Inhabited α] (t : TailView) (arr : View α) : List (Int × α) :=
  (indicesOf t.dim).map (fun idx => (t.off + offsetOf t.strides idx, arr.elemAt idx))

/-- The write loop (`Zip … .for_each`): clone each source element in turn; each
success advances the `SetLenOnDrop` guard by one; the first failure unwinds.
Returns the successful writes (in order) and whether a panic occurred. -/
def runWrites (cloneF : α → Option α) : List (Int × α) → List (Int × α) × Bool
  | [] => ([], false)
  | (dst, src) :: rest =>
    match cloneF src with
    | some v =>
      let r := runWrites cloneF rest
      ((dst, v) :: r.1, r.2)
    | none => ([], true)

/-- The contents of the first `n` slots of the tail region after the recorded
writes.  A slot never written holds uninitialized memory; `default` stands in
for such a slot (the source never reads it back; on the paths the code actually
takes, every live slot has been written). -/
def fillTail [Inhabited α] (n : Nat) (ws : List (Int × α)) : List α :=
  (List.range n).map (fun (j : Nat) =>
    match ws.find? (fun w => w.1 == (j : Int)) with
    | some w => w.2
    | none => default)

/-- Result of the validation phase of `try_append_array` (everything before
any mutation). -/
inductive Validation where
  | fail (e : ErrKind)
  | noop (resDim : List Nat) (newLen : Nat)
  | proceed (resDim : List Nat) (newLen : Nat)
  deriving DecidableEq

/-- Lines 344–350: the growing axis must be the maximum-stride axis or tie its
stride; `max_by_key` returns the *last* maximal axis. -/
def layoutCheckFails (dim : List Nat) (strides : List Int) (axis : Nat) : Bool :=
  match maxByStrideLast (axesOf dim strides) with
  | none => false
  | some m => (m.1 != axis) && decide (strides.getD axis 0 < m.2.2)

/-- `res_dim[axis.index()] += array_shape[axis.index()]`. -/
def resDimOf (dim arrDim : List Nat) (axis : Nat) : List Nat :=
  dim.set axis (dim.getD axis 0 + arrDim.getD axis 0)

/-- Lines 313–355: the checked preconditions of `try_append_array`, in source
order: rank ≥ 1; off-axis shapes equal; overflow-checked new size; empty-slab
no-op; growing-axis layout check; no holes. -/
def appendValidation (self : OwnedArray α) (axis : Nat) (arr : View α) : Validation :=
  if self.dim.length = 0 then .fail .IncompatibleShape
  else if self.dim.eraseIdx axis ≠ arr.dim.eraseIdx axis then .fail .IncompatibleShape
  else
    match sizeOfShapeChecked (resDimOf self.dim arr.dim axis) with
    | .error e => .fail e
    | .ok newLen =>
      if arr.dim.prod = 0 then .noop (resDimOf self.dim arr.dim axis) newLen
      else if self.dim.prod ≠ 0 ∧ 1 < self.dim.getD axis 0 ∧
              layoutCheckFails self.dim self.strides axis = true then
        .fail .IncompatibleLayout
      else if self.data.length ≠ self.dim.prod then .fail .IncompatibleLayout
      else .proceed (resDimOf self.dim arr.dim axis) newLen

/-- The fold of lines 375–379: over the axis descriptions, skip the growing
axis and accumulate `max acc (len * stride)`, starting from 1. -/
def promoteFold (axis : Nat) (a : Int) (l : List (Nat × Nat × Int)) : Int :=
  l.foldl (fun acc ax => if ax.1 = axis then acc else max acc ((ax.2.1 : Int) * ax.2.2)) a

/-- Lines 357–385: strides for the grown array.  Empty array: recompute
canonically (column-major when growing the last axis, otherwise row-major with
the growing axis forced outermost by a double swap).  Growing axis of extent 1:
promote its stride to `max(1, max over other axes of len*stride)` (the fold
starts at 1).  Otherwise keep the strides. -/
def stridesForAppend (self : OwnedArray α) (axis : Nat) (resDim : List Nat) : List Int :=
  if self.dim.prod = 0 then
    if axis = self.dim.length - 1 then fortranStrides resDim
    else listSwap (defaultStrides (listSwap resDim 0 axis)) 0 axis
  else if self.dim.getD axis 0 = 1 then
    self.strides.set axis (promoteFold axis 1 (axesOf self.dim self.strides))
  else self.strides

/-- Outcome of a `try_append_array` call: success, a recoverable error (with
the array state at the return point), a clone panic (with the array state
after the `SetLenOnDrop` guard ran during unwinding), or a failed
`debug_assert!`. -/
inductive AppendOutcome (α : Type) where
  | ok (st : OwnedArray α)
  | err (e : ErrKind) (st : OwnedArray α)
  | panicked (st : OwnedArray α)
  | assertFailed
  deriving DecidableEq

/-- The tail view over the new region (with the computed strides, at offset 0
relative to `tail_ptr`) and the incoming view, after the lockstep
un-inversion and tandem sort of lines 431–439. -/
def appendTailTransformed [Inhabited α] (self : OwnedArray α) (axis : Nat) (arr : View α)
    (rd : List Nat) : TailView × View α :=
  writeTransform { dim := arr.dim, strides := stridesForAppend self axis rd, off := 0 } arr

/-- The write loop's outcome on the transformed views: the successful writes
(relative destination offset, cloned value) in traversal order, and whether a
clone panicked. -/
def appendWrites [Inhabited α] (cloneF : α → Option α) (self : OwnedArray α) (axis : Nat)
    (arr : View α) (rd : List Nat) : List (Int × α) × Bool :=
  runWrites cloneF
    (writePairs (appendTailTransformed self axis arr rd).1 (appendTailTransformed self axis arr rd).2)

/-- `try_append_array` (lines 307–458), debug profile: validation, stride
computation, head-pointer assert and reset, tail transform with its asserted
standard order (`sort_axes_to_standard_order_tandem`'s assert and
`Zip::debug_assert_c_order`), the guarded write loop, commit, post asserts. -/
def tryAppendArray [Inhabited α] (cloneF : α → Option α) (self : OwnedArray α) (axis : Nat)
    (arr : View α) : AppendOutcome α :=
  match appendValidation self axis arr with
  | .fail e => .err e self
  | .noop rd newLen =>
    if self.dim.prod ≠ newLen then .assertFailed
    else .ok { self with dim := rd }
  | .proceed rd newLen =>
    if self.off ≠ 0 then .assertFailed
    else if ¬ isStandardLayout (appendTailTransformed self axis arr rd).1.dim
              (appendTailTransformed self axis arr rd).1.strides then .assertFailed
    else if (appendWrites cloneF self axis arr rd).2 then
      .panicked { self with
        data := self.data ++ fillTail (appendWrites cloneF self axis arr rd).1.length
          (appendWrites cloneF self axis arr rd).1,
        off := 0 }
    else if self.data.length + (appendWrites cloneF self axis arr rd).1.length ≠ newLen then
      .assertFailed
    else
      .ok { data := self.data ++ fillTail (appendWrites cloneF self axis arr rd).1.length
              (appendWrites cloneF self axis arr rd).1,
            off := 0, dim := rd, strides := stridesForAppend self axis rd }

/-- A `Clone` implementation that never panics (`clone` returning the value). -/
def cloneOk {α : Type} : α → Option α := fun a => some a

/-! ## `move_into` and unreachable-element collection -/

/-- The source array as seen by `drop_unreachable_elements`: buffer logical
length, shape, strides, and head-pointer offset from the buffer base.  Element
values are irrelevant here — only addresses are dropped/relocated. -/
structure MovedArray where
  dataLen : Nat
  dim : List Nat
  strides : List Int
  off : Int
  deriving DecidableEq

/-- Addresses (buffer offsets) of a view's elements in row-major traversal
order of its own axes. -/
def viewAddrs (dim : List Nat) (strides : List Int) (off : Int) : List Int :=
  (indicesOf dim).map (fun idx => off + offsetOf strides idx)

/-- Lines 206–210: un-invert every axis with negative stride (strides and head
offset change, shape does not). -/
def uninvertAxes (dim : List Nat) (strides : List Int) (off : Int) : List Int × Int :=
  (List.range dim.length).foldl
    (fun (p : List Int × Int) i =>
      let s := p.1.getD i 0
      if s < 0 then
        (p.1.set i (-s),
         p.2 + (if dim.getD i 0 = 0 then 0 else ((dim.getD i 0 : Int) - 1) * s))
      else p)
    (strides, off)

/-- One pass of `sort_axes1_impl`'s adjacent compare-and-swap over
(dim, stride) pairs, descending by stride (accumulator rendering, see
`bubblePassAuxT`). -/
def bubblePassAux1 (cur : Nat × Int) : List (Nat × Int) → List (Nat × Int)
  | [] => [cur]
  | y :: rest =>
    if cur.2 < y.2 then y :: bubblePassAux1 cur rest else cur :: bubblePassAux1 y rest

def bubblePass1 : List (Nat × Int) → List (Nat × Int)
  | [] => []
  | x :: rest => bubblePassAux1 x rest

/-- `while changed { … }` of `sort_axes1_impl` (see `bubbleIterT`). -/
def bubbleIter1 : Nat → List (Nat × Int) → List (Nat × Int)
  | 0, l => l
  | fuel + 1, l =>
    if bubblePass1 l = l then l else bubbleIter1 fuel (bubblePass1 l)

/-- `sort_axes_in_default_order`: no-op for rank ≤ 1, else bubble sort the
(dim, stride) pairs to descending-stride order. -/
def sortAxesDefault (dim : List Nat) (strides : List Int) : List Nat × List Int :=
  if dim.length ≤ 1 then (dim, strides)
  else
    let packed := List.zip dim strides
    let sorted := bubbleIter1 ((packed.length + 1) * (packed.length + 1)) packed
    (sorted.map (fun q => q.1), sorted.map (fun q => q.2))

/-- The addresses yielded by `Baseiter` over the canonicalized (uninverted,
descending-stride-sorted) raw view in `drop_unreachable_elements_slow`. -/
def canonicalAddrs (st : MovedArray) : List Int :=
  let u := uninvertAxes st.dim st.strides st.off
  let s := sortAxesDefault st.dim u.1
  viewAddrs s.1 s.2 u.2

/-- `[a, b)` as an ascending list of integers (empty when `b ≤ a`). -/
def intsFromTo (a b : Int) : List Int :=
  (List.range (b - a).toNat).map (fun (k : Nat) => a + (k : Int))

/-- The cursor walk of lines 234–253: for each yielded address, drop every
address from the cursor up to (not including) it, then resume one past it;
finally drop up to the end of the buffer.  The source's inner
`while last_ptr != elem_ptr` loop advances the cursor one address at a time;
on the in-bounds, ascending-address runs the code's debug asserts describe, it
drops exactly the interval `[last, elem)`, which is how it is rendered here. -/
def dropWalk : List Int → Int → Int → List Int
  | [], last, dEnd => intsFromTo last dEnd
  | a :: rest, last, dEnd => intsFromTo last a ++ dropWalk rest (a + 1) dEnd

/-- `drop_unreachable_elements_slow` (lines 189–259): canonicalize, then walk
the buffer dropping every address the iterator does not yield. -/
def dropUnreachableSlow (st : MovedArray) : List Int :=
  dropWalk (canonicalAddrs st) 0 (st.dataLen : Int)

/-- Line 177's condition: the fast path is taken iff there are no unreachable
elements or the element size is zero. -/
def takesFastPath (sizeOfA : Nat) (st : MovedArray) : Bool :=
  (st.dim.prod == st.dataLen) || (sizeOfA == 0)

/-- `drop_unreachable_elements` (lines 169–185): the addresses dropped —
none on the fast path (`set_len(0)` only), the slow walk otherwise.
`sizeOfA` is `std::mem::size_of::<A>()`. -/
def dropUnreachable (sizeOfA : Nat) (st : MovedArray) : List Int :=
  if takesFastPath sizeOfA st then [] else dropUnreachableSlow st

/-- Outcome of `move_into` (lines 147–159): the source addresses relocated by
the `Zip` pair-traversal, the addresses destroyed afterwards, and the buffer's
final logical length (both paths end with `set_len(0)`). -/
structure MoveResult where
  relocated : List Int
  dropped : List Int
  finalLen : Nat
  deriving DecidableEq

def moveInto (sizeOfA : Nat) (st : MovedArray) : MoveResult :=
  { relocated := viewAddrs st.dim st.strides st.off,
    dropped := dropUnreachable sizeOfA st,
    finalLen := 0 }

/-- A Rust element type, as far as this code inspects it: its size and whether
it has drop glue.  The branch at line 177 reads only the size; both
combinations of (zero size, needs drop) exist in Rust (`u8` is nonzero-sized
without drop glue; a zero-sized type can implement `Drop`). -/
structure ElemType where
  size : Nat
  needsDrop : Bool
  deriving DecidableEq

/-! ## Basic shape arithmetic lemmas -/

theorem prod_set_eraseIdx (l : List Nat) (i : Nat) (v : Nat) (h : i < l.length) :
    (l.set i v).prod = v * (l.eraseIdx i).prod := by
  induction l generalizing i with
  | nil => simp at h
  | cons x xs ih =>
    cases i with
    | zero => simp
    | succ n =>
      simp only [List.set_cons_succ, List.eraseIdx_cons_succ, List.prod_cons]
      rw [ih n (by simpa using h)]
      ring

theorem prod_eq_getD_mul_eraseIdx (l : List Nat) (i : Nat) (h : i < l.length) :
    l.prod = l.getD i 0 * (l.eraseIdx i).prod := by
  induction l generalizing i with
  | nil => simp at h
  | cons x xs ih =>
    cases i with
    | zero => simp
    | succ n =>
      simp only [List.getD_cons_succ, List.eraseIdx_cons_succ, List.prod_cons]
      rw [ih n (by simpa using h)]
      ring

/-! ## Validation-phase extraction lemmas -/

theorem validation_proceed_spec {α : Type} {self : OwnedArray α} {axis : Nat} {arr : View α}
    {rd : List Nat} {nl : Nat}
    (h : appendValidation self axis arr = .proceed rd nl) :
    self.dim.length ≠ 0 ∧
    self.dim.eraseIdx axis = arr.dim.eraseIdx axis ∧
    rd = resDimOf self.dim arr.dim axis ∧
    rd.prod ≤ isizeMax ∧ nl = rd.prod ∧
    arr.dim.prod ≠ 0 ∧
    ¬(self.dim.prod ≠ 0 ∧ 1 < self.dim.getD axis 0 ∧
        layoutCheckFails self.dim self.strides axis = true) ∧
    self.data.length = self.dim.prod := by
  unfold appendValidation at h
  by_cases h1 : self.dim.length = 0
  · rw [if_pos h1] at h; exact absurd h (by simp)
  rw [if_neg h1] at h
  by_cases h2 : self.dim.eraseIdx axis ≠ arr.dim.eraseIdx axis
  · rw [if_pos h2] at h; exact absurd h (by simp)
  rw [if_neg h2] at h
  by_cases h3 : (resDimOf self.dim arr.dim axis).prod ≤ isizeMax
  · rw [show sizeOfShapeChecked (resDimOf self.dim arr.dim axis) =
        .ok (resDimOf self.dim arr.dim axis).prod from if_pos h3] at h
    dsimp only [] at h
    by_cases h4 : arr.dim.prod = 0
    · rw [if_pos h4] at h; exact absurd h (by simp)
    rw [if_neg h4] at h
    by_cases h5 : self.dim.prod ≠ 0 ∧ 1 < self.dim.getD axis 0 ∧
        layoutCheckFails self.dim self.strides axis = true
    · rw [if_pos h5] at h; exact absurd h (by simp)
    rw [if_neg h5] at h
    by_cases h6 : self.data.length ≠ self.dim.prod
    · rw [if_pos h6] at h; exact absurd h (by simp)
    rw [if_neg h6] at h
    injection h with hrd hnl
    subst hrd
    exact ⟨h1, not_ne_iff.mp h2, rfl, h3, hnl.symm, h4, h5, not_ne_iff.mp h6⟩
  · rw [show sizeOfShapeChecked (resDimOf self.dim arr.dim axis) =
        .error .ShapeOverflow from if_neg h3] at h
    exact absurd h (by simp)

theorem validation_noop_spec {α : Type} {self : OwnedArray α} {axis : Nat} {arr : View α}
    {rd : List Nat} {nl : Nat}
    (h : appendValidation self axis arr = .noop rd nl) :
    self.dim.length ≠ 0 ∧
    self.dim.eraseIdx axis = arr.dim.eraseIdx axis ∧
    rd = resDimOf self.dim arr.dim axis ∧
    nl = rd.prod ∧
    arr.dim.prod = 0 := by
  unfold appendValidation at h
  by_cases h1 : self.dim.length = 0
  · rw [if_pos h1] at h; exact absurd h (by simp)
  rw [if_neg h1] at h
  by_cases h2 : self.dim.eraseIdx axis ≠ arr.dim.eraseIdx axis
  · rw [if_pos h2] at h; exact absurd h (by simp)
  rw [if_neg h2] at h
  by_cases h3 : (resDimOf self.dim arr.dim axis).prod ≤ isizeMax
  · rw [show sizeOfShapeChecked (resDimOf self.dim arr.dim axis) =
        .ok (resDimOf self.dim arr.dim axis).prod from if_pos h3] at h
    dsimp only [] at h
    by_cases h4 : arr.dim.prod = 0
    · rw [if_pos h4] at h
      injection h with hrd hnl
      subst hrd
      exact ⟨h1, not_ne_iff.mp h2, rfl, hnl.symm, h4⟩
    rw [if_neg h4] at h
    by_cases h5 : self.dim.prod ≠ 0 ∧ 1 < self.dim.getD axis 0 ∧
        layoutCheckFails self.dim self.strides axis = true
    · rw [if_pos h5] at h; exact absurd h (by simp)
    rw [if_neg h5] at h
    by_cases h6 : self.data.length ≠ self.dim.prod
    · rw [if_pos h6] at h; exact absurd h (by simp)
    rw [if_neg h6] at h; exact absurd h (by simp)
  · rw [show sizeOfShapeChecked (resDimOf self.dim arr.dim axis) =
        .error .ShapeOverflow from if_neg h3] at h
    exact absurd h (by simp)

/-- C2: every `Err` return of `try_append_array` happens in the validation
phase, before any mutation: the array handed back with the error is the input
array, unchanged in shape, strides, head pointer, buffer length and elements. -/
theorem append_error_leaves_unchanged [Inhabited α] (cloneF : α → Option α)
    (self : OwnedArray α) (axis : Nat) (arr : View α) (e : ErrKind) (st' : OwnedArray α)
    (h : tryAppendArray cloneF self axis arr = .err e st') : st' = self := by
  simp only [tryAppendArray] at h
  split at h
  · rename_i e' hv
    injection h with h1 h2
    exact h2.symm
  · split at h
    · exact absurd h (by simp)
    · exact absurd h (by simp)
  · split at h
    · exact absurd h (by simp)
    · split at h
      · exact absurd h (by simp)
      · split at h
        · exact absurd h (by simp)
        · split at h
          · exact absurd h (by simp)
          · exact absurd h (by simp)

theorem append_error_leaves_unchanged_witness :
    tryAppendArray (cloneOk (α := Nat)) { data := [], off := 0, dim := [], strides := [] } 0
        { data := [], off := 0, dim := [], strides := [] } =
      .err .IncompatibleShape { data := [], off := 0, dim := [], strides := [] } ∧
    ({ data := [], off := 0, dim := [], strides := [] } : OwnedArray Nat) =
      { data := [], off := 0, dim := [], strides := [] } :=
  ⟨by decide, append_error_leaves_unchanged (cloneOk (α := Nat))
    { data := [], off := 0, dim := [], strides := [] } 0
    { data := [], off := 0, dim := [], strides := [] } .IncompatibleShape
    { data := [], off := 0, dim := [], strides := [] } (by decide)⟩

theorem getD_set_self (l : List β) (i : Nat) (v d : β) (h : i < l.length) :
    (l.set i v).getD i d = v := by
  induction l generalizing i with
  | nil => simp at h
  | cons x xs ih =>
    cases i with
    | zero => rfl
    | succ n => simpa using ih n (by simpa using h)

theorem getD_set_ne (l : List β) (i j : Nat) (v d : β) (h : j ≠ i) :
    (l.set i v).getD j d = l.getD j d := by
  induction l generalizing i j with
  | nil => simp
  | cons x xs ih =>
    cases i with
    | zero =>
      cases j with
      | zero => exact absurd rfl h
      | succ m => rfl
    | succ n =>
      cases j with
      | zero => rfl
      | succ m => simpa using ih n m (fun hh => h (by rw [hh]))

theorem axesOf_mem_iff {dim : List Nat} {strides : List Int} {ax : Nat × Nat × Int} :
    ax ∈ axesOf dim strides ↔
      ∃ j, j < dim.length ∧ ax = (j, dim.getD j 0, strides.getD j 0) := by
  unfold axesOf
  simp only [List.mem_map, List.mem_range]
  constructor
  · rintro ⟨j, hj, rfl⟩; exact ⟨j, hj, rfl⟩
  · rintro ⟨j, hj, rfl⟩; exact ⟨j, hj, rfl⟩

theorem promoteFold_spec (axis : Nat) (l : List (Nat × Nat × Int)) (a : Int) :
    a ≤ promoteFold axis a l ∧
    (∀ ax ∈ l, ax.1 ≠ axis → (ax.2.1 : Int) * ax.2.2 ≤ promoteFold axis a l) ∧
    (promoteFold axis a l = a ∨
      ∃ ax ∈ l, ax.1 ≠ axis ∧ promoteFold axis a l = (ax.2.1 : Int) * ax.2.2) := by
  induction l generalizing a with
  | nil => exact ⟨le_refl a, by simp, Or.inl rfl⟩
  | cons x xs ih =>
    by_cases hx : x.1 = axis
    · have hfold : promoteFold axis a (x :: xs) = promoteFold axis a xs := by
        simp [promoteFold, hx]
      obtain ⟨ha, hmem, hcase⟩ := ih a
      refine ⟨hfold ▸ ha, ?_, ?_⟩
      · intro ax hax hne
        rcases List.mem_cons.mp hax with h | h
        · subst h; exact absurd hx hne
        · exact hfold ▸ hmem ax h hne
      · rcases hcase with h | ⟨ax, hax, hne, hval⟩
        · exact Or.inl (hfold ▸ h)
        · exact Or.inr ⟨ax, List.mem_cons_of_mem _ hax, hne, hfold ▸ hval⟩
    · have hfold : promoteFold axis a (x :: xs) =
          promoteFold axis (max a ((x.2.1 : Int) * x.2.2)) xs := by
        simp [promoteFold, hx]
      obtain ⟨ha, hmem, hcase⟩ := ih (max a ((x.2.1 : Int) * x.2.2))
      refine ⟨hfold ▸ le_trans (le_max_left _ _) ha, ?_, ?_⟩
      · intro ax hax hne
        rcases List.mem_cons.mp hax with h | h
        · subst h; exact hfold ▸ le_trans (le_max_right _ _) ha
        · exact hfold ▸ hmem ax h hne
      · rcases hcase with h | ⟨ax, hax, hne, hval⟩
        · rcases max_cases a ((x.2.1 : Int) * x.2.2) with ⟨hm, _⟩ | ⟨hm, _⟩
          · exact Or.inl (by rw [hfold, h, hm])
          · exact Or.inr ⟨x, List.mem_cons_self _ _, hx, by rw [hfold, h, hm]⟩
        · exact Or.inr ⟨ax, List.mem_cons_of_mem _ hax, hne, hfold ▸ hval⟩

/-- Decomposition of a successful `try_append_array` call that wrote elements
(`len_to_append ≠ 0`): validation proceeded, the head pointer was at the
buffer base, the transformed tail was asserted standard, no clone panicked,
the final length matched the asserted new length, and the result state
consists of the old buffer plus the filled tail with the committed shape and
strides. -/
theorem tryAppend_ok_write [Inhabited α] {cloneF : α → Option α} {self : OwnedArray α}
    {axis : Nat} {arr : View α} {st' : OwnedArray α}
    (hok : tryAppendArray cloneF self axis arr = .ok st') (hnz : arr.dim.prod ≠ 0) :
    ∃ rd nl,
      appendValidation self axis arr = .proceed rd nl ∧
      self.off = 0 ∧
      isStandardLayout (appendTailTransformed self axis arr rd).1.dim
        (appendTailTransformed self axis arr rd).1.strides ∧
      (appendWrites cloneF self axis arr rd).2 = false ∧
      self.data.length + (appendWrites cloneF self axis arr rd).1.length = nl ∧
      st' = { data := self.data ++ fillTail (appendWrites cloneF self axis arr rd).1.length
                (appendWrites cloneF self axis arr rd).1,
              off := 0, dim := rd, strides := stridesForAppend self axis rd } := by
  unfold tryAppendArray at hok
  split at hok
  · exact absurd hok (by simp)
  · rename_i rd nl hv
    split at hok
    · exact absurd hok (by simp)
    · obtain ⟨-, -, -, -, hz⟩ := validation_noop_spec hv
      exact absurd hz hnz
  · rename_i rd nl hv
    split at hok
    · exact absurd hok (by simp)
    · rename_i hoff
      split at hok
      · exact absurd hok (by simp)
      · rename_i hstd
        split at hok
        · exact absurd hok (by simp)
        · rename_i hpanic
          split at hok
          · exact absurd hok (by simp)
          · rename_i hlen
            injection hok with hst
            exact ⟨rd, nl, hv, not_ne_iff.mp hoff, not_not.mp hstd,
              Bool.eq_false_iff.mpr hpanic, not_ne_iff.mp hlen, hst.symm⟩

/-- C10: refuted — the validation phase can pass (reaching the mutation phase)
for an array whose head pointer is *not* the buffer base: a 1-D owned array
reversed in place (shape `[3]`, stride `-1`, head offset `2`) has no holes and
its axis is trivially the maximum-stride axis, so validation returns `proceed`,
yet `off ≠ 0`, so the code's own
`debug_assert_eq!(self.data.as_ptr(), self.as_ptr())` at line 389 fails (and a
release build would relocate the head and write through the negative stride).
This evaluates the embedded code at that failing input. -/
theorem validation_passes_with_offset_head :
    appendValidation
        ({ data := [10, 20, 30], off := 2, dim := [3], strides := [-1] } : OwnedArray Nat) 0
        { data := [99], off := 0, dim := [1], strides := [1] } = .proceed [4] 4 ∧
    ({ data := [10, 20, 30], off := 2, dim := [3], strides := [-1] } : OwnedArray Nat).off ≠ 0 ∧
    tryAppendArray cloneOk
        ({ data := [10, 20, 30], off := 2, dim := [3], strides := [-1] } : OwnedArray Nat) 0
        { data := [99], off := 0, dim := [1], strides := [1] } = .assertFailed := by
  refine ⟨by decide, by decide, by decide⟩

/-- C6: for a non-empty array whose target axis has extent strictly greater
than 1, if the axis is not the maximum-stride axis and its stride is strictly
below the maximum stride (no tie), `try_append_array` returns
IncompatibleLayout with the array unchanged; if the axis is the maximum-stride
axis or ties its stride, the layout check passes. -/
theorem append_layout_check_spec [Inhabited α] (cloneF : α → Option α)
    (self : OwnedArray α) (axis : Nat) (arr : View α) :
    (self.dim.length ≠ 0 →
      self.dim.eraseIdx axis = arr.dim.eraseIdx axis →
      (resDimOf self.dim arr.dim axis).prod ≤ isizeMax →
      arr.dim.prod ≠ 0 →
      self.dim.prod ≠ 0 →
      1 < self.dim.getD axis 0 →
      layoutCheckFails self.dim self.strides axis = true →
      tryAppendArray cloneF self axis arr = .err .IncompatibleLayout self) ∧
    (∀ m, maxByStrideLast (axesOf self.dim self.strides) = some m →
      m.1 = axis ∨ m.2.2 ≤ self.strides.getD axis 0 →
      layoutCheckFails self.dim self.strides axis = false) := by
  constructor
  · intro h1 h2 h3 h4 h5 h6 h7
    have hv : appendValidation self axis arr = .fail .IncompatibleLayout := by
      unfold appendValidation
      rw [if_neg h1, if_neg (not_ne_iff.mpr h2),
        show sizeOfShapeChecked (resDimOf self.dim arr.dim axis) =
          .ok (resDimOf self.dim arr.dim axis).prod from if_pos h3]
      dsimp only []
      rw [if_neg h4, if_pos ⟨h5, h6, h7⟩]
    simp [tryAppendArray, hv]
  · intro m hm hor
    unfold layoutCheckFails
    rw [hm]
    dsimp only []
    rcases hor with h | h
    · rw [h, bne_self_eq_false, Bool.false_and]
    · have hd : decide (self.strides.getD axis 0 < m.2.2) = false :=
        decide_eq_false (not_lt.mpr h)
      rw [hd, Bool.and_false]

theorem append_layout_check_spec_witness :
    tryAppendArray (cloneOk (α := Nat)) ⟨[1, 2, 3, 4, 5, 6], 0, [2, 3], [1, 2]⟩ 0
        ⟨[7, 8, 9], 0, [1, 3], [3, 1]⟩ =
      .err .IncompatibleLayout ⟨[1, 2, 3, 4, 5, 6], 0, [2, 3], [1, 2]⟩ ∧
    layoutCheckFails [2, 3] [1, 2] 1 = false :=
  ⟨(append_layout_check_spec (cloneOk (α := Nat)) ⟨[1, 2, 3, 4, 5, 6], 0, [2, 3], [1, 2]⟩ 0
      ⟨[7, 8, 9], 0, [1, 3], [3, 1]⟩).1 (by decide) (by decide) (by decide) (by decide)
      (by decide) (by decide) (by decide),
   (append_layout_check_spec (cloneOk (α := Nat)) ⟨[1, 2, 3, 4, 5, 6], 0, [2, 3], [1, 2]⟩ 1
      ⟨[7, 8, 9], 0, [1, 3], [3, 1]⟩).2 (1, 3, 2) (by decide) (Or.inl rfl)⟩

/-- C8: an empty-slab append (incoming view has zero elements, off-axis shapes
match) is a shape-only no-op: success, the buffer untouched, the target axis
extent grown by the incoming axis extent, all other extents unchanged.  (The
`debug_assert_eq!(self.len(), new_len)` of the no-op path is proved to hold,
not assumed.) -/
theorem append_empty_slab_noop [Inhabited α] (cloneF : α → Option α)
    (self : OwnedArray α) (axis : Nat) (arr : View α) (rd : List Nat) (nl : Nat)
    (hlen : arr.dim.length = self.dim.length) (hax : axis < self.dim.length)
    (hv : appendValidation self axis arr = .noop rd nl) :
    tryAppendArray cloneF self axis arr = .ok { self with dim := rd } ∧
    ({ self with dim := rd } : OwnedArray α).data = self.data ∧
    rd.getD axis 0 = self.dim.getD axis 0 + arr.dim.getD axis 0 ∧
    (∀ j, j ≠ axis → rd.getD j 0 = self.dim.getD j 0) := by
  obtain ⟨h1, h2, hrd, hnl, hz⟩ := validation_noop_spec hv
  have hax' : axis < arr.dim.length := hlen ▸ hax
  have hprod : rd.prod = self.dim.prod := by
    subst hrd
    unfold resDimOf
    rw [prod_set_eraseIdx _ _ _ hax]
    have hself : self.dim.prod = self.dim.getD axis 0 * (self.dim.eraseIdx axis).prod :=
      prod_eq_getD_mul_eraseIdx _ _ hax
    have harr : arr.dim.prod = arr.dim.getD axis 0 * (arr.dim.eraseIdx axis).prod :=
      prod_eq_getD_mul_eraseIdx _ _ hax'
    rw [hz] at harr
    rcases Nat.mul_eq_zero.mp harr.symm with h0 | h0
    · rw [h0, Nat.add_zero, ← hself]
    · rw [← h2] at h0
      rw [hself, h0, Nat.mul_zero, Nat.mul_zero]
  refine ⟨?_, rfl, ?_, ?_⟩
  · unfold tryAppendArray
    rw [hv]
    dsimp only []
    rw [if_neg (not_ne_iff.mpr (by rw [hnl]; exact hprod.symm))]
  · subst hrd
    exact getD_set_self _ _ _ _ hax
  · intro j hj
    subst hrd
    exact getD_set_ne _ _ _ _ _ hj

theorem append_empty_slab_noop_witness :
    tryAppendArray (cloneOk (α := Nat)) ⟨[1, 2, 3, 4, 5, 6], 0, [2, 3], [3, 1]⟩ 0
        ⟨[], 0, [0, 3], [3, 1]⟩ =
      .ok { data := [1, 2, 3, 4, 5, 6], off := 0, dim := [2, 3], strides := [3, 1] } ∧
    ({ data := [1, 2, 3, 4, 5, 6], off := 0, dim := [2, 3], strides := [3, 1] } :
        OwnedArray Nat).data = [1, 2, 3, 4, 5, 6] ∧
    ([2, 3] : List Nat).getD 0 0 = ([2, 3] : List Nat).getD 0 0 + ([0, 3] : List Nat).getD 0 0 ∧
    (∀ j, j ≠ 0 → ([2, 3] : List Nat).getD j 0 = ([2, 3] : List Nat).getD j 0) :=
  append_empty_slab_noop (cloneOk (α := Nat)) ⟨[1, 2, 3, 4, 5, 6], 0, [2, 3], [3, 1]⟩ 0
    ⟨[], 0, [0, 3], [3, 1]⟩ [2, 3] 6 (by decide) (by decide) (by decide)

/-- The spec's stated formula for the promoted stride in C7: the maximum of
(axis length × axis stride) over all other axes — stated as written, without
the implementation's floor of 1. -/
def otherAxesMax (dim : List Nat) (strides : List Int) (axis : Nat) : Option Int :=
  (((axesOf dim strides).filter (fun ax => ax.1 != axis)).map
    (fun ax => (ax.2.1 : Int) * ax.2.2)).max?

/-- A non-empty `[1,1]` array whose off-axis has `len * stride = -1`. -/
def exC7self : OwnedArray Int := { data := [10], off := 0, dim := [1, 1], strides := [5, -1] }

def exC7arr : View Int := { data := [30], off := 0, dim := [1, 1], strides := [1, 1] }

def exC7out : OwnedArray Int := { data := [10, 30], off := 0, dim := [2, 1], strides := [1, -1] }

/-- C7: refuted as stated — appending along the length-1 axis 0 of the
non-empty array `exC7self` succeeds, and the code sets the promoted stride to
`max 1 (1 * -1) = 1`, whereas the claim's "maximum of (length × stride) over
all other axes" is `-1`. -/
theorem promote_stride_not_other_axes_max :
    tryAppendArray cloneOk exC7self 0 exC7arr = .ok exC7out ∧
    otherAxesMax exC7self.dim exC7self.strides 0 = some (-1) ∧
    exC7out.strides.getD 0 0 ≠ -1 :=
  ⟨by rfl, by rfl, by decide⟩

/-- C7 (amended): for a non-empty array whose growing axis previously had
extent exactly 1, a successful writing append leaves every other stride
unchanged and sets the growing axis's stride to the maximum of **1 and**
(axis length × axis stride) over all other axes (the fold starts at 1, so the
result is floored at 1; the claim's own formula without the floor is refuted
by `promote_stride_not_other_axes_max`). -/
theorem promote_stride_formula [Inhabited α] (cloneF : α → Option α)
    (self : OwnedArray α) (axis : Nat) (arr : View α) (st' : OwnedArray α)
    (hax : axis < self.dim.length) (hsl : self.strides.length = self.dim.length)
    (hne : self.dim.prod ≠ 0) (h1 : self.dim.getD axis 0 = 1) (hnz : arr.dim.prod ≠ 0)
    (hok : tryAppendArray cloneF self axis arr = .ok st') :
    (∀ j, j ≠ axis → st'.strides.getD j 0 = self.strides.getD j 0) ∧
    1 ≤ st'.strides.getD axis 0 ∧
    (∀ j, j < self.dim.length → j ≠ axis →
      (self.dim.getD j 0 : Int) * self.strides.getD j 0 ≤ st'.strides.getD axis 0) ∧
    (st'.strides.getD axis 0 = 1 ∨
      ∃ j, j < self.dim.length ∧ j ≠ axis ∧
        st'.strides.getD axis 0 = (self.dim.getD j 0 : Int) * self.strides.getD j 0) := by
  obtain ⟨rd, nl, hv, hoff, hstd, hnp, hlen, hst⟩ := tryAppend_ok_write hok hnz
  have hstr : st'.strides =
      self.strides.set axis (promoteFold axis 1 (axesOf self.dim self.strides)) := by
    rw [hst]
    show stridesForAppend self axis rd = _
    unfold stridesForAppend
    rw [if_neg hne, if_pos h1]
  obtain ⟨hge1, hmem, hcase⟩ := promoteFold_spec axis (axesOf self.dim self.strides) 1
  have haxs : axis < self.strides.length := hsl ▸ hax
  have hgetax : st'.strides.getD axis 0 = promoteFold axis 1 (axesOf self.dim self.strides) := by
    rw [hstr]; exact getD_set_self _ _ _ _ haxs
  refine ⟨?_, ?_, ?_, ?_⟩
  · intro j hj
    rw [hstr]; exact getD_set_ne _ _ _ _ _ hj
  · rw [hgetax]; exact hge1
  · intro j hjlen hj
    rw [hgetax]
    exact hmem (j, self.dim.getD j 0, self.strides.getD j 0)
      (axesOf_mem_iff.mpr ⟨j, hjlen, rfl⟩) hj
  · rw [hgetax]
    rcases hcase with h | ⟨ax, haxmem, hne', hval⟩
    · exact Or.inl h
    · obtain ⟨j, hjlen, rfl⟩ := axesOf_mem_iff.mp haxmem
      exact Or.inr ⟨j, hjlen, hne', hval⟩

/-- A non-empty `[1,2]` array with a junk stride on its length-1 growing
axis. -/
def exC7wSelf : OwnedArray Nat := { data := [10, 20], off := 0, dim := [1, 2], strides := [9, 1] }

def exC7wArr : View Nat := { data := [30, 40], off := 0, dim := [1, 2], strides := [2, 1] }

def exC7wOut : OwnedArray Nat :=
  { data := [10, 20, 30, 40], off := 0, dim := [2, 2], strides := [2, 1] }

theorem promote_stride_formula_witness :
    (∀ j, j ≠ 0 → exC7wOut.strides.getD j 0 = exC7wSelf.strides.getD j 0) ∧
    1 ≤ exC7wOut.strides.getD 0 0 ∧
    (∀ j, j < exC7wSelf.dim.length → j ≠ 0 →
      (exC7wSelf.dim.getD j 0 : Int) * exC7wSelf.strides.getD j 0 ≤
        exC7wOut.strides.getD 0 0) ∧
    (exC7wOut.strides.getD 0 0 = 1 ∨
      ∃ j, j < exC7wSelf.dim.length ∧ j ≠ 0 ∧
        exC7wOut.strides.getD 0 0 =
          (exC7wSelf.dim.getD j 0 : Int) * exC7wSelf.strides.getD j 0) :=
  promote_stride_formula cloneOk exC7wSelf 0 exC7wArr exC7wOut
    (by decide) (by decide) (by decide) (by decide) (by decide) (by rfl)

/-! ## C4: the fast path of `drop_unreachable_elements` -/

theorem length_flatMap_const {β γ : Type} (f : β → List γ) (l : List β) (k : Nat)
    (h : ∀ b ∈ l, (f b).length = k) : (l.flatMap f).length = l.length * k := by
  induction l with
  | nil => simp
  | cons x xs ih =>
    rw [List.flatMap_cons, List.length_append, h x (List.mem_cons_self _ _),
      ih (fun b hb => h b (List.mem_cons_of_mem _ hb)), List.length_cons,
      Nat.succ_mul, Nat.add_comm]

theorem length_indicesOf (d : List Nat) : (indicesOf d).length = d.prod := by
  induction d with
  | nil => rfl
  | cons x xs ih =>
    show ((List.range x).flatMap _).length = _
    rw [length_flatMap_const _ _ xs.prod (fun b _ => by simp [ih]),
      List.length_range, List.prod_cons]

theorem length_viewAddrs (dim : List Nat) (strides : List Int) (off : Int) :
    (viewAddrs dim strides off).length = dim.prod := by
  unfold viewAddrs
  rw [List.length_map, length_indicesOf]

/-- C4: refuted as stated — the branch at line 177 tests the element *size*,
not whether the type needs dropping: for a nonzero-sized element type with no
drop glue (such as `u8`, here `⟨1, false⟩`) on a holed array, the code takes
the slow path even though the claim's condition "no holes or the element type
requires no destruction" holds. -/
theorem fast_path_not_exactly_no_drop :
    ¬ (∀ (T : ElemType) (st : MovedArray),
        takesFastPath T.size st = true ↔
          (st.dim.prod = st.dataLen ∨ T.needsDrop = false)) := by
  intro h
  have := (h ⟨1, false⟩ { dataLen := 6, dim := [3], strides := [2], off := 0 }).mpr
    (Or.inr rfl)
  exact absurd this (by decide)

/-- C4 (amended): `move_into` takes the fast path — marking the buffer
logically empty and destroying zero elements — exactly when the view's
live-element count equals the buffer's logical length (no holes) **or the
element size is zero**; in the no-holes case it destroys nothing and relocates
exactly `len` elements. -/
theorem fast_path_spec (sizeOfA : Nat) (st : MovedArray) :
    (takesFastPath sizeOfA st = true ↔ (st.dim.prod = st.dataLen ∨ sizeOfA = 0)) ∧
    (takesFastPath sizeOfA st = true →
      (moveInto sizeOfA st).dropped = [] ∧ (moveInto sizeOfA st).finalLen = 0) ∧
    (st.dim.prod = st.dataLen →
      (moveInto sizeOfA st).dropped = [] ∧
      (moveInto sizeOfA st).relocated.length = st.dim.prod) := by
  have hiff : takesFastPath sizeOfA st = true ↔ (st.dim.prod = st.dataLen ∨ sizeOfA = 0) := by
    unfold takesFastPath
    rw [Bool.or_eq_true, beq_iff_eq, beq_iff_eq]
  refine ⟨hiff, ?_, ?_⟩
  · intro hfast
    constructor
    · show dropUnreachable sizeOfA st = []
      unfold dropUnreachable
      rw [if_pos hfast]
    · rfl
  · intro hnoholes
    constructor
    · show dropUnreachable sizeOfA st = []
      unfold dropUnreachable
      rw [if_pos (hiff.mpr (Or.inl hnoholes))]
    · exact length_viewAddrs _ _ _

theorem fast_path_spec_witness :
    takesFastPath 1 { dataLen := 6, dim := [2, 3], strides := [3, 1], off := 0 } = true ∧
    (moveInto 1 { dataLen := 6, dim := [2, 3], strides := [3, 1], off := 0 }).dropped = [] ∧
    (moveInto 1 { dataLen := 6, dim := [2, 3], strides := [3, 1], off := 0 }).relocated.length =
      ([2, 3] : List Nat).prod :=
  ⟨(fast_path_spec 1 { dataLen := 6, dim := [2, 3], strides := [3, 1], off := 0 }).1.mpr
      (Or.inl (by decide)),
   ((fast_path_spec 1 { dataLen := 6, dim := [2, 3], strides := [3, 1], off := 0 }).2.2
      (by decide)).1,
   ((fast_path_spec 1 { dataLen := 6, dim := [2, 3], strides := [3, 1], off := 0 }).2.2
      (by decide)).2⟩

/-! ## C3: the cursor walk of `drop_unreachable_elements_slow` -/

theorem mem_intsFromTo {a b x : Int} : x ∈ intsFromTo a b ↔ a ≤ x ∧ x < b := by
  unfold intsFromTo
  simp only [List.mem_map, List.mem_range]
  constructor
  · rintro ⟨k, hk, rfl⟩
    omega
  · rintro ⟨h1, h2⟩
    exact ⟨(x - a).toNat, by omega, by omega⟩

theorem pairwise_intsFromTo (a b : Int) : List.Pairwise (· < ·) (intsFromTo a b) := by
  unfold intsFromTo
  rw [List.pairwise_map]
  exact (List.pairwise_lt_range _).imp (fun hij => by omega)

theorem nodup_intsFromTo (a b : Int) : (intsFromTo a b).Nodup :=
  (pairwise_intsFromTo a b).imp (fun h => ne_of_lt h)

theorem length_intsFromTo (a b : Int) : (intsFromTo a b).length = (b - a).toNat := by
  unfold intsFromTo
  rw [List.length_map, List.length_range]

theorem intsFromTo_append (a m b : Int) (h1 : a ≤ m) (h2 : m ≤ b) :
    intsFromTo a b = intsFromTo a m ++ intsFromTo m b := by
  unfold intsFromTo
  have hsplit : (b - a).toNat = (m - a).toNat + (b - m).toNat := by omega
  rw [hsplit, List.range_add, List.map_append, List.map_map]
  congr 1
  apply List.map_congr_left
  intro k hk
  simp only [Function.comp_apply]
  omega

theorem intsFromTo_singleton (a : Int) : intsFromTo a (a + 1) = [a] := by
  unfold intsFromTo
  rw [show (a + 1 - a).toNat = 1 by omega]
  simp [List.range_succ]

/-- The cursor walk drops exactly the interval complement of the yielded
addresses, provided the addresses are strictly ascending and lie in
`[last, dEnd)`. -/
theorem dropWalk_spec (addrs : List Int) (last dEnd : Int)
    (hchain : List.Pairwise (· < ·) addrs)
    (hbound : ∀ a ∈ addrs, last ≤ a ∧ a < dEnd) :
    dropWalk addrs last dEnd = (intsFromTo last dEnd).filter (fun x => !List.elem x addrs) := by
  induction addrs generalizing last with
  | nil =>
    rw [dropWalk, List.filter_eq_self.mpr]
    intro x _
    simp [List.elem_iff]
  | cons a rest ih =>
    obtain ⟨hal, had⟩ := hbound a (List.mem_cons_self _ _)
    obtain ⟨hhead, htail⟩ := List.pairwise_cons.mp hchain
    rw [dropWalk, intsFromTo_append last a dEnd hal (le_of_lt had),
      intsFromTo_append a (a + 1) dEnd (by omega) (by omega),
      intsFromTo_singleton, List.filter_append, List.filter_append]
    have hfirst : (intsFromTo last a).filter (fun x => !List.elem x (a :: rest)) =
        intsFromTo last a := by
      apply List.filter_eq_self.mpr
      intro x hx
      have hxa : x < a := (mem_intsFromTo.mp hx).2
      have : x ∉ a :: rest := by
        intro hmem
        rcases List.mem_cons.mp hmem with rfl | hmem'
        · omega
        · exact absurd (hhead x hmem') (by omega)
      simp [List.elem_iff, this]
    have hmid : ([a] : List Int).filter (fun x => !List.elem x (a :: rest)) = [] := by
      simp [List.elem_iff]
    have hlast : (intsFromTo (a + 1) dEnd).filter (fun x => !List.elem x (a :: rest)) =
        (intsFromTo (a + 1) dEnd).filter (fun x => !List.elem x rest) := by
      apply List.filter_congr
      intro x hx
      have hxa : a + 1 ≤ x := (mem_intsFromTo.mp hx).1
      have helem : List.elem x (a :: rest) = List.elem x rest := by
        rw [Bool.eq_iff_iff]
        simp only [List.elem_iff, List.mem_cons]
        constructor
        · rintro (rfl | h)
          · omega
          · exact h
        · exact Or.inr
      rw [helem]
    rw [hfirst, hmid, hlast, List.nil_append,
      ih (a + 1) htail
        (fun b hb => ⟨by have := hhead b hb; omega, (hbound b (List.mem_cons_of_mem _ hb)).2⟩)]

/-! ### Address-set invariance of the canonicalization (un-inversion + sort) -/

theorem offsetOf_nil_idx (ss : List Int) : offsetOf ss [] = 0 := by
  unfold offsetOf
  rw [List.zipWith_nil_right]
  rfl

theorem offsetOf_cons (s : Int) (ss : List Int) (i : Nat) (idx : List Nat) :
    offsetOf (s :: ss) (i :: idx) = s * (i : Int) + offsetOf ss idx := by
  unfold offsetOf
  rw [List.zipWith_cons_cons, List.sum_cons]

theorem offsetOf_nil_strides (idx : List Nat) : offsetOf [] idx = 0 := by
  unfold offsetOf
  rw [List.zipWith_nil_left]
  rfl

theorem viewAddrs_nil (ss : List Int) (off : Int) : viewAddrs [] ss off = [off] := by
  unfold viewAddrs indicesOf
  rw [List.map_singleton, offsetOf_nil_idx, add_zero]

theorem viewAddrs_shift (dim : List Nat) (strides : List Int) (off : Int) :
    viewAddrs dim strides off = (viewAddrs dim strides 0).map (fun t => off + t) := by
  unfold viewAddrs
  rw [List.map_map]
  apply List.map_congr_left
  intro idx _
  simp only [Function.comp_apply]
  ring

theorem mem_viewAddrs_iff_base (dim : List Nat) (strides : List Int) (off x : Int) :
    x ∈ viewAddrs dim strides off ↔ x - off ∈ viewAddrs dim strides 0 := by
  rw [viewAddrs_shift]
  simp only [List.mem_map]
  constructor
  · rintro ⟨t, ht, rfl⟩
    simpa using ht
  · intro ht
    exact ⟨x - off, ht, by ring⟩

theorem mem_viewAddrs_cons {d : Nat} {ds : List Nat} {s : Int} {ss : List Int} {x : Int} :
    x ∈ viewAddrs (d :: ds) (s :: ss) 0 ↔
      ∃ i, i < d ∧ ∃ t ∈ viewAddrs ds ss 0, x = s * (i : Int) + t := by
  have hout : indicesOf (d :: ds) =
      (List.range d).flatMap (fun i => (indicesOf ds).map (fun idx => i :: idx)) := rfl
  unfold viewAddrs
  rw [hout]
  simp only [List.mem_map, List.mem_flatMap, List.mem_range]
  constructor
  · rintro ⟨idx, ⟨i, hi, idx', hidx', rfl⟩, rfl⟩
    refine ⟨i, hi, 0 + offsetOf ss idx', ⟨idx', hidx', rfl⟩, ?_⟩
    rw [offsetOf_cons]
    ring
  · rintro ⟨i, hi, t, ⟨idx, hidx, rfl⟩, rfl⟩
    refine ⟨i :: idx, ⟨i, hi, idx, hidx, rfl⟩, ?_⟩
    rw [offsetOf_cons]
    ring

/-- Swapping the two leading axes preserves the set of addresses. -/
theorem mem_viewAddrs_swap (d1 d2 : Nat) (s1 s2 : Int) {ds : List Nat} {ss : List Int} {x : Int} :
    x ∈ viewAddrs (d1 :: d2 :: ds) (s1 :: s2 :: ss) 0 ↔
    x ∈ viewAddrs (d2 :: d1 :: ds) (s2 :: s1 :: ss) 0 := by
  simp only [mem_viewAddrs_cons]
  constructor
  · rintro ⟨i, hi, t1, ⟨j, hj, t, ht, rfl⟩, rfl⟩
    exact ⟨j, hj, s1 * (i : Int) + t, ⟨i, hi, t, ht, rfl⟩, by ring⟩
  · rintro ⟨j, hj, t1, ⟨i, hi, t, ht, rfl⟩, rfl⟩
    exact ⟨i, hi, s2 * (j : Int) + t, ⟨j, hj, t, ht, rfl⟩, by ring⟩

/-- The addresses of a view presented as a list of (extent, stride) pairs. -/
def pairsAddrs (ps : List (Nat × Int)) : List Int :=
  viewAddrs (ps.map Prod.fst) (ps.map Prod.snd) 0

theorem mem_pairsAddrs_of_perm {p1 p2 : List (Nat × Int)} (h : p1.Perm p2) :
    ∀ x, x ∈ pairsAddrs p1 ↔ x ∈ pairsAddrs p2 := by
  induction h with
  | nil => exact fun x => Iff.rfl
  | cons a h ih =>
    intro x
    show x ∈ viewAddrs (a.1 :: _) (a.2 :: _) 0 ↔ x ∈ viewAddrs (a.1 :: _) (a.2 :: _) 0
    simp only [mem_viewAddrs_cons]
    constructor
    · rintro ⟨i, hi, t, ht, rfl⟩
      exact ⟨i, hi, t, (ih t).mp ht, rfl⟩
    · rintro ⟨i, hi, t, ht, rfl⟩
      exact ⟨i, hi, t, (ih t).mpr ht, rfl⟩
  | swap a b l =>
    intro x
    exact mem_viewAddrs_swap b.1 a.1 b.2 a.2
  | trans h1 h2 ih1 ih2 =>
    intro x
    exact (ih1 x).trans (ih2 x)

/-- Inverting one axis shifts every base address by `(d-1)*s` (in the opposite
direction), so the address set is preserved up to that shift. -/
theorem mem_baseAddrs_invert (dim : List Nat) (strides : List Int) (i : Nat) (x : Int) :
    x ∈ viewAddrs dim (strides.set i (-(strides.getD i 0))) 0 ↔
    (x + (if dim.getD i 0 = 0 then 0 else ((dim.getD i 0 : Int) - 1) * strides.getD i 0)) ∈
      viewAddrs dim strides 0 := by
  induction dim generalizing strides i x with
  | nil =>
    rw [viewAddrs_nil, viewAddrs_nil]
    simp
  | cons d ds ih =>
    match strides with
    | [] =>
      have hadj : (if (d :: ds).getD i 0 = 0 then (0 : Int)
          else (((d :: ds).getD i 0 : Int) - 1) * ([] : List Int).getD i 0) = 0 := by
        rw [List.getD_nil]
        split
        · rfl
        · rw [mul_zero]
      rw [hadj, add_zero, List.set_nil]
    | s :: ss =>
      match i with
      | 0 =>
        simp only [List.set_cons_zero, List.getD_cons_zero, mem_viewAddrs_cons]
        by_cases hd : d = 0
        · subst hd
          constructor
          · rintro ⟨i, hi, -⟩; exact absurd hi (Nat.not_lt_zero i)
          · rintro ⟨i, hi, -⟩; exact absurd hi (Nat.not_lt_zero i)
        · rw [if_neg hd]
          constructor
          · rintro ⟨i, hi, t, ht, rfl⟩
            refine ⟨d - 1 - i, by omega, t, ht, ?_⟩
            have hcast : ((d - 1 - i : Nat) : Int) = (d : Int) - 1 - (i : Int) := by omega
            rw [hcast]
            ring
          · rintro ⟨i, hi, t, ht, hx⟩
            refine ⟨d - 1 - i, by omega, t, ht, ?_⟩
            have hcast : ((d - 1 - i : Nat) : Int) = (d : Int) - 1 - (i : Int) := by omega
            rw [hcast]
            linear_combination hx
      | j + 1 =>
        simp only [List.set_cons_succ, List.getD_cons_succ, mem_viewAddrs_cons]
        constructor
        · rintro ⟨i, hi, t, ht, rfl⟩
          exact ⟨i, hi,
            t + (if ds.getD j 0 = 0 then 0 else ((ds.getD j 0 : Int) - 1) * ss.getD j 0),
            (ih ss j t).mp ht, by ring⟩
        · rintro ⟨i, hi, t, ht, hx⟩
          refine ⟨i, hi,
            t - (if ds.getD j 0 = 0 then 0 else ((ds.getD j 0 : Int) - 1) * ss.getD j 0),
            ?_, by linear_combination hx⟩
          apply (ih ss j _).mpr
          have : t - (if ds.getD j 0 = 0 then 0 else ((ds.getD j 0 : Int) - 1) * ss.getD j 0) +
              (if ds.getD j 0 = 0 then 0 else ((ds.getD j 0 : Int) - 1) * ss.getD j 0) = t := by
            ring
          rw [this]
          exact ht

theorem bubblePassAux1_perm (cur : Nat × Int) (l : List (Nat × Int)) :
    (bubblePassAux1 cur l).Perm (cur :: l) := by
  induction l generalizing cur with
  | nil => exact List.Perm.refl _
  | cons y rest ih =>
    unfold bubblePassAux1
    split
    · exact ((ih cur).cons y).trans (List.Perm.swap cur y rest)
    · exact (ih y).cons cur

theorem bubblePass1_perm (l : List (Nat × Int)) : (bubblePass1 l).Perm l := by
  match l with
  | [] => exact .refl _
  | x :: rest => exact bubblePassAux1_perm x rest

theorem bubbleIter1_perm (fuel : Nat) (l : List (Nat × Int)) : (bubbleIter1 fuel l).Perm l := by
  induction fuel generalizing l with
  | zero => exact .refl _
  | succ n ih =>
    unfold bubbleIter1
    split
    · exact .refl _
    · exact (ih _).trans (bubblePass1_perm l)

theorem bubblePassAuxT_perm (cur : Nat × Int × Nat × Int) (l : List (Nat × Int × Nat × Int)) :
    (bubblePassAuxT cur l).Perm (cur :: l) := by
  induction l generalizing cur with
  | nil => exact List.Perm.refl _
  | cons y rest ih =>
    unfold bubblePassAuxT
    split
    · exact ((ih cur).cons y).trans (List.Perm.swap cur y rest)
    · exact (ih y).cons cur

theorem bubblePassT_perm (l : List (Nat × Int × Nat × Int)) : (bubblePassT l).Perm l := by
  match l with
  | [] => exact .refl _
  | x :: rest => exact bubblePassAuxT_perm x rest

theorem bubbleIterT_perm (fuel : Nat) (l : List (Nat × Int × Nat × Int)) :
    (bubbleIterT fuel l).Perm l := by
  induction fuel generalizing l with
  | zero => exact .refl _
  | succ n ih =>
    unfold bubbleIterT
    split
    · exact .refl _
    · exact (ih _).trans (bubblePassT_perm l)

theorem uninvertAxes_length (dim : List Nat) (strides : List Int) (off : Int) :
    (uninvertAxes dim strides off).1.length = strides.length := by
  unfold uninvertAxes
  generalize List.range dim.length = l
  induction l generalizing strides off with
  | nil => rfl
  | cons i rest ih =>
    rw [List.foldl_cons]
    dsimp only []
    split
    · rw [ih]
      exact List.length_set _ _ _
    · exact ih strides off

theorem uninvertAxes_mem (dim : List Nat) (strides : List Int) (off : Int) (x : Int) :
    (x ∈ viewAddrs dim (uninvertAxes dim strides off).1 (uninvertAxes dim strides off).2) ↔
    x ∈ viewAddrs dim strides off := by
  unfold uninvertAxes
  generalize List.range dim.length = l
  induction l generalizing strides off with
  | nil => exact Iff.rfl
  | cons i rest ih =>
    rw [List.foldl_cons]
    dsimp only []
    split
    · rename_i hneg
      refine (ih _ _).trans ?_
      set A := (if dim.getD i 0 = 0 then (0 : Int)
          else ((dim.getD i 0 : Int) - 1) * strides.getD i 0) with hA
      have hinv := mem_baseAddrs_invert dim strides i (x - (off + A))
      rw [← hA] at hinv
      rw [mem_viewAddrs_iff_base dim (strides.set i (-(strides.getD i 0))) (off + A) x,
        hinv, show x - (off + A) + A = x - off by ring,
        mem_viewAddrs_iff_base dim strides off x]
    · exact ih strides off

theorem mem_viewAddrs_off_congr {dim1 dim2 : List Nat} {s1 s2 : List Int} {off x : Int}
    (h : ∀ y, y ∈ viewAddrs dim1 s1 0 ↔ y ∈ viewAddrs dim2 s2 0) :
    x ∈ viewAddrs dim1 s1 off ↔ x ∈ viewAddrs dim2 s2 off := by
  rw [viewAddrs_shift dim1, viewAddrs_shift dim2]
  simp only [List.mem_map]
  constructor
  · rintro ⟨t, ht, rfl⟩
    exact ⟨t, (h t).mp ht, rfl⟩
  · rintro ⟨t, ht, rfl⟩
    exact ⟨t, (h t).mpr ht, rfl⟩

theorem sortAxesDefault_mem (dim : List Nat) (strides : List Int)
    (hlen : strides.length = dim.length) (off x : Int) :
    (x ∈ viewAddrs (sortAxesDefault dim strides).1 (sortAxesDefault dim strides).2 off) ↔
    x ∈ viewAddrs dim strides off := by
  unfold sortAxesDefault
  split
  · exact Iff.rfl
  · dsimp only []
    apply mem_viewAddrs_off_congr
    intro y
    have hperm := bubbleIter1_perm (((dim.zip strides).length + 1) * ((dim.zip strides).length + 1))
      (dim.zip strides)
    have h1 := mem_pairsAddrs_of_perm hperm y
    unfold pairsAddrs at h1
    rw [List.map_fst_zip dim strides (le_of_eq hlen.symm),
      List.map_snd_zip dim strides (le_of_eq hlen)] at h1
    exact h1

theorem sortAxesDefault_fst_perm (dim : List Nat) (strides : List Int)
    (hlen : strides.length = dim.length) :
    (sortAxesDefault dim strides).1.Perm dim := by
  unfold sortAxesDefault
  split
  · exact .refl _
  · dsimp only []
    have hperm := bubbleIter1_perm (((dim.zip strides).length + 1) * ((dim.zip strides).length + 1))
      (dim.zip strides)
    have h := hperm.map Prod.fst
    rw [List.map_fst_zip dim strides (le_of_eq hlen.symm)] at h
    exact h

theorem canonicalAddrs_mem (st : MovedArray) (hlen : st.strides.length = st.dim.length)
    (x : Int) :
    x ∈ canonicalAddrs st ↔ x ∈ viewAddrs st.dim st.strides st.off := by
  unfold canonicalAddrs
  dsimp only []
  rw [sortAxesDefault_mem st.dim (uninvertAxes st.dim st.strides st.off).1
      (by rw [uninvertAxes_length]; exact hlen)]
  exact uninvertAxes_mem st.dim st.strides st.off x

theorem canonicalAddrs_length (st : MovedArray) (hlen : st.strides.length = st.dim.length) :
    (canonicalAddrs st).length = st.dim.prod := by
  unfold canonicalAddrs
  dsimp only []
  rw [length_viewAddrs]
  exact (sortAxesDefault_fst_perm st.dim (uninvertAxes st.dim st.strides st.off).1
    (by rw [uninvertAxes_length]; exact hlen)).prod_eq

/-- C3: for an array with holes (view count strictly below the buffer length,
nonzero element size), `move_into` destroys exactly the buffer offsets not
reachable through the view, each exactly once, in strictly increasing address
order, and the internal consistency assertion — destroyed count plus
view-element count equals the buffer's logical length — holds.  The hypotheses
`hchain`/`hbound` are the address-ordered, in-bounds traversal guarantees the
canonicalization establishes for genuine sliced views (the source debug-asserts
them at lines 219–220 and 240). -/
theorem move_into_holes_drops_complement (sizeOfA : Nat) (st : MovedArray)
    (hsz : sizeOfA ≠ 0) (hlen : st.strides.length = st.dim.length)
    (hholes : st.dim.prod < st.dataLen)
    (hchain : List.Pairwise (· < ·) (canonicalAddrs st))
    (hbound : ∀ a ∈ canonicalAddrs st, 0 ≤ a ∧ a < (st.dataLen : Int)) :
    (moveInto sizeOfA st).dropped =
      (intsFromTo 0 (st.dataLen : Int)).filter
        (fun a => !List.elem a (moveInto sizeOfA st).relocated) ∧
    List.Pairwise (· < ·) (moveInto sizeOfA st).dropped ∧
    st.dataLen = (moveInto sizeOfA st).dropped.length + st.dim.prod := by
  have hfast : takesFastPath sizeOfA st = false := by
    unfold takesFastPath
    rw [Bool.or_eq_false_iff]
    constructor
    · rw [beq_eq_false_iff_ne]
      omega
    · rw [beq_eq_false_iff_ne]
      exact hsz
  have hdropped : (moveInto sizeOfA st).dropped = dropWalk (canonicalAddrs st) 0 st.dataLen := by
    show dropUnreachable sizeOfA st = _
    unfold dropUnreachable
    rw [hfast]
    rfl
  have hspec := dropWalk_spec (canonicalAddrs st) 0 st.dataLen hchain
    (fun a ha => (hbound a ha))
  have hmemeq : ∀ a, List.elem a (canonicalAddrs st) = List.elem a (moveInto sizeOfA st).relocated := by
    intro a
    rw [Bool.eq_iff_iff]
    simp only [List.elem_iff]
    exact canonicalAddrs_mem st hlen a
  have hnodupCanon : (canonicalAddrs st).Nodup := hchain.imp (fun h => ne_of_lt h)
  refine ⟨?_, ?_, ?_⟩
  · rw [hdropped, hspec]
    exact List.filter_congr (fun a _ => by rw [hmemeq a])
  · rw [hdropped, hspec]
    exact List.Pairwise.sublist (List.filter_sublist _) (pairwise_intsFromTo _ _)
  · rw [hdropped, hspec]
    have hLlen : (intsFromTo 0 (st.dataLen : Int)).length = st.dataLen := by
      rw [length_intsFromTo]
      omega
    have hpartition := (List.filter_append_perm
      (fun a => List.elem a (canonicalAddrs st)) (intsFromTo 0 (st.dataLen : Int))).length_eq
    rw [List.length_append, hLlen] at hpartition
    have hkept : ((intsFromTo 0 (st.dataLen : Int)).filter
        (fun a => List.elem a (canonicalAddrs st))).Perm (canonicalAddrs st) := by
      apply List.Subperm.antisymm
      · apply List.Nodup.subperm
        · exact List.Nodup.sublist (List.filter_sublist _) (nodup_intsFromTo _ _)
        · intro a ha
          have := (List.mem_filter.mp ha).2
          rwa [List.elem_iff] at this
      · apply List.Nodup.subperm hnodupCanon
        intro a ha
        apply List.mem_filter.mpr
        refine ⟨?_, ?_⟩
        · rw [mem_intsFromTo]
          exact hbound a ha
        · rw [List.elem_iff]
          exact ha
    rw [hkept.length_eq, canonicalAddrs_length st hlen] at hpartition
    omega

/-- The spec's own example: a length-6 buffer viewed at offsets {0,2,4}. -/
def exC3 : MovedArray := { dataLen := 6, dim := [3], strides := [2], off := 0 }

theorem move_into_holes_drops_complement_witness :
    (moveInto 1 exC3).dropped =
      (intsFromTo 0 (exC3.dataLen : Int)).filter
        (fun a => !List.elem a (moveInto 1 exC3).relocated) ∧
    List.Pairwise (· < ·) (moveInto 1 exC3).dropped ∧
    exC3.dataLen = (moveInto 1 exC3).dropped.length + exC3.dim.prod :=
  move_into_holes_drops_complement 1 exC3 (by decide) (by decide) (by decide)
    (by decide) (by decide)

/-! ## C1: the `SetLenOnDrop` guard under a clone panic -/

theorem flatMap_congr_left {β γ : Type} (l : List β) (f g : β → List γ)
    (h : ∀ b ∈ l, f b = g b) : l.flatMap f = l.flatMap g := by
  induction l with
  | nil => rfl
  | cons x xs ih =>
    rw [List.flatMap_cons, List.flatMap_cons, h x (List.mem_cons_self _ _),
      ih (fun b hb => h b (List.mem_cons_of_mem _ hb))]

theorem range_mul_flatMap (a P : Nat) :
    List.range (a * P) = (List.range a).flatMap (fun i => (List.range P).map (fun k => i * P + k)) := by
  induction a with
  | zero => simp
  | succ n ih =>
    rw [List.range_succ, Nat.succ_mul, List.range_add, ih, List.flatMap_append]
    simp [List.flatMap_cons, Nat.mul_comm]

/-- Row-major traversal of a standard-layout view enumerates offsets
`0, 1, …, n-1` in order. -/
theorem offsets_standard (d : List Nat) :
    (indicesOf d).map (fun idx => offsetOf (defaultStrides d) idx) =
      (List.range d.prod).map (fun (k : Nat) => (k : Int)) := by
  induction d with
  | nil =>
    show [offsetOf [] []] = _
    rw [offsetOf_nil_strides]
    rfl
  | cons a ds ih =>
    have hout : indicesOf (a :: ds) =
        (List.range a).flatMap (fun i => (indicesOf ds).map (fun idx => i :: idx)) := rfl
    have hstr : defaultStrides (a :: ds) = ((ds.prod : Nat) : Int) :: defaultStrides ds := rfl
    rw [hout, hstr, List.map_flatMap, List.prod_cons, range_mul_flatMap a ds.prod,
      List.map_flatMap]
    apply flatMap_congr_left
    intro i _
    calc ((indicesOf ds).map (fun idx => i :: idx)).map
          (fun idx => offsetOf (((ds.prod : Nat) : Int) :: defaultStrides ds) idx)
        = ((indicesOf ds).map (fun idx => offsetOf (defaultStrides ds) idx)).map
            (fun t => ((ds.prod : Nat) : Int) * (i : Int) + t) := by
          rw [List.map_map, List.map_map]
          apply List.map_congr_left
          intro idx _
          simp only [Function.comp_apply]
          exact offsetOf_cons _ _ _ _
      _ = ((List.range ds.prod).map (fun (k : Nat) => (k : Int))).map
            (fun t => ((ds.prod : Nat) : Int) * (i : Int) + t) := by rw [ih]
      _ = ((List.range ds.prod).map (fun k => i * ds.prod + k)).map
            (fun (k : Nat) => (k : Int)) := by
          rw [List.map_map, List.map_map]
          apply List.map_congr_left
          intro k _
          simp only [Function.comp_apply]
          push_cast
          ring

/-- The write loop on a list whose first `k` clones succeed and whose `k`-th
fails: it panics after exactly `k` successful writes, which are the first `k`
pairs with their cloned values. -/
theorem runWrites_spec [Inhabited α] (cloneF : α → Option α) (ps : List (Int × α)) (k : Nat)
    (hk : k < ps.length)
    (hok : ∀ j (hj : j < k), (cloneF (ps.get ⟨j, lt_trans hj hk⟩).2).isSome = true)
    (hfail : cloneF (ps.get ⟨k, hk⟩).2 = none) :
    (runWrites cloneF ps).2 = true ∧
    (runWrites cloneF ps).1 = (ps.take k).map (fun p => (p.1, (cloneF p.2).getD default)) := by
  induction ps generalizing k with
  | nil => exact absurd hk (Nat.not_lt_zero k)
  | cons p rest ih =>
    cases k with
    | zero =>
      have : cloneF p.2 = none := hfail
      unfold runWrites
      rw [this]
      exact ⟨rfl, rfl⟩
    | succ m =>
      have h0 : (cloneF p.2).isSome = true := hok 0 (Nat.succ_pos m)
      obtain ⟨v, hv⟩ := Option.isSome_iff_exists.mp h0
      have hm : m < rest.length := Nat.lt_of_succ_lt_succ hk
      have hok' : ∀ j (hj : j < m), (cloneF (rest.get ⟨j, lt_trans hj hm⟩).2).isSome = true := by
        intro j hj
        exact hok (j + 1) (Nat.succ_lt_succ hj)
      have hfail' : cloneF (rest.get ⟨m, hm⟩).2 = none := hfail
      obtain ⟨ih2, ih1⟩ := ih m hm hok' hfail'
      unfold runWrites
      rw [hv]
      dsimp only []
      refine ⟨ih2, ?_⟩
      rw [List.take_succ_cons, List.map_cons, ih1, hv]
      rfl

theorem find?_cons_pos {β : Type u} (p : β → Bool) (a : β) (l : List β) (h : p a = true) :
    List.find? p (a :: l) = some a :=
  List.find?_cons_of_pos l h

theorem find?_cons_neg {β : Type u} (p : β → Bool) (a : β) (l : List β) (h : p a = false) :
    List.find? p (a :: l) = List.find? p l :=
  List.find?_cons_of_neg l (by rw [h]; exact Bool.false_ne_true)

/-- `find?` on a list whose `i`-th destination is `base + i` locates exactly
the `j`-th entry. -/
theorem find_dst_at [Inhabited α] (vs : List (Int × α)) (base : Int) (j : Nat)
    (hj : j < vs.length)
    (hdst : ∀ i (hi : i < vs.length), (vs.get ⟨i, hi⟩).1 = base + (i : Int)) :
    vs.find? (fun w => w.1 == base + (j : Int)) = some (vs.get ⟨j, hj⟩) := by
  induction vs generalizing base j with
  | nil => exact absurd hj (Nat.not_lt_zero j)
  | cons v rest ih =>
    have hv : v.1 = base := by
      have := hdst 0 (Nat.succ_pos _)
      simpa using this
    cases j with
    | zero =>
      have hget : (v :: rest).get ⟨0, hj⟩ = v := rfl
      rw [hget]
      apply find?_cons_pos
      rw [hv, Nat.cast_zero, add_zero]
      exact beq_self_eq_true base
    | succ m =>
      have hne : (v.1 == base + ((m + 1 : Nat) : Int)) = false := by
        rw [hv, beq_eq_false_iff_ne]
        intro h
        omega
      rw [find?_cons_neg (fun (w : Int × α) => w.1 == base + ((m + 1 : Nat) : Int)) v rest hne]
      have hm : m < rest.length := Nat.lt_of_succ_lt_succ hj
      have hdst' : ∀ i (hi : i < rest.length), (rest.get ⟨i, hi⟩).1 = (base + 1) + (i : Int) := by
        intro i hi
        have := hdst (i + 1) (Nat.succ_lt_succ hi)
        rw [List.get_cons_succ] at this
        rw [this]
        push_cast
        ring
      have := ih (base + 1) m hm hdst'
      rw [show base + 1 + (m : Int) = base + ((m + 1 : Nat) : Int) by push_cast; ring] at this
      rw [this]
      rfl

theorem length_fillTail [Inhabited α] (n : Nat) (ws : List (Int × α)) :
    (fillTail n ws).length = n := by
  simp [fillTail]

/-- Filling `n` slots from writes whose `i`-th destination is exactly `i`
reproduces the written values in order. -/
theorem fillTail_spec [Inhabited α] (vs : List (Int × α))
    (hdst : ∀ i (hi : i < vs.length), (vs.get ⟨i, hi⟩).1 = (i : Int)) :
    fillTail vs.length vs = vs.map Prod.snd := by
  apply List.ext_getElem
  · rw [length_fillTail, List.length_map]
  · intro i h1 h2
    rw [length_fillTail] at h1
    have hfind := find_dst_at vs 0 i h1 (by intro j hj; rw [hdst j hj]; ring)
    rw [show (0 : Int) + (i : Int) = (i : Int) by ring] at hfind
    show (fillTail vs.length vs)[i] = _
    unfold fillTail
    rw [List.getElem_map, List.getElem_range, hfind, List.getElem_map]
    rw [List.get_eq_getElem]

/-- On a standard-layout tail at offset 0, the write destinations are
`0, 1, …, n-1` in traversal order. -/
theorem writePairs_fst_standard [Inhabited α] (t : TailView) (arr : View α)
    (hstd : isStandardLayout t.dim t.strides) (hoff : t.off = 0) :
    (writePairs t arr).map Prod.fst = (List.range t.dim.prod).map (fun (k : Nat) => (k : Int)) := by
  unfold writePairs
  rw [List.map_map]
  have : (Prod.fst ∘ fun idx => (t.off + offsetOf t.strides idx, arr.elemAt idx)) =
      (fun idx => offsetOf (defaultStrides t.dim) idx) := by
    funext idx
    simp only [Function.comp_apply]
    rw [hoff, show t.strides = defaultStrides t.dim from hstd, zero_add]
  rw [this, offsets_standard]

/-- C1: if the clone of the `k`-th element fails partway through the write
loop, unwinding runs the `SetLenOnDrop` guard and the buffer's logical length
becomes the old length plus exactly the `k` elements already constructed — no
more, no fewer; the shape and strides are not committed; and (with the
asserted-standard tail writing at the buffer's end) the live region holds the
old elements followed by precisely the `k` cloned elements, so destruction of
the buffer destroys exactly the constructed elements. -/
theorem append_panic_sets_exact_length [Inhabited α] (cloneF : α → Option α)
    (self : OwnedArray α) (axis : Nat) (arr : View α) (rd : List Nat) (nl : Nat) (k : Nat)
    (hv : appendValidation self axis arr = .proceed rd nl)
    (hoff : self.off = 0)
    (hstd : isStandardLayout (appendTailTransformed self axis arr rd).1.dim
      (appendTailTransformed self axis arr rd).1.strides)
    (htoff : (appendTailTransformed self axis arr rd).1.off = 0)
    (hk : k < (writePairs (appendTailTransformed self axis arr rd).1
      (appendTailTransformed self axis arr rd).2).length)
    (hok : ∀ j (hj : j < k),
      (cloneF ((writePairs (appendTailTransformed self axis arr rd).1
        (appendTailTransformed self axis arr rd).2).get ⟨j, lt_trans hj hk⟩).2).isSome = true)
    (hfail : cloneF ((writePairs (appendTailTransformed self axis arr rd).1
      (appendTailTransformed self axis arr rd).2).get ⟨k, hk⟩).2 = none) :
    ∃ st', tryAppendArray cloneF self axis arr = .panicked st' ∧
      st'.data.length = self.data.length + k ∧
      st'.dim = self.dim ∧ st'.strides = self.strides ∧
      st'.data = self.data ++
        ((writePairs (appendTailTransformed self axis arr rd).1
          (appendTailTransformed self axis arr rd).2).take k).map
            (fun p => (cloneF p.2).getD default) := by
  obtain ⟨hpan, hws⟩ := runWrites_spec cloneF
    (writePairs (appendTailTransformed self axis arr rd).1
      (appendTailTransformed self axis arr rd).2) k hk hok hfail
  have hws2 : (appendWrites cloneF self axis arr rd).2 = true := hpan
  have hws1 : (appendWrites cloneF self axis arr rd).1 =
      ((writePairs (appendTailTransformed self axis arr rd).1
        (appendTailTransformed self axis arr rd).2).take k).map
          (fun p => (p.1, (cloneF p.2).getD default)) := hws
  have hlen1 : (appendWrites cloneF self axis arr rd).1.length = k := by
    rw [hws1, List.length_map, List.length_take]
    omega
  -- destination offsets of the successful writes are 0, 1, …, k-1
  have hfsts : (appendWrites cloneF self axis arr rd).1.map Prod.fst =
      ((List.range (appendTailTransformed self axis arr rd).1.dim.prod).map
        (fun (j : Nat) => (j : Int))).take k := by
    rw [hws1, List.map_map]
    have hcomp : (Prod.fst ∘ fun (p : Int × α) => (p.1, (cloneF p.2).getD default)) =
        Prod.fst := by
      funext p
      rfl
    rw [hcomp, ← writePairs_fst_standard (appendTailTransformed self axis arr rd).1
      (appendTailTransformed self axis arr rd).2 hstd htoff]
    exact List.map_take _ _ _
  have hdst : ∀ i (hi : i < (appendWrites cloneF self axis arr rd).1.length),
      ((appendWrites cloneF self axis arr rd).1.get ⟨i, hi⟩).1 = (i : Int) := by
    intro i hi
    have hi2 : i < ((appendWrites cloneF self axis arr rd).1.map Prod.fst).length := by
      rw [List.length_map]
      exact hi
    have h1 := List.getElem_of_eq hfsts hi2
    rw [List.getElem_map, List.getElem_take, List.getElem_map, List.getElem_range] at h1
    rw [List.get_eq_getElem]
    exact h1
  have hfill : fillTail (appendWrites cloneF self axis arr rd).1.length
      (appendWrites cloneF self axis arr rd).1 =
      (appendWrites cloneF self axis arr rd).1.map Prod.snd :=
    fillTail_spec _ hdst
  have hsnd : (appendWrites cloneF self axis arr rd).1.map Prod.snd =
      ((writePairs (appendTailTransformed self axis arr rd).1
        (appendTailTransformed self axis arr rd).2).take k).map
          (fun p => (cloneF p.2).getD default) := by
    rw [hws1, List.map_map]
    rfl
  refine ⟨{ self with
      data := self.data ++ fillTail (appendWrites cloneF self axis arr rd).1.length
        (appendWrites cloneF self axis arr rd).1,
      off := 0 }, ?_, ?_, rfl, rfl, ?_⟩
  · unfold tryAppendArray
    rw [hv]
    dsimp only []
    rw [hoff]
    rw [if_neg (not_ne_iff.mpr rfl), if_neg (not_not_intro hstd), hws2, if_pos rfl]
  · show (self.data ++ fillTail (appendWrites cloneF self axis arr rd).1.length
      (appendWrites cloneF self axis arr rd).1).length = self.data.length + k
    rw [List.length_append, length_fillTail, hlen1]
  · show self.data ++ fillTail (appendWrites cloneF self axis arr rd).1.length
      (appendWrites cloneF self axis arr rd).1 = _
    rw [hfill, hsnd]

def exC1self : OwnedArray Nat := { data := [], off := 0, dim := [0, 2], strides := [2, 1] }

def exC1arr : View Nat := { data := [5, 6, 7, 8], off := 0, dim := [2, 2], strides := [2, 1] }

/-- A clone that panics on the element `7` (the third element written). -/
def exC1clone : Nat → Option Nat := fun a => if a = 7 then none else some a

theorem append_panic_sets_exact_length_witness :
    ∃ st', tryAppendArray exC1clone exC1self 0 exC1arr = .panicked st' ∧
      st'.data.length = exC1self.data.length + 2 ∧
      st'.dim = exC1self.dim ∧ st'.strides = exC1self.strides ∧
      st'.data = exC1self.data ++
        ((writePairs (appendTailTransformed exC1self 0 exC1arr [2, 2]).1
          (appendTailTransformed exC1self 0 exC1arr [2, 2]).2).take 2).map
            (fun p => (exC1clone p.2).getD default) :=
  append_panic_sets_exact_length exC1clone exC1self 0 exC1arr [2, 2] 4 2
    (by decide) (by decide) (by decide) (by decide) (by decide) (by decide) (by decide)

/-! ## C5: standard-layout preservation across `try_append_array` -/

/-- The (2,1)-shaped standard array of the C5 counterexample. -/
def exC5self : OwnedArray Nat := { data := [10, 20], off := 0, dim := [2, 1], strides := [1, 1] }

def exC5arr : View Nat := { data := [30, 40], off := 0, dim := [2, 1], strides := [1, 1] }

/-- The result of appending `exC5arr` to `exC5self` along axis 1: the promoted
stride 2 on axis 1 makes the layout non-standard. -/
def exC5out : OwnedArray Nat :=
  { data := [10, 20, 30, 40], off := 0, dim := [2, 2], strides := [1, 2] }

/-- C5: refuted — a successful `try_append_array` on a standard-layout array
can produce a non-standard result: appending a (2,1) slab to a (2,1)
standard array along axis 1 takes the extent-1 stride-promotion branch
(lines 371–380), committing strides `[1, 2]` on shape `[2, 2]`, whereas the
canonical strides are `[2, 1]`. -/
theorem standard_layout_not_preserved :
    tryAppendArray cloneOk exC5self 1 exC5arr = .ok exC5out ∧
    isStandardLayout exC5self.dim exC5self.strides ∧
    ¬ isStandardLayout exC5out.dim exC5out.strides :=
  ⟨by decide, by decide, by decide⟩

theorem set_getD_eq_self (l : List Nat) (i : Nat) (h : i < l.length) :
    l.set i (l.getD i 0) = l := by
  induction l generalizing i with
  | nil => rfl
  | cons x xs ih =>
    cases i with
    | zero => rfl
    | succ n => simpa using ih n (by simpa using h)

theorem defaultStrides_length (X : List Nat) : (defaultStrides X).length = X.length := by
  induction X with
  | nil => rfl
  | cons x xs ih => simp only [defaultStrides, List.length_cons, ih]

theorem defaultStrides_getD (X : List Nat) (i : Nat) (h : i < X.length) :
    (defaultStrides X).getD i 0 = ((X.drop (i + 1)).prod : Int) := by
  induction X generalizing i with
  | nil => simp at h
  | cons x xs ih =>
    cases i with
    | zero => rfl
    | succ n =>
      simp only [defaultStrides, List.getD_cons_succ, List.drop_succ_cons]
      exact ih n (by simpa using h)

/-- Canonical row-major strides ignore the outermost extent. -/
theorem defaultStrides_set_head (l : List Nat) (v : Nat) (h : l ≠ []) :
    defaultStrides (l.set 0 v) = defaultStrides l := by
  cases l with
  | nil => exact absurd rfl h
  | cons x xs => rfl

theorem drop_eq_getD_cons (l : List Nat) (i : Nat) (h : i < l.length) :
    l.drop i = l.getD i 0 :: l.drop (i + 1) := by
  induction l generalizing i with
  | nil => simp at h
  | cons x xs ih =>
    cases i with
    | zero => rfl
    | succ n =>
      simp only [List.drop_succ_cons, List.getD_cons_succ]
      exact ih n (by simpa using h)

/-- The fold inside `maxByStrideLast` returns a member of the list that is an
upper bound for every element's stride. -/
theorem maxFold_spec (x : Nat × Nat × Int) (xs : List (Nat × Nat × Int)) :
    xs.foldl (fun acc y => if acc.2.2 ≤ y.2.2 then y else acc) x ∈ x :: xs ∧
    x.2.2 ≤ (xs.foldl (fun acc y => if acc.2.2 ≤ y.2.2 then y else acc) x).2.2 ∧
    ∀ y ∈ xs, y.2.2 ≤ (xs.foldl (fun acc y => if acc.2.2 ≤ y.2.2 then y else acc) x).2.2 := by
  induction xs generalizing x with
  | nil =>
    exact ⟨List.mem_cons_self x [], le_refl _, fun y hy => absurd hy (List.not_mem_nil y)⟩
  | cons z zs ih =>
    simp only [List.foldl_cons]
    by_cases hc : x.2.2 ≤ z.2.2
    · rw [if_pos hc]
      obtain ⟨hmem, hz, hall⟩ := ih z
      refine ⟨List.mem_cons_of_mem x hmem, le_trans hc hz, ?_⟩
      intro y hy
      rcases List.mem_cons.mp hy with h | h
      · rw [h]; exact hz
      · exact hall y h
    · rw [if_neg hc]
      obtain ⟨hmem, hx, hall⟩ := ih x
      refine ⟨?_, hx, ?_⟩
      · rcases List.mem_cons.mp hmem with h | h
        · rw [h]; exact List.mem_cons_self x (z :: zs)
        · exact List.mem_cons_of_mem x (List.mem_cons_of_mem z h)
      · intro y hy
        rcases List.mem_cons.mp hy with h | h
        · rw [h]; exact le_trans (le_of_lt (lt_of_not_le hc)) hx
        · exact hall y h

/-- If the strides are the canonical row-major strides of a shape `X` of
all-positive extents whose entry on a non-outermost axis is at least 2, the
growing-axis layout check of lines 344–350 fails on that axis: axis 0 has a
strictly larger stride, so the last maximal-stride axis is a different axis
whose stride strictly exceeds the growing axis's. -/
theorem layoutCheckFails_of_standard (dim X : List Nat) (strides : List Int) (axis : Nat)
    (hstr : strides = defaultStrides X)
    (hXlen : X.length = dim.length)
    (hposX : ∀ x ∈ X, 1 ≤ x)
    (hax2 : 2 ≤ X.getD axis 0)
    (hax1 : 1 ≤ axis) (haxlt : axis < dim.length) :
    layoutCheckFails dim strides axis = true := by
  have haxX : axis < X.length := by omega
  have hs0 : strides.getD 0 0 = ((X.drop 1).prod : Int) := by
    rw [hstr]; exact defaultStrides_getD X 0 (by omega)
  have hsax : strides.getD axis 0 = ((X.drop (axis + 1)).prod : Int) := by
    rw [hstr]; exact defaultStrides_getD X axis haxX
  have hsplit : (X.drop 1).prod =
      ((X.drop 1).take (axis - 1)).prod * (X.getD axis 0 * (X.drop (axis + 1)).prod) := by
    conv_lhs => rw [← List.take_append_drop (axis - 1) (X.drop 1)]
    rw [List.prod_append, List.drop_drop, Nat.add_comm 1 (axis - 1), Nat.sub_add_cancel hax1,
      drop_eq_getD_cons X axis haxX, List.prod_cons]
  have hT : 1 ≤ ((X.drop 1).take (axis - 1)).prod :=
    List.one_le_prod_of_one_le
      (fun x hx => hposX x (List.mem_of_mem_drop (List.mem_of_mem_take hx)))
  have hS : 1 ≤ (X.drop (axis + 1)).prod :=
    List.one_le_prod_of_one_le (fun x hx => hposX x (List.mem_of_mem_drop hx))
  have hltN : (X.drop (axis + 1)).prod < (X.drop 1).prod := by
    rw [hsplit]
    calc (X.drop (axis + 1)).prod
        < 2 * (X.drop (axis + 1)).prod := by omega
      _ ≤ X.getD axis 0 * (X.drop (axis + 1)).prod :=
          Nat.mul_le_mul_right _ hax2
      _ ≤ ((X.drop 1).take (axis - 1)).prod * (X.getD axis 0 * (X.drop (axis + 1)).prod) :=
          Nat.le_mul_of_pos_left _ hT
  have hltI : strides.getD axis 0 < strides.getD 0 0 := by
    rw [hs0, hsax]
    exact_mod_cast hltN
  have h0A : (0, dim.getD 0 0, strides.getD 0 0) ∈ axesOf dim strides :=
    axesOf_mem_iff.mpr ⟨0, by omega, rfl⟩
  unfold layoutCheckFails
  cases hA : axesOf dim strides with
  | nil => rw [hA] at h0A; exact absurd h0A (List.not_mem_nil _)
  | cons a as =>
    obtain ⟨hmemM, hxa, hall⟩ := maxFold_spec a as
    simp only [maxByStrideLast]
    rw [Bool.and_eq_true]
    set m := as.foldl (fun acc y => if acc.2.2 ≤ y.2.2 then y else acc) a with hm
    have h0b : strides.getD 0 0 ≤ m.2.2 := by
      rw [hA] at h0A
      rcases List.mem_cons.mp h0A with h | h
      · rw [← h] at hxa; exact hxa
      · exact hall _ h
    have hmax : strides.getD axis 0 < m.2.2 := lt_of_lt_of_le hltI h0b
    have hmA : m ∈ axesOf dim strides := by rw [hA]; exact hmemM
    obtain ⟨j, hj, hmj⟩ := axesOf_mem_iff.mp hmA
    have hne2 : m.1 ≠ axis := by
      intro he
      rw [hmj] at he hmax
      dsimp only [] at he hmax
      rw [he] at hmax
      exact lt_irrefl _ hmax
    exact ⟨bne_iff_ne.mpr hne2, decide_eq_true hmax⟩

/-- Decomposition of a successful `try_append_array` call that appended an
empty slab: validation took the no-op branch and only the shape changed. -/
theorem tryAppend_ok_noop [Inhabited α] {cloneF : α → Option α} {self : OwnedArray α}
    {axis : Nat} {arr : View α} {st' : OwnedArray α}
    (hok : tryAppendArray cloneF self axis arr = .ok st') (hz : arr.dim.prod = 0) :
    ∃ rd nl, appendValidation self axis arr = .noop rd nl ∧ st' = { self with dim := rd } := by
  unfold tryAppendArray at hok
  split at hok
  · exact absurd hok (by simp)
  · rename_i rd nl hv
    split at hok
    · exact absurd hok (by simp)
    · injection hok with hst
      exact ⟨rd, nl, hv, hst.symm⟩
  · rename_i rd nl hv
    obtain ⟨-, -, -, -, -, hnz, -, -⟩ := validation_proceed_spec hv
    exact absurd hz hnz

/-- C5 (amended): for every successful `try_append_array` call on a non-empty
array whose growing-axis extent is at least 2 before the call (so neither the
empty-array stride recomputation nor the extent-1 stride promotion of lines
357–385 runs), the result is in standard layout iff the input was: growing
axis 0 leaves the canonical strides unchanged, and growing any other axis of
a standard array is rejected by the layout check, so a successful call kept
the strides and the canonical strides of the result shape. -/
theorem standard_layout_preserved_iff [Inhabited α] (cloneF : α → Option α)
    (self : OwnedArray α) (axis : Nat) (arr : View α) (st' : OwnedArray α)
    (hax : axis < self.dim.length)
    (hlen : arr.dim.length = self.dim.length)
    (hne : self.dim.prod ≠ 0)
    (h2 : 2 ≤ self.dim.getD axis 0)
    (hok : tryAppendArray cloneF self axis arr = .ok st') :
    (isStandardLayout st'.dim st'.strides ↔ isStandardLayout self.dim self.strides) := by
  by_cases hz : arr.dim.prod = 0
  · obtain ⟨rd, nl, hv, hst⟩ := tryAppend_ok_noop hok hz
    obtain ⟨-, herase, hrd, -, -⟩ := validation_noop_spec hv
    have haxa : axis < arr.dim.length := by omega
    have hinc : arr.dim.getD axis 0 = 0 := by
      have heq := prod_eq_getD_mul_eraseIdx arr.dim axis haxa
      have heqS := prod_eq_getD_mul_eraseIdx self.dim axis hax
      rw [herase] at heqS
      have her : (arr.dim.eraseIdx axis).prod ≠ 0 := by
        intro hh
        rw [hh, Nat.mul_zero] at heqS
        exact hne heqS
      have hmz : arr.dim.getD axis 0 * (arr.dim.eraseIdx axis).prod = 0 := by
        rw [← heq]; exact hz
      rcases Nat.mul_eq_zero.mp hmz with h | h
      · exact h
      · exact absurd h her
    have hrdeq : rd = self.dim := by
      rw [hrd]
      unfold resDimOf
      rw [hinc, Nat.add_zero]
      exact set_getD_eq_self self.dim axis hax
    rw [hst, hrdeq]
  · obtain ⟨rd, nl, hv, hoff, hstd, hnp, hwlen, hst⟩ := tryAppend_ok_write hok hz
    obtain ⟨hd0, herase, hrd, -, -, -, hno, hdlen⟩ := validation_proceed_spec hv
    have hlayn : layoutCheckFails self.dim self.strides axis ≠ true := by
      intro hl
      exact hno ⟨hne, by omega, hl⟩
    have haxa : axis < arr.dim.length := by omega
    have hinc : 1 ≤ arr.dim.getD axis 0 := by
      have heq := prod_eq_getD_mul_eraseIdx arr.dim axis haxa
      by_contra hcon
      have h0 : arr.dim.getD axis 0 = 0 := by omega
      rw [h0, Nat.zero_mul] at heq
      exact hz heq
    have hkeep : stridesForAppend self axis rd = self.strides := by
      unfold stridesForAppend
      rw [if_neg hne, if_neg (by omega : ¬ self.dim.getD axis 0 = 1)]
    have hrdlen : rd.length = self.dim.length := by
      rw [hrd]; unfold resDimOf; exact List.length_set _ _ _
    have hrdax : rd.getD axis 0 = self.dim.getD axis 0 + arr.dim.getD axis 0 := by
      rw [hrd]; unfold resDimOf; exact getD_set_self _ _ _ _ hax
    have hposS : ∀ x ∈ self.dim, 1 ≤ x := by
      intro x hx
      rcases Nat.eq_zero_or_pos x with h0 | h1
      · exact absurd (List.prod_eq_zero_iff.mpr (h0 ▸ hx)) hne
      · exact h1
    have hposR : ∀ x ∈ rd, 1 ≤ x := by
      intro x hx
      rw [hrd] at hx
      unfold resDimOf at hx
      rcases List.mem_or_eq_of_mem_set hx with h | h
      · exact hposS x h
      · rw [h]; omega
    have hnil : self.dim ≠ [] := by
      intro hn
      rw [hn] at hax
      simp at hax
    rw [hst]
    show isStandardLayout rd (stridesForAppend self axis rd) ↔
      isStandardLayout self.dim self.strides
    rw [hkeep]
    rcases Nat.eq_zero_or_pos axis with h0 | hpos
    · subst h0
      have hds : defaultStrides rd = defaultStrides self.dim := by
        rw [hrd]
        unfold resDimOf
        exact defaultStrides_set_head self.dim _ hnil
      unfold isStandardLayout
      rw [hds]
    · constructor
      · intro hafter
        have hafterE : self.strides = defaultStrides rd := hafter
        exact absurd (layoutCheckFails_of_standard self.dim rd self.strides axis hafterE
          hrdlen hposR (by omega) hpos hax) hlayn
      · intro hbefore
        have hbeforeE : self.strides = defaultStrides self.dim := hbefore
        exact absurd (layoutCheckFails_of_standard self.dim self.dim self.strides axis hbeforeE
          rfl hposS h2 hpos hax) hlayn

def exC5wSelf : OwnedArray Nat :=
  { data := [1, 2, 3, 4, 5, 6], off := 0, dim := [2, 3], strides := [3, 1] }

def exC5wArr : View Nat := { data := [7, 8, 9], off := 0, dim := [1, 3], strides := [3, 1] }

def exC5wOut : OwnedArray Nat :=
  { data := [1, 2, 3, 4, 5, 6, 7, 8, 9], off := 0, dim := [3, 3], strides := [3, 1] }

theorem standard_layout_preserved_iff_witness :
    tryAppendArray cloneOk exC5wSelf 0 exC5wArr = .ok exC5wOut ∧
    (isStandardLayout exC5wOut.dim exC5wOut.strides ↔
      isStandardLayout exC5wSelf.dim exC5wSelf.strides) :=
  ⟨by decide, standard_layout_preserved_iff cloneOk exC5wSelf 0 exC5wArr exC5wOut (by decide)
    (by decide) (by decide) (by decide) (by decide)⟩

/-! ## C9: sequential slab appends versus one combined append -/

/-- A standard-layout owned array of shape `d :: rest` holding the row-major
element sequence `S`. -/
def stdArray [Inhabited α] (S : List α) (d : Nat) (rest : List Nat) : OwnedArray α :=
  { data := S, off := 0, dim := d :: rest, strides := defaultStrides (d :: rest) }

/-- A standard-layout slab view of shape `n :: rest` holding the row-major
element sequence `T`. -/
def stdSlab (T : List α) (n : Nat) (rest : List Nat) : View α :=
  { data := T, off := 0, dim := n :: rest, strides := defaultStrides (n :: rest) }

theorem set_getD_self_eq {β : Type u} (l : List β) (i : Nat) (d : β) :
    l.set i (l.getD i d) = l := by
  induction l generalizing i with
  | nil => rfl
  | cons x xs ih =>
    cases i with
    | zero => rfl
    | succ nn => simpa using ih nn

theorem listSwap_zero_zero [Inhabited β] (l : List β) : listSwap l 0 0 = l := by
  unfold listSwap
  rw [set_getD_self_eq, set_getD_self_eq]

theorem one_le_of_prod_ne_zero (l : List Nat) (h : l.prod ≠ 0) : ∀ x ∈ l, 1 ≤ x := by
  intro x hx
  rcases Nat.eq_zero_or_pos x with h0 | h1
  · exact absurd (List.prod_eq_zero_iff.mpr (h0 ▸ hx)) h
  · exact h1

theorem prod_drop_le_prod (l : List Nat) (hpos : ∀ x ∈ l, 1 ≤ x) (m : Nat) :
    (l.drop m).prod ≤ l.prod := by
  conv_rhs => rw [← List.take_append_drop m l]
  rw [List.prod_append]
  refine Nat.le_mul_of_pos_left _ ?_
  have := List.one_le_prod_of_one_le (l := l.take m) (fun x hx => hpos x (List.mem_of_mem_take hx))
  omega

/-- Every canonical stride is bounded by the total element count. -/
theorem defaultStrides_getD_le_prod (xs : List Nat) (hpos : ∀ x ∈ xs, 1 ≤ x) (m : Nat) :
    (defaultStrides xs).getD m 0 ≤ ((xs.prod : Nat) : Int) := by
  induction xs generalizing m with
  | nil => simp [defaultStrides]
  | cons y ys ih =>
    have hy : 1 ≤ y := hpos y (List.mem_cons_self _ _)
    cases m with
    | zero =>
      show ((ys.prod : Nat) : Int) ≤ (((y :: ys).prod : Nat) : Int)
      rw [List.prod_cons]
      exact_mod_cast Nat.le_mul_of_pos_left ys.prod (by omega)
    | succ mm =>
      show (defaultStrides ys).getD mm 0 ≤ (((y :: ys).prod : Nat) : Int)
      calc (defaultStrides ys).getD mm 0
          ≤ ((ys.prod : Nat) : Int) := ih (fun z hz => hpos z (List.mem_cons_of_mem _ hz)) mm
        _ ≤ (((y :: ys).prod : Nat) : Int) := by
            rw [List.prod_cons]
            exact_mod_cast Nat.le_mul_of_pos_left ys.prod (by omega)

/-- On a standard-layout array with positive extents, growing axis 0 passes
the layout check: axis 0 carries the maximal stride, so the last
maximal-stride axis cannot strictly exceed it. -/
theorem layoutCheckFails_default_axis0 (dim : List Nat) (hpos : ∀ x ∈ dim, 1 ≤ x) :
    layoutCheckFails dim (defaultStrides dim) 0 = false := by
  unfold layoutCheckFails
  cases hA : axesOf dim (defaultStrides dim) with
  | nil => rfl
  | cons a as =>
    obtain ⟨hmemM, hxa, hall⟩ := maxFold_spec a as
    simp only [maxByStrideLast]
    set m := as.foldl (fun acc y => if acc.2.2 ≤ y.2.2 then y else acc) a with hm
    have hmA : m ∈ axesOf dim (defaultStrides dim) := by rw [hA]; exact hmemM
    obtain ⟨j, hj, hmj⟩ := axesOf_mem_iff.mp hmA
    have hle : m.2.2 ≤ (defaultStrides dim).getD 0 0 := by
      rw [hmj]
      dsimp only []
      cases dim with
      | nil => simp at hj
      | cons x xs =>
        cases j with
        | zero => exact le_refl _
        | succ mj =>
          show (defaultStrides xs).getD mj 0 ≤ ((xs.prod : Nat) : Int)
          exact defaultStrides_getD_le_prod xs
            (fun y hy => hpos y (List.mem_cons_of_mem _ hy)) mj
    rw [decide_eq_false (not_lt.mpr hle), Bool.and_false]

/-- On a standard-layout array, the extent-1 promotion fold along axis 0
reproduces the axis-0 stride: the product of the remaining extents. -/
theorem promoteFold_axis0_default (d : Nat) (rest : List Nat) (hpos : ∀ x ∈ rest, 1 ≤ x) :
    promoteFold 0 1 (axesOf (d :: rest) (defaultStrides (d :: rest))) =
      ((rest.prod : Nat) : Int) := by
  obtain ⟨h1, h2, h3⟩ := promoteFold_spec 0 (axesOf (d :: rest) (defaultStrides (d :: rest))) 1
  have hub : ∀ ax ∈ axesOf (d :: rest) (defaultStrides (d :: rest)), ax.1 ≠ 0 →
      (ax.2.1 : Int) * ax.2.2 ≤ ((rest.prod : Nat) : Int) := by
    intro ax hax hne0
    obtain ⟨j, hj, haxj⟩ := axesOf_mem_iff.mp hax
    rw [haxj] at hne0 ⊢
    dsimp only [] at hne0 ⊢
    cases j with
    | zero => exact absurd rfl hne0
    | succ mj =>
      have hmj : mj < rest.length := by
        simp only [List.length_cons] at hj
        omega
      show ((rest.getD mj 0 : Nat) : Int) * (defaultStrides rest).getD mj 0 ≤
        ((rest.prod : Nat) : Int)
      rw [defaultStrides_getD rest mj hmj]
      have hdropeq : rest.getD mj 0 * (rest.drop (mj + 1)).prod = (rest.drop mj).prod := by
        rw [drop_eq_getD_cons rest mj hmj, List.prod_cons]
      have hdrople : (rest.drop mj).prod ≤ rest.prod := prod_drop_le_prod rest hpos mj
      exact_mod_cast le_trans (le_of_eq hdropeq) hdrople
  apply le_antisymm
  · rcases h3 with hc | ⟨ax, hax, hne0, hval⟩
    · rw [hc]
      exact_mod_cast List.one_le_prod_of_one_le hpos
    · rw [hval]
      exact hub ax hax hne0
  · cases rest with
    | nil => simpa using h1
    | cons r rs =>
      have hmem1 : ((1 : Nat), (d :: r :: rs).getD 1 0, (defaultStrides (d :: r :: rs)).getD 1 0)
          ∈ axesOf (d :: r :: rs) (defaultStrides (d :: r :: rs)) :=
        axesOf_mem_iff.mpr ⟨1, by simp only [List.length_cons]; omega, rfl⟩
    -- the axis-1 contribution is exactly the axis-0 stride
      have hlb := h2 _ hmem1 (by omega)
      dsimp only [] at hlb
      have hval1 : (((d :: r :: rs).getD 1 0 : Nat) : Int) *
          (defaultStrides (d :: r :: rs)).getD 1 0 = (((r :: rs).prod : Nat) : Int) := by
        show ((r : Nat) : Int) * ((rs.prod : Nat) : Int) = (((r :: rs).prod : Nat) : Int)
        rw [List.prod_cons]
        push_cast
        ring
      rw [hval1] at hlb
      exact hlb

/-- Appending along axis 0 of a standard-layout array commits the canonical
strides of the result shape, through every branch of the stride computation:
the keep branch, the extent-1 promotion, and the empty-array recomputation. -/
theorem stridesForAppend_axis0 [Inhabited α] (S : List α) (d n : Nat) (rest : List Nat)
    (hpos : ∀ x ∈ rest, 1 ≤ x) :
    stridesForAppend (stdArray S d rest) 0 ((d + n) :: rest) =
      defaultStrides ((d + n) :: rest) := by
  unfold stridesForAppend stdArray
  dsimp only []
  rcases Nat.eq_zero_or_pos d with hd0 | hd1
  · subst hd0
    rw [if_pos (by simp)]
    cases rest with
    | nil =>
      have hcond : (0 : Nat) = ([0] : List Nat).length - 1 := rfl
      rw [if_pos hcond]
      rfl
    | cons r rs =>
      rw [if_neg (by simp only [List.length_cons]; omega)]
      rw [listSwap_zero_zero, listSwap_zero_zero]
  · have hprod : ¬ (d :: rest).prod = 0 := by
      rw [List.prod_cons]
      have hrp : rest.prod ≠ 0 := by
        intro hh
        have := hpos 0 (List.prod_eq_zero_iff.mp hh)
        omega
      exact Nat.mul_ne_zero (by omega) hrp
    rw [if_neg hprod]
    by_cases hd1e : (d :: rest).getD 0 0 = 1
    · rw [if_pos hd1e]
      have hd1v : d = 1 := hd1e
      subst hd1v
      rw [promoteFold_axis0_default 1 rest hpos]
      rfl
    · rw [if_neg hd1e]
      rfl

theorem defaultStrides_getD_nonneg (X : List Nat) (i : Nat) :
    0 ≤ (defaultStrides X).getD i 0 := by
  induction X generalizing i with
  | nil => simp [defaultStrides]
  | cons x xs ih =>
    cases i with
    | zero =>
      show (0 : Int) ≤ ((xs.prod : Nat) : Int)
      exact Int.natCast_nonneg _
    | succ m => exact ih m

theorem defaultStrides_mem_le (xs : List Nat) (hpos : ∀ x ∈ xs, 1 ≤ x) :
    ∀ s ∈ defaultStrides xs, s ≤ ((xs.prod : Nat) : Int) := by
  induction xs with
  | nil => intro s hs; simp [defaultStrides] at hs
  | cons y ys ih =>
    intro s hs
    have hy : 1 ≤ y := hpos y (List.mem_cons_self _ _)
    have hstep : ((ys.prod : Nat) : Int) ≤ (((y :: ys).prod : Nat) : Int) := by
      rw [List.prod_cons]
      exact_mod_cast Nat.le_mul_of_pos_left ys.prod (by omega)
    have hd : defaultStrides (y :: ys) = ((ys.prod : Nat) : Int) :: defaultStrides ys := rfl
    rw [hd] at hs
    rcases List.mem_cons.mp hs with h | h
    · rw [h]
      exact hstep
    · exact le_trans (ih (fun z hz => hpos z (List.mem_cons_of_mem _ hz)) s h) hstep

/-- Canonical row-major strides are non-increasing left to right. -/
theorem defaultStrides_pairwise (X : List Nat) (hpos : ∀ x ∈ X, 1 ≤ x) :
    List.Pairwise (fun a b : Int => b ≤ a) (defaultStrides X) := by
  induction X with
  | nil => exact List.Pairwise.nil
  | cons x xs ih =>
    have hd : defaultStrides (x :: xs) = ((xs.prod : Nat) : Int) :: defaultStrides xs := rfl
    rw [hd, List.pairwise_cons]
    exact ⟨fun s hs =>
        defaultStrides_mem_le xs (fun z hz => hpos z (List.mem_cons_of_mem _ hz)) s hs,
      ih (fun z hz => hpos z (List.mem_cons_of_mem _ hz))⟩

/-- The lockstep un-inversion is the identity when no tail stride is
negative. -/
theorem invertNegativeAxes_nonneg (t : TailView) (arr : View α)
    (h : ∀ i, 0 ≤ t.strides.getD i 0) :
    invertNegativeAxes t arr = (t, arr) := by
  unfold invertNegativeAxes
  generalize List.range t.dim.length = l
  induction l with
  | nil => rfl
  | cons i is ih =>
    simp only [List.foldl_cons]
    rw [if_neg (not_lt.mpr (h i))]
    exact ih

theorem bubblePassAuxT_sorted (cur : Nat × Int × Nat × Int) (l : List (Nat × Int × Nat × Int))
    (hcur : ∀ y ∈ l, y.2.1 ≤ cur.2.1)
    (hl : List.Pairwise (fun a b : Nat × Int × Nat × Int => b.2.1 ≤ a.2.1) l) :
    bubblePassAuxT cur l = cur :: l := by
  induction l generalizing cur with
  | nil => rfl
  | cons y ys ih =>
    unfold bubblePassAuxT
    rw [if_neg (not_lt.mpr (hcur y (List.mem_cons_self _ _)))]
    rw [ih y (List.pairwise_cons.mp hl).1 (List.pairwise_cons.mp hl).2]

theorem bubblePassT_sorted (l : List (Nat × Int × Nat × Int))
    (hl : List.Pairwise (fun a b : Nat × Int × Nat × Int => b.2.1 ≤ a.2.1) l) :
    bubblePassT l = l := by
  cases l with
  | nil => rfl
  | cons x xs =>
    unfold bubblePassT
    exact bubblePassAuxT_sorted x xs (List.pairwise_cons.mp hl).1 (List.pairwise_cons.mp hl).2

theorem bubbleIterT_sorted (fuel : Nat) (l : List (Nat × Int × Nat × Int))
    (hl : List.Pairwise (fun a b : Nat × Int × Nat × Int => b.2.1 ≤ a.2.1) l) :
    bubbleIterT fuel l = l := by
  cases fuel with
  | zero => rfl
  | succ k =>
    unfold bubbleIterT
    rw [if_pos (bubblePassT_sorted l hl)]

/-- The tandem sort is the identity when the tail strides are already
non-increasing (the bubble passes perform no swap). -/
theorem sortAxesTandem_sorted (t : TailView) (arr : View α)
    (hdl : arr.dim.length = t.dim.length)
    (hsl : t.strides.length = t.dim.length)
    (hasl : arr.strides.length = t.dim.length)
    (hp : List.Pairwise (fun a b : Int => b ≤ a) t.strides) :
    sortAxesTandem t arr = (t, arr) := by
  unfold sortAxesTandem
  by_cases hle : t.dim.length ≤ 1
  · rw [if_pos hle]
  · rw [if_neg hle]
    dsimp only []
    have hlz : (List.zip t.dim (List.zip t.strides (List.zip arr.dim arr.strides))).length =
        t.dim.length := by
      simp only [List.length_zip, hsl, hasl, hdl, min_self]
    have hppk : List.Pairwise (fun a b : Nat × Int × Nat × Int => b.2.1 ≤ a.2.1)
        (List.zip t.dim (List.zip t.strides (List.zip arr.dim arr.strides))) := by
      rw [List.pairwise_iff_getElem]
      intro i j hi hj hij
      have hi2 : i < t.dim.length := by rw [← hlz]; exact hi
      have hj2 : j < t.dim.length := by rw [← hlz]; exact hj
      have hps := List.pairwise_iff_getElem.mp hp i j (by omega) (by omega) hij
      simp only [List.getElem_zip]
      exact hps
    rw [bubbleIterT_sorted _ _ hppk]
    have hmap1 : (List.zip t.dim (List.zip t.strides (List.zip arr.dim arr.strides))).map
        (fun q => q.1) = t.dim := by
      apply List.ext_getElem
      · rw [List.length_map, hlz]
      · intro i h1 h2
        rw [List.getElem_map]
        simp only [List.getElem_zip]
    have hmap2 : (List.zip t.dim (List.zip t.strides (List.zip arr.dim arr.strides))).map
        (fun q => q.2.1) = t.strides := by
      apply List.ext_getElem
      · rw [List.length_map, hlz, hsl]
      · intro i h1 h2
        rw [List.getElem_map]
        simp only [List.getElem_zip]
    have hmap3 : (List.zip t.dim (List.zip t.strides (List.zip arr.dim arr.strides))).map
        (fun q => q.2.2.1) = arr.dim := by
      apply List.ext_getElem
      · rw [List.length_map, hlz, hdl]
      · intro i h1 h2
        rw [List.getElem_map]
        simp only [List.getElem_zip]
    have hmap4 : (List.zip t.dim (List.zip t.strides (List.zip arr.dim arr.strides))).map
        (fun q => q.2.2.2) = arr.strides := by
      apply List.ext_getElem
      · rw [List.length_map, hlz, hasl]
      · intro i h1 h2
        rw [List.getElem_map]
        simp only [List.getElem_zip]
    rw [hmap1, hmap2, hmap3, hmap4]

/-- The whole pre-write transform is the identity under the same
conditions. -/
theorem writeTransform_sorted (t : TailView) (arr : View α)
    (hdl : arr.dim.length = t.dim.length)
    (hsl : t.strides.length = t.dim.length)
    (hasl : arr.strides.length = t.dim.length)
    (hnn : ∀ i, 0 ≤ t.strides.getD i 0)
    (hp : List.Pairwise (fun a b : Int => b ≤ a) t.strides) :
    writeTransform t arr = (t, arr) := by
  unfold writeTransform
  by_cases h1 : 1 < t.dim.length
  · rw [if_pos h1]
    dsimp only []
    rw [invertNegativeAxes_nonneg t arr hnn]
    exact sortAxesTandem_sorted t arr hdl hsl hasl hp
  · rw [if_neg h1]

/-- A clone that never panics leaves the write loop with every pair written
and no panic flag. -/
theorem runWrites_cloneOk {α : Type} (ps : List (Int × α)) :
    runWrites cloneOk ps = (ps, false) := by
  induction ps with
  | nil => rfl
  | cons p rest ih =>
    unfold runWrites
    show ((p.1, p.2) :: (runWrites cloneOk rest).1, (runWrites cloneOk rest).2) = (p :: rest, false)
    rw [ih]

/-- The write pairs of a standard-layout tail fed from a standard-layout slab
at offset 0: destination `k` receives the slab's `k`-th row-major element. -/
theorem writePairs_std_slab [Inhabited α] (T : List α) (n : Nat) (rest : List Nat) :
    writePairs { dim := n :: rest, strides := defaultStrides (n :: rest), off := 0 }
        (stdSlab T n rest) =
      (List.range ((n :: rest).prod)).map (fun (k : Nat) => ((k : Int), T.getD k default)) := by
  unfold writePairs View.elemAt stdSlab
  dsimp only []
  calc (indicesOf (n :: rest)).map (fun idx =>
          ((0 : Int) + offsetOf (defaultStrides (n :: rest)) idx,
            T.getD ((0 : Int) + offsetOf (defaultStrides (n :: rest)) idx).toNat default))
      = ((indicesOf (n :: rest)).map (fun idx => offsetOf (defaultStrides (n :: rest)) idx)).map
          (fun (j : Int) => (j, T.getD j.toNat default)) := by
        rw [List.map_map]
        apply List.map_congr_left
        intro idx _
        simp only [Function.comp_apply, zero_add]
    _ = ((List.range ((n :: rest).prod)).map (fun (k : Nat) => (k : Int))).map
          (fun (j : Int) => (j, T.getD j.toNat default)) := by rw [offsets_standard]
    _ = (List.range ((n :: rest).prod)).map (fun (k : Nat) => ((k : Int), T.getD k default)) := by
        rw [List.map_map]
        apply List.map_congr_left
        intro k _
        simp only [Function.comp_apply, Int.toNat_natCast]

theorem map_range_getD [Inhabited α] (l : List α) :
    (List.range l.length).map (fun (k : Nat) => l.getD k default) = l := by
  apply List.ext_getElem
  · simp
  · intro i h1 h2
    rw [List.getElem_map, List.getElem_range]
    exact List.getD_eq_getElem l default h2

/-- Filling from writes enumerated over `0, …, P-1` reads back the written
values in order. -/
theorem fillTail_map_range [Inhabited α] (g : Nat → α) (P : Nat) :
    fillTail P ((List.range P).map (fun (k : Nat) => ((k : Int), g k))) =
      (List.range P).map g := by
  have hlen : ((List.range P).map (fun (k : Nat) => ((k : Int), g k))).length = P := by simp
  have hdst : ∀ i (hi : i < ((List.range P).map (fun (k : Nat) => ((k : Int), g k))).length),
      (((List.range P).map (fun (k : Nat) => ((k : Int), g k))).get ⟨i, hi⟩).1 = (i : Int) := by
    intro i hi
    rw [List.get_eq_getElem, List.getElem_map, List.getElem_range]
  have hspec := fillTail_spec ((List.range P).map (fun (k : Nat) => ((k : Int), g k))) hdst
  rw [hlen] at hspec
  rw [hspec, List.map_map]
  apply List.map_congr_left
  intro k _
  simp only [Function.comp_apply]

/-- Appending a standard-layout slab along axis 0 of a standard-layout array
is exact concatenation: the call succeeds and the result is the
standard-layout array whose row-major data is the old data followed by the
slab's data. -/
theorem append_axis0_standard [Inhabited α] (S T : List α) (d n : Nat) (rest : List Nat)
    (hrp : rest.prod ≠ 0)
    (hS : S.length = d * rest.prod)
    (hT : T.length = n * rest.prod)
    (hmax : (d + n) * rest.prod ≤ isizeMax) :
    tryAppendArray cloneOk (stdArray S d rest) 0 (stdSlab T n rest) =
      .ok (stdArray (S ++ T) (d + n) rest) := by
  have hpos : ∀ x ∈ rest, 1 ≤ x := one_le_of_prod_ne_zero rest hrp
  by_cases hn : n = 0
  · subst hn
    have hval : appendValidation (stdArray S d rest) 0 (stdSlab T 0 rest) =
        .noop ((d + 0) :: rest) ((d + 0) :: rest).prod := by
      unfold appendValidation stdArray stdSlab
      dsimp only []
      rw [if_neg (by simp : ¬ (d :: rest).length = 0)]
      rw [if_neg (by simp : ¬ (d :: rest).eraseIdx 0 ≠ ((0 : Nat) :: rest).eraseIdx 0)]
      rw [show resDimOf (d :: rest) ((0 : Nat) :: rest) 0 = (d + 0) :: rest from rfl]
      rw [show sizeOfShapeChecked ((d + 0) :: rest) = .ok ((d + 0) :: rest).prod from
        if_pos (by rw [List.prod_cons]; exact hmax)]
      dsimp only []
      rw [if_pos (by simp : ((0 : Nat) :: rest).prod = 0)]
    have hTnil : T = [] := List.eq_nil_of_length_eq_zero (by omega)
    subst hTnil
    unfold tryAppendArray
    rw [hval]
    dsimp only []
    rw [if_neg (not_ne_iff.mpr (show (stdArray S d rest : OwnedArray α).dim.prod =
      ((d + 0) :: rest).prod from rfl))]
    rw [List.append_nil]
    rfl
  · have hposn : ∀ x ∈ (n : Nat) :: rest, 1 ≤ x := by
      intro x hx
      rcases List.mem_cons.mp hx with h | h
      · rw [h]; omega
      · exact hpos x h
    have hzz : ¬ ((n : Nat) :: rest).prod = 0 := by
      rw [List.prod_cons]
      exact Nat.mul_ne_zero hn hrp
    have hval : appendValidation (stdArray S d rest) 0 (stdSlab T n rest) =
        .proceed ((d + n) :: rest) ((d + n) :: rest).prod := by
      unfold appendValidation stdArray stdSlab
      dsimp only []
      rw [if_neg (by simp : ¬ (d :: rest).length = 0)]
      rw [if_neg (by simp : ¬ (d :: rest).eraseIdx 0 ≠ ((n : Nat) :: rest).eraseIdx 0)]
      rw [show resDimOf (d :: rest) ((n : Nat) :: rest) 0 = (d + n) :: rest from rfl]
      rw [show sizeOfShapeChecked ((d + n) :: rest) = .ok ((d + n) :: rest).prod from
        if_pos (by rw [List.prod_cons]; exact hmax)]
      dsimp only []
      rw [if_neg hzz]
      have hlay : ¬ ((d :: rest).prod ≠ 0 ∧ 1 < (d :: rest).getD 0 0 ∧
          layoutCheckFails (d :: rest) (defaultStrides (d :: rest)) 0 = true) := by
        rintro ⟨-, h2d, h3f⟩
        have hposd : ∀ x ∈ d :: rest, 1 ≤ x := by
          intro x hx
          rcases List.mem_cons.mp hx with h | h
          · have hdo : 1 < d := h2d
            omega
          · exact hpos x h
        rw [layoutCheckFails_default_axis0 (d :: rest) hposd] at h3f
        exact Bool.false_ne_true h3f
      rw [if_neg hlay]
      rw [if_neg (not_ne_iff.mpr (by rw [List.prod_cons]; exact hS))]
    have hstr : stridesForAppend (stdArray S d rest) 0 ((d + n) :: rest) =
        defaultStrides ((d + n) :: rest) := stridesForAppend_axis0 S d n rest hpos
    have hstr2 : defaultStrides ((d + n) :: rest) = defaultStrides ((n : Nat) :: rest) := rfl
    have htail : appendTailTransformed (stdArray S d rest) 0 (stdSlab T n rest)
          ((d + n) :: rest) =
        ({ dim := (n : Nat) :: rest, strides := defaultStrides ((n : Nat) :: rest), off := 0 },
          stdSlab T n rest) := by
      unfold appendTailTransformed
      rw [hstr, hstr2]
      exact writeTransform_sorted _ (stdSlab T n rest) rfl
        (defaultStrides_length ((n : Nat) :: rest))
        (defaultStrides_length ((n : Nat) :: rest))
        (fun i => defaultStrides_getD_nonneg ((n : Nat) :: rest) i)
        (defaultStrides_pairwise ((n : Nat) :: rest) hposn)
    have hwrites : appendWrites cloneOk (stdArray S d rest) 0 (stdSlab T n rest)
          ((d + n) :: rest) =
        ((List.range (((n : Nat) :: rest).prod)).map
          (fun (k : Nat) => ((k : Int), T.getD k default)), false) := by
      unfold appendWrites
      rw [htail]
      dsimp only []
      rw [writePairs_std_slab T n rest, runWrites_cloneOk]
    unfold tryAppendArray
    rw [hval]
    dsimp only []
    rw [if_neg (not_ne_iff.mpr (show (stdArray S d rest : OwnedArray α).off = 0 from rfl))]
    rw [htail]
    dsimp only []
    rw [if_neg (not_not_intro (show isStandardLayout ((n : Nat) :: rest)
      (defaultStrides ((n : Nat) :: rest)) from rfl))]
    rw [hwrites]
    dsimp only []
    rw [if_neg Bool.false_ne_true]
    have hlenP : ((List.range (((n : Nat) :: rest).prod)).map
        (fun (k : Nat) => ((k : Int), T.getD k default))).length = ((n : Nat) :: rest).prod := by
      rw [List.length_map, List.length_range]
    rw [hlenP]
    have hsum : ¬ (stdArray S d rest : OwnedArray α).data.length + ((n : Nat) :: rest).prod ≠
        ((d + n) :: rest).prod := by
      apply not_ne_iff.mpr
      show S.length + ((n : Nat) :: rest).prod = ((d + n) :: rest).prod
      rw [List.prod_cons, List.prod_cons, hS, ← Nat.add_mul]
    rw [if_neg hsum]
    have hfill : fillTail (((n : Nat) :: rest).prod)
        ((List.range (((n : Nat) :: rest).prod)).map
          (fun (k : Nat) => ((k : Int), T.getD k default))) = T := by
      rw [fillTail_map_range (fun k => T.getD k default) (((n : Nat) :: rest).prod)]
      rw [show ((n : Nat) :: rest).prod = T.length from by rw [List.prod_cons]; omega]
      exact map_range_getD T
    rw [hfill, hstr]
    rfl

/-- `k` sequential `try_append_array` calls along axis 0, one per slab
`(extent, row-major elements)`, stopping at the first non-`Ok` outcome. -/
def appendSlabs [Inhabited α] (rest : List Nat) :
    OwnedArray α → List (Nat × List α) → AppendOutcome α
  | self, [] => .ok self
  | self, nT :: slabs =>
    match tryAppendArray cloneOk self 0 (stdSlab nT.2 nT.1 rest) with
    | .ok st => appendSlabs rest st slabs
    | out => out

theorem flatMap_snd_length {α : Type u} (R : Nat) (slabs : List (Nat × List α))
    (hlens : ∀ p ∈ slabs, (p : Nat × List α).2.length = p.1 * R) :
    (slabs.flatMap Prod.snd).length = (slabs.map Prod.fst).sum * R := by
  induction slabs with
  | nil => simp
  | cons p ps ih =>
    rw [List.flatMap_cons, List.length_append, List.map_cons, List.sum_cons,
      ih (fun q hq => hlens q (List.mem_cons_of_mem _ hq)),
      hlens p (List.mem_cons_self _ _), Nat.add_mul]

/-- Folding the single-slab concatenation lemma over a slab list: the
sequential calls all succeed and concatenate every slab in order. -/
theorem appendSlabs_ok [Inhabited α] (rest : List Nat) (slabs : List (Nat × List α))
    (S : List α) (d : Nat)
    (hrp : rest.prod ≠ 0)
    (hS : S.length = d * rest.prod)
    (hlens : ∀ p ∈ slabs, (p : Nat × List α).2.length = p.1 * rest.prod)
    (hmax : (d + (slabs.map Prod.fst).sum) * rest.prod ≤ isizeMax) :
    appendSlabs rest (stdArray S d rest) slabs =
      .ok (stdArray (S ++ slabs.flatMap Prod.snd) (d + (slabs.map Prod.fst).sum) rest) := by
  induction slabs generalizing S d with
  | nil =>
    show AppendOutcome.ok (stdArray S d rest) = _
    rw [show ([] : List (Nat × List α)).flatMap Prod.snd = ([] : List α) from rfl]
    rw [List.append_nil]
    rfl
  | cons p ps ih =>
    have hp2 : p.2.length = p.1 * rest.prod := hlens p (List.mem_cons_self _ _)
    have hsum : ((p :: ps).map Prod.fst).sum = p.1 + (ps.map Prod.fst).sum := by
      rw [List.map_cons, List.sum_cons]
    have hmax1 : (d + p.1) * rest.prod ≤ isizeMax := by
      refine le_trans (Nat.mul_le_mul_right rest.prod ?_) hmax
      rw [hsum]
      omega
    have hstep := append_axis0_standard S p.2 d p.1 rest hrp hS hp2 hmax1
    show (match tryAppendArray cloneOk (stdArray S d rest) 0 (stdSlab p.2 p.1 rest) with
      | .ok st => appendSlabs rest st ps
      | out => out) = _
    rw [hstep]
    dsimp only []
    have hS2 : (S ++ p.2).length = (d + p.1) * rest.prod := by
      rw [List.length_append, hS, hp2, Nat.add_mul]
    have hmax2 : (d + p.1 + (ps.map Prod.fst).sum) * rest.prod ≤ isizeMax := by
      have he : d + p.1 + (ps.map Prod.fst).sum = d + ((p :: ps).map Prod.fst).sum := by
        rw [hsum]
        omega
      rw [he]
      exact hmax
    rw [ih (S ++ p.2) (d + p.1) hS2 (fun q hq => hlens q (List.mem_cons_of_mem _ hq)) hmax2]
    rw [List.append_assoc, hsum, ← Nat.add_assoc]
    rw [show (p :: ps).flatMap Prod.snd = p.2 ++ ps.flatMap Prod.snd from
      List.flatMap_cons p ps Prod.snd]

/-- C9: appending `k` slabs of extents `n_1, …, n_k` along the growing axis by
`k` sequential `try_append_array` calls yields the same final array — same
shape, same strides, same row-major element sequence — as appending the single
combined slab of extent `Σ n_i` (carrying the concatenated element sequences)
in one call, for standard-layout arrays grown along axis 0, the axis whose
layout precondition every call satisfies. -/
theorem append_slabs_eq_single [Inhabited α] (S : List α) (d : Nat) (rest : List Nat)
    (slabs : List (Nat × List α))
    (hrp : rest.prod ≠ 0)
    (hS : S.length = d * rest.prod)
    (hlens : ∀ p ∈ slabs, (p : Nat × List α).2.length = p.1 * rest.prod)
    (hmax : (d + (slabs.map Prod.fst).sum) * rest.prod ≤ isizeMax) :
    appendSlabs rest (stdArray S d rest) slabs =
      tryAppendArray cloneOk (stdArray S d rest) 0
        (stdSlab (slabs.flatMap Prod.snd) (slabs.map Prod.fst).sum rest) := by
  rw [appendSlabs_ok rest slabs S d hrp hS hlens hmax,
    append_axis0_standard S (slabs.flatMap Prod.snd) d ((slabs.map Prod.fst).sum) rest hrp hS
      (flatMap_snd_length rest.prod slabs hlens) hmax]

/-- Three slabs of extents 1, 2, 0 against a (2,2) array. -/
def exC9slabs : List (Nat × List Nat) := [(1, [7, 8]), (2, [9, 10, 11, 12]), (0, [])]

theorem append_slabs_eq_single_witness :
    appendSlabs [2] (stdArray [1, 2, 3, 4] 2 [2]) exC9slabs =
      tryAppendArray cloneOk (stdArray [1, 2, 3, 4] 2 [2]) 0
        (stdSlab (exC9slabs.flatMap Prod.snd) (exC9slabs.map Prod.fst).sum [2]) :=
  append_slabs_eq_single [1, 2, 3, 4] 2 [2] exC9slabs (by decide) (by decide)
    (by decide) (by decide)

/-! ## C9 (general form): index arithmetic and permutation toolkit -/

/-- Membership in the row-major index enumeration: exactly the tuples of the
right rank bounded componentwise by the shape. -/
theorem mem_indicesOf {d : List Nat} {idx : List Nat} :
    idx ∈ indicesOf d ↔
      idx.length = d.length ∧ ∀ i, i < d.length → idx.getD i 0 < d.getD i 0 := by
  induction d generalizing idx with
  | nil =>
    show idx ∈ [[]] ↔ _
    simp only [List.mem_singleton]
    constructor
    · rintro rfl
      exact ⟨rfl, fun i hi => absurd hi (by simp)⟩
    · rintro ⟨hl, -⟩
      exact List.eq_nil_of_length_eq_zero hl
  | cons a ds ih =>
    show idx ∈ (List.range a).flatMap (fun i => (indicesOf ds).map (fun r => i :: r)) ↔ _
    rw [List.mem_flatMap]
    constructor
    · rintro ⟨j, hj, hmem⟩
      rw [List.mem_map] at hmem
      obtain ⟨r, hr, rfl⟩ := hmem
      obtain ⟨hl, hb⟩ := ih.mp hr
      refine ⟨by simp [hl], ?_⟩
      intro i hi
      cases i with
      | zero => simpa using List.mem_range.mp hj
      | succ m =>
        simp only [List.getD_cons_succ]
        exact hb m (by simpa using hi)
    · rintro ⟨hl, hb⟩
      cases idx with
      | nil => simp at hl
      | cons j r =>
        refine ⟨j, List.mem_range.mpr (by simpa using hb 0 (by simp)), ?_⟩
        rw [List.mem_map]
        refine ⟨r, ih.mpr ⟨by simpa using hl, ?_⟩, rfl⟩
        intro i hi
        have := hb (i + 1) (by simpa using hi)
        simpa using this

theorem indicesOf_nodup (d : List Nat) : (indicesOf d).Nodup := by
  induction d with
  | nil => simp [indicesOf]
  | cons a ds ih =>
    show ((List.range a).flatMap (fun i => (indicesOf ds).map (fun r => i :: r))).Nodup
    rw [List.nodup_flatMap]
    constructor
    · intro j _
      exact ih.map (fun r1 r2 h => by injection h)
    · rw [List.pairwise_iff_getElem]
      intro i j hi hj hij
      intro x hx1 hx2
      rw [List.mem_map] at hx1 hx2
      obtain ⟨r1, -, hr1⟩ := hx1
      obtain ⟨r2, -, hr2⟩ := hx2
      rw [← hr2] at hr1
      injection hr1 with hh htl
      simp only [List.getElem_range] at hh
      omega

/-- Changing one coordinate shifts the offset by the coordinate change times
that axis's stride. -/
theorem offsetOf_set (σ : List Int) (idx : List Nat) (a j : Nat) (ha : a < idx.length) :
    offsetOf σ (idx.set a j) = offsetOf σ (idx.set a 0) + (j : Int) * σ.getD a 0 := by
  induction idx generalizing a σ with
  | nil => simp at ha
  | cons x xs ih =>
    cases σ with
    | nil =>
      rw [offsetOf_nil_strides, offsetOf_nil_strides]
      simp
    | cons s ss =>
      cases a with
      | zero =>
        rw [show (x :: xs).set 0 j = j :: xs from rfl,
          show (x :: xs).set 0 0 = (0 : Nat) :: xs from rfl, offsetOf_cons, offsetOf_cons,
          show ((s :: ss).getD 0 0) = s from rfl]
        push_cast
        ring
      | succ m =>
        rw [show (x :: xs).set (m + 1) j = x :: xs.set m j from rfl,
          show (x :: xs).set (m + 1) 0 = x :: xs.set m 0 from rfl,
          offsetOf_cons, offsetOf_cons, ih ss m (by simpa using ha),
          show (s :: ss).getD (m + 1) 0 = ss.getD m 0 from rfl]
        ring

theorem offsetOf_nonneg (σ : List Int) (idx : List Nat) (h : ∀ s ∈ σ, 0 ≤ s) :
    0 ≤ offsetOf σ idx := by
  induction σ generalizing idx with
  | nil => simp [offsetOf_nil_strides]
  | cons s ss ih =>
    cases idx with
    | nil => simp [offsetOf_nil_idx]
    | cons i r =>
      rw [offsetOf_cons]
      have h1 : 0 ≤ s * (i : Int) :=
        mul_nonneg (h s (List.mem_cons_self _ _)) (Int.natCast_nonneg i)
      have h2 := ih r (fun t ht => h t (List.mem_cons_of_mem _ ht))
      omega

theorem ext_getD {β : Type u} (l1 l2 : List β) (d : β) (hl : l1.length = l2.length)
    (h : ∀ i, i < l1.length → l1.getD i d = l2.getD i d) : l1 = l2 := by
  apply List.ext_getElem hl
  intro i h1 h2
  have := h i h1
  rwa [List.getD_eq_getElem l1 d h1, List.getD_eq_getElem l2 d h2] at this

theorem eraseIdx_set_self {β : Type u} (l : List β) (i : Nat) (v : β) :
    (l.set i v).eraseIdx i = l.eraseIdx i := by
  induction l generalizing i with
  | nil => rfl
  | cons x xs ih =>
    cases i with
    | zero => rfl
    | succ m =>
      simp only [List.set_cons_succ, List.eraseIdx_cons_succ]
      rw [ih m]

theorem getD_append_left_of_lt {β : Type u} [Inhabited β] (l1 l2 : List β) (p : Nat)
    (hp : p < l1.length) : (l1 ++ l2).getD p default = l1.getD p default := by
  rw [List.getD_eq_getElem _ _ (show p < (l1 ++ l2).length by rw [List.length_append]; omega),
    List.getD_eq_getElem _ _ hp]
  exact List.getElem_append_left hp

theorem getD_append_add {β : Type u} [Inhabited β] (l1 l2 : List β) (p : Nat)
    (hp : p < l2.length) : (l1 ++ l2).getD (l1.length + p) default = l2.getD p default := by
  rw [List.getD_eq_getElem _ _
      (show l1.length + p < (l1 ++ l2).length by rw [List.length_append]; omega),
    List.getD_eq_getElem _ _ hp]
  rw [List.getElem_append_right (by omega)]
  simp only [Nat.add_sub_cancel_left]

theorem flatMap_const_nil {β : Type u} {γ : Type v} (l : List β) :
    l.flatMap (fun _ => ([] : List γ)) = [] := by
  induction l with
  | nil => rfl
  | cons x xs ih => simp [ih]

theorem flatMap_append_split_perm {β : Type u} {γ : Type v} (l : List β) (f g : β → List γ) :
    (l.flatMap (fun a => f a ++ g a)).Perm (l.flatMap f ++ l.flatMap g) := by
  induction l with
  | nil => simp
  | cons x xs ih =>
    simp only [List.flatMap_cons]
    refine List.Perm.trans (List.Perm.append_left (f x ++ g x) ih) ?_
    have h1 : (f x ++ g x) ++ (xs.flatMap f ++ xs.flatMap g) =
        f x ++ (g x ++ (xs.flatMap f ++ xs.flatMap g)) := by rw [List.append_assoc]
    have h2 : (f x ++ xs.flatMap f) ++ (g x ++ xs.flatMap g) =
        f x ++ (xs.flatMap f ++ (g x ++ xs.flatMap g)) := by rw [List.append_assoc]
    rw [h1, h2]
    apply List.Perm.append_left
    have h3 : g x ++ (xs.flatMap f ++ xs.flatMap g) =
        (g x ++ xs.flatMap f) ++ xs.flatMap g := by rw [List.append_assoc]
    have h4 : xs.flatMap f ++ (g x ++ xs.flatMap g) =
        (xs.flatMap f ++ g x) ++ xs.flatMap g := by rw [List.append_assoc]
    rw [h3, h4]
    exact List.Perm.append_right _ List.perm_append_comm

theorem flatMap_flatMap_comm_perm {β : Type u} {γ : Type v} {δ : Type w}
    (la : List β) (lb : List γ) (h : β → γ → List δ) :
    (la.flatMap (fun x => lb.flatMap (fun y => h x y))).Perm
      (lb.flatMap (fun y => la.flatMap (fun x => h x y))) := by
  induction la with
  | nil =>
    rw [show lb.flatMap (fun y => ([] : List β).flatMap (fun x => h x y)) = [] from
      flatMap_const_nil lb]
    exact List.Perm.nil
  | cons x xs ih =>
    simp only [List.flatMap_cons]
    refine List.Perm.trans (List.Perm.append_left _ ih) ?_
    exact (flatMap_append_split_perm lb _ _).symm

/-- Peeling the outermost axis off a traversal: the destination view's `dim`
never influences elements (only its strides and offset do), so it is carried
untouched. -/
theorem writePairs_cons_peel [Inhabited α] (vd : List α) (a : Nat) (s u : Int)
    (D : List Nat) (S U : List Int) (Dv : List Nat) (toff voff : Int) :
    writePairs { dim := a :: D, strides := s :: S, off := toff }
        { data := vd, off := voff, dim := Dv, strides := u :: U } =
      (List.range a).flatMap (fun j =>
        writePairs { dim := D, strides := S, off := toff + s * (j : Int) }
          { data := vd, off := voff + u * (j : Int), dim := Dv, strides := U }) := by
  unfold writePairs View.elemAt
  dsimp only []
  rw [show indicesOf (a :: D) =
    (List.range a).flatMap (fun j => (indicesOf D).map (fun r => j :: r)) from rfl]
  rw [List.map_flatMap]
  apply flatMap_congr_left
  intro j _
  rw [List.map_map]
  apply List.map_congr_left
  intro r _
  simp only [Function.comp_apply]
  rw [offsetOf_cons, offsetOf_cons]
  simp only [← add_assoc]

theorem writePairs_cons2_peel [Inhabited α] (vd : List α) (a1 a2 : Nat) (s1 s2 u1 u2 : Int)
    (D : List Nat) (S U : List Int) (Dv : List Nat) (toff voff : Int) :
    writePairs { dim := a1 :: a2 :: D, strides := s1 :: s2 :: S, off := toff }
        { data := vd, off := voff, dim := Dv, strides := u1 :: u2 :: U } =
      (List.range a1).flatMap (fun j => (List.range a2).flatMap (fun k =>
        writePairs { dim := D, strides := S, off := toff + s1 * (j : Int) + s2 * (k : Int) }
          { data := vd, off := voff + u1 * (j : Int) + u2 * (k : Int), dim := Dv,
            strides := U })) := by
  rw [writePairs_cons_peel]
  apply flatMap_congr_left
  intro j _
  rw [writePairs_cons_peel]

/-- The source view's `dim` field is never read by the traversal. -/
theorem writePairs_view_dim_irrel [Inhabited α] (t : TailView) (vd : List α) (voff : Int)
    (Dv1 Dv2 : List Nat) (U : List Int) :
    writePairs t { data := vd, off := voff, dim := Dv1, strides := U } =
      writePairs t { data := vd, off := voff, dim := Dv2, strides := U } := rfl

/-- The traversal pairs of an unpacked tandem axis-record list are invariant,
as a multiset, under permuting the records. -/
theorem writePairs_unpack_perm [Inhabited α] (vd : List α)
    {z z2 : List (Nat × Int × Nat × Int)} (h : z.Perm z2) :
    ∀ toff voff : Int,
      (writePairs
          { dim := z.map (fun q => q.1), strides := z.map (fun q => q.2.1), off := toff }
          { data := vd, off := voff, dim := z.map (fun q => q.2.2.1),
            strides := z.map (fun q => q.2.2.2) }).Perm
        (writePairs
          { dim := z2.map (fun q => q.1), strides := z2.map (fun q => q.2.1), off := toff }
          { data := vd, off := voff, dim := z2.map (fun q => q.2.2.1),
            strides := z2.map (fun q => q.2.2.2) }) := by
  induction h with
  | nil =>
    intro toff voff
    exact List.Perm.refl _
  | cons x hzz ih =>
    intro toff voff
    simp only [List.map_cons]
    rw [writePairs_cons_peel, writePairs_cons_peel]
    exact List.Perm.flatMap_left _ (fun j _ => ih _ _)
  | swap x y l =>
    intro toff voff
    simp only [List.map_cons]
    rw [writePairs_cons2_peel, writePairs_cons2_peel]
    refine List.Perm.trans (flatMap_flatMap_comm_perm _ _ _) ?_
    apply List.Perm.of_eq
    apply flatMap_congr_left
    intro k _
    apply flatMap_congr_left
    intro j _
    rw [show toff + y.2.1 * (j : Int) + x.2.1 * (k : Int) =
        toff + x.2.1 * (k : Int) + y.2.1 * (j : Int) from by ring,
      show voff + y.2.2.2 * (j : Int) + x.2.2.2 * (k : Int) =
        voff + x.2.2.2 * (k : Int) + y.2.2.2 * (j : Int) from by ring]
    exact writePairs_view_dim_irrel _ vd _ _ _ _
  | trans h1 h2 ih1 ih2 =>
    intro toff voff
    exact List.Perm.trans (ih1 toff voff) (ih2 toff voff)

theorem sortAxesTandem_off (t : TailView) (arr : View α) :
    (sortAxesTandem t arr).1.off = t.off := by
  unfold sortAxesTandem
  by_cases hle : t.dim.length ≤ 1
  · rw [if_pos hle]
  · rw [if_neg hle]

/-- The tandem sort permutes the traversal pairs. -/
theorem sortTandem_writePairs_perm [Inhabited α] (t : TailView) (arr : View α)
    (hsl : t.strides.length = t.dim.length)
    (hdl : arr.dim.length = t.dim.length)
    (hasl : arr.strides.length = t.dim.length) :
    (writePairs (sortAxesTandem t arr).1 (sortAxesTandem t arr).2).Perm (writePairs t arr) := by
  unfold sortAxesTandem
  by_cases hle : t.dim.length ≤ 1
  · rw [if_pos hle]
  · rw [if_neg hle]
    dsimp only []
    have hlz : (List.zip t.dim (List.zip t.strides (List.zip arr.dim arr.strides))).length =
        t.dim.length := by
      simp only [List.length_zip, hsl, hasl, hdl, min_self]
    have hmap1 : (List.zip t.dim (List.zip t.strides (List.zip arr.dim arr.strides))).map
        (fun q => q.1) = t.dim := by
      apply List.ext_getElem
      · rw [List.length_map, hlz]
      · intro i h1 h2
        rw [List.getElem_map]
        simp only [List.getElem_zip]
    have hmap2 : (List.zip t.dim (List.zip t.strides (List.zip arr.dim arr.strides))).map
        (fun q => q.2.1) = t.strides := by
      apply List.ext_getElem
      · rw [List.length_map, hlz, hsl]
      · intro i h1 h2
        rw [List.getElem_map]
        simp only [List.getElem_zip]
    have hmap3 : (List.zip t.dim (List.zip t.strides (List.zip arr.dim arr.strides))).map
        (fun q => q.2.2.1) = arr.dim := by
      apply List.ext_getElem
      · rw [List.length_map, hlz, hdl]
      · intro i h1 h2
        rw [List.getElem_map]
        simp only [List.getElem_zip]
    have hmap4 : (List.zip t.dim (List.zip t.strides (List.zip arr.dim arr.strides))).map
        (fun q => q.2.2.2) = arr.strides := by
      apply List.ext_getElem
      · rw [List.length_map, hlz, hasl]
      · intro i h1 h2
        rw [List.getElem_map]
        simp only [List.getElem_zip]
    have hrec : writePairs t arr =
        writePairs
          { dim := (List.zip t.dim (List.zip t.strides (List.zip arr.dim arr.strides))).map
              (fun q => q.1),
            strides := (List.zip t.dim (List.zip t.strides (List.zip arr.dim arr.strides))).map
              (fun q => q.2.1),
            off := t.off }
          { data := arr.data, off := arr.off,
            dim := (List.zip t.dim (List.zip t.strides (List.zip arr.dim arr.strides))).map
              (fun q => q.2.2.1),
            strides := (List.zip t.dim (List.zip t.strides (List.zip arr.dim arr.strides))).map
              (fun q => q.2.2.2) } := by
      rw [hmap1, hmap2, hmap3, hmap4]
    rw [hrec]
    exact writePairs_unpack_perm arr.data
      (bubbleIterT_perm _ (List.zip t.dim (List.zip t.strides (List.zip arr.dim arr.strides))))
      t.off arr.off

theorem writeTransform_off (t : TailView) (arr : View α)
    (hnn : ∀ i, 0 ≤ t.strides.getD i 0) :
    (writeTransform t arr).1.off = t.off := by
  unfold writeTransform
  by_cases h1 : 1 < t.dim.length
  · rw [if_pos h1]
    dsimp only []
    rw [invertNegativeAxes_nonneg t arr hnn]
    exact sortAxesTandem_off t arr
  · rw [if_neg h1]

/-- The whole pre-write transform (with no negative tail strides, so no
inversions) permutes the traversal pairs. -/
theorem writeTransform_writePairs_perm [Inhabited α] (t : TailView) (arr : View α)
    (hsl : t.strides.length = t.dim.length)
    (hdl : arr.dim.length = t.dim.length)
    (hasl : arr.strides.length = t.dim.length)
    (hnn : ∀ i, 0 ≤ t.strides.getD i 0) :
    (writePairs (writeTransform t arr).1 (writeTransform t arr).2).Perm (writePairs t arr) := by
  unfold writeTransform
  by_cases h1 : 1 < t.dim.length
  · rw [if_pos h1]
    dsimp only []
    rw [invertNegativeAxes_nonneg t arr hnn]
    exact sortTandem_writePairs_perm t arr hsl hdl hasl
  · rw [if_neg h1]

theorem length_writePairs [Inhabited α] (t : TailView) (arr : View α) :
    (writePairs t arr).length = t.dim.prod := by
  unfold writePairs
  rw [List.length_map, length_indicesOf]

theorem mem_writePairs_iff [Inhabited α] {t : TailView} {arr : View α} {pr : Int × α} :
    pr ∈ writePairs t arr ↔
      ∃ idx ∈ indicesOf t.dim, pr = (t.off + offsetOf t.strides idx, arr.elemAt idx) := by
  unfold writePairs
  rw [List.mem_map]
  constructor
  · rintro ⟨idx, hm, rfl⟩
    exact ⟨idx, hm, rfl⟩
  · rintro ⟨idx, hm, rfl⟩
    exact ⟨idx, hm, rfl⟩

/-- In a pair list with duplicate-free first components, the first component
determines the second. -/
theorem nodup_fst_unique {β : Type u} {γ : Type v} {l : List (β × γ)}
    (h : (l.map Prod.fst).Nodup) {a : β} {b c : γ}
    (h1 : (a, b) ∈ l) (h2 : (a, c) ∈ l) : b = c := by
  induction l with
  | nil => simp at h1
  | cons p rest ih =>
    rw [List.map_cons] at h
    obtain ⟨hnotin, hrest⟩ := List.nodup_cons.mp h
    rcases List.mem_cons.mp h1 with e1 | m1
    · rcases List.mem_cons.mp h2 with e2 | m2
      · rw [← e1] at e2
        injection e2 with e2a e2b
        exact e2b.symm
      · exfalso
        have hm : a ∈ rest.map Prod.fst := List.mem_map.mpr ⟨(a, c), m2, rfl⟩
        rw [← e1] at hnotin
        exact hnotin hm
    · rcases List.mem_cons.mp h2 with e2 | m2
      · exfalso
        have hm : a ∈ rest.map Prod.fst := List.mem_map.mpr ⟨(a, b), m1, rfl⟩
        rw [← e2] at hnotin
        exact hnotin hm
      · exact ih hrest m1 m2

theorem fortranAux_length (acc : Int) (l : List Nat) : (fortranAux acc l).length = l.length := by
  induction l generalizing acc with
  | nil => rfl
  | cons d ds ih => simp [fortranAux, ih]

theorem fortranAux_nonneg (acc : Int) (l : List Nat) (hacc : 0 ≤ acc) :
    ∀ s ∈ fortranAux acc l, 0 ≤ s := by
  induction l generalizing acc with
  | nil => intro s hs; simp [fortranAux] at hs
  | cons d ds ih =>
    intro s hs
    rw [show fortranAux acc (d :: ds) = acc :: fortranAux (acc * (d : Int)) ds from rfl] at hs
    rcases List.mem_cons.mp hs with h | h
    · rw [h]; exact hacc
    · exact ih (acc * d) (mul_nonneg hacc (Int.natCast_nonneg d)) s h

theorem defaultStrides_mem_nonneg (X : List Nat) : ∀ s ∈ defaultStrides X, 0 ≤ s := by
  induction X with
  | nil => intro s hs; simp [defaultStrides] at hs
  | cons x xs ih =>
    intro s hs
    rw [show defaultStrides (x :: xs) = ((xs.prod : Nat) : Int) :: defaultStrides xs from rfl] at hs
    rcases List.mem_cons.mp hs with h | h
    · rw [h]; exact Int.natCast_nonneg _
    · exact ih s h

theorem listSwap_mem {β : Type u} [Inhabited β] {l : List β} {x : β} {i j : Nat}
    (hx : x ∈ listSwap l i j) : x ∈ l ∨ x = l.getD j default ∨ x = l.getD i default := by
  unfold listSwap at hx
  rcases List.mem_or_eq_of_mem_set hx with h | h
  · rcases List.mem_or_eq_of_mem_set h with h2 | h2
    · exact Or.inl h2
    · exact Or.inr (Or.inl h2)
  · exact Or.inr (Or.inr h)

theorem listSwap_length {β : Type u} [Inhabited β] (l : List β) (i j : Nat) :
    (listSwap l i j).length = l.length := by
  unfold listSwap
  rw [List.length_set, List.length_set]

/-- The committed strides have the rank of the result shape. -/
theorem stridesForAppend_length [Inhabited α] (self : OwnedArray α) (axis : Nat) (rd : List Nat)
    (hsl : self.strides.length = self.dim.length) (hrd : rd.length = self.dim.length) :
    (stridesForAppend self axis rd).length = self.dim.length := by
  unfold stridesForAppend
  by_cases h1 : self.dim.prod = 0
  · rw [if_pos h1]
    by_cases h2 : axis = self.dim.length - 1
    · rw [if_pos h2]
      rw [show fortranStrides rd = fortranAux 1 rd from rfl, fortranAux_length, hrd]
    · rw [if_neg h2]
      rw [listSwap_length, defaultStrides_length, listSwap_length, hrd]
  · rw [if_neg h1]
    by_cases h3 : self.dim.getD axis 0 = 1
    · rw [if_pos h3]
      rw [List.length_set, hsl]
    · rw [if_neg h3]
      exact hsl

/-- Committed strides are nonnegative whenever the array's own strides are. -/
theorem stridesForAppend_nonneg [Inhabited α] (self : OwnedArray α) (axis : Nat) (rd : List Nat)
    (hsnn : ∀ s ∈ self.strides, 0 ≤ s) :
    ∀ s ∈ stridesForAppend self axis rd, 0 ≤ s := by
  unfold stridesForAppend
  by_cases h1 : self.dim.prod = 0
  · rw [if_pos h1]
    by_cases h2 : axis = self.dim.length - 1
    · rw [if_pos h2]
      exact fortranAux_nonneg 1 rd (by omega)
    · rw [if_neg h2]
      intro s hs
      rcases listSwap_mem hs with h | h | h
      · exact defaultStrides_mem_nonneg _ s h
      · rw [h]; exact defaultStrides_getD_nonneg _ _
      · rw [h]; exact defaultStrides_getD_nonneg _ _
  · rw [if_neg h1]
    by_cases h3 : self.dim.getD axis 0 = 1
    · rw [if_pos h3]
      intro s hs
      rcases List.mem_or_eq_of_mem_set hs with h | h
      · exact hsnn s h
      · rw [h]
        have := (promoteFold_spec axis (axesOf self.dim self.strides) 1).1
        omega
    · rw [if_neg h3]
      exact hsnn

theorem getD_nonneg_of_mem_nonneg {l : List Int} (h : ∀ s ∈ l, 0 ≤ s) (i : Nat) :
    0 ≤ l.getD i 0 := by
  by_cases hi : i < l.length
  · rw [List.getD_eq_getElem l 0 hi]
    exact h _ (List.getElem_mem hi)
  · rw [List.getD_eq_default _ _ (by omega)]

/-- The write phase of one call, characterized through the *untransformed*
pairs: with nonnegative committed strides the pre-write transform is a pure
permutation of the traversal pairs, so — given the asserted standard order of
the transformed tail — no clone panics, exactly `len` elements are written,
and slot `p` of the filled tail holds the unique source element whose
untransformed destination offset is `p`. -/
theorem appendWrites_char [Inhabited α] (self : OwnedArray α) (axis : Nat)
    (arr : View α) (rd : List Nat)
    (hsl : (stridesForAppend self axis rd).length = arr.dim.length)
    (hasl : arr.strides.length = arr.dim.length)
    (hnn : ∀ s ∈ stridesForAppend self axis rd, 0 ≤ s)
    (hstd : isStandardLayout (appendTailTransformed self axis arr rd).1.dim
      (appendTailTransformed self axis arr rd).1.strides) :
    (appendWrites cloneOk self axis arr rd).2 = false ∧
    (appendWrites cloneOk self axis arr rd).1.length = arr.dim.prod ∧
    (∀ p : Nat, ∀ e : α,
      ((p : Int), e) ∈ writePairs
          { dim := arr.dim, strides := stridesForAppend self axis rd, off := 0 } arr →
      p < arr.dim.prod →
      (fillTail (appendWrites cloneOk self axis arr rd).1.length
        (appendWrites cloneOk self axis arr rd).1).getD p default = e) := by
  have hnn2 : ∀ i, 0 ≤
      (({ dim := arr.dim, strides := stridesForAppend self axis rd, off := 0 } :
        TailView).strides.getD i 0) :=
    fun i => getD_nonneg_of_mem_nonneg hnn i
  have hT : appendTailTransformed self axis arr rd =
      writeTransform { dim := arr.dim, strides := stridesForAppend self axis rd, off := 0 }
        arr := rfl
  have hperm : (writePairs (appendTailTransformed self axis arr rd).1
      (appendTailTransformed self axis arr rd).2).Perm
      (writePairs { dim := arr.dim, strides := stridesForAppend self axis rd, off := 0 } arr) := by
    rw [hT]
    exact writeTransform_writePairs_perm _ arr hsl rfl hasl hnn2
  have hoff : (appendTailTransformed self axis arr rd).1.off = 0 := by
    rw [hT]
    exact writeTransform_off _ arr hnn2
  have hfst : (writePairs (appendTailTransformed self axis arr rd).1
      (appendTailTransformed self axis arr rd).2).map Prod.fst =
      (List.range (appendTailTransformed self axis arr rd).1.dim.prod).map
        (fun (k : Nat) => (k : Int)) :=
    writePairs_fst_standard _ _ hstd hoff
  have hwr : appendWrites cloneOk self axis arr rd =
      (writePairs (appendTailTransformed self axis arr rd).1
        (appendTailTransformed self axis arr rd).2, false) := by
    unfold appendWrites
    rw [runWrites_cloneOk]
  set ws := writePairs (appendTailTransformed self axis arr rd).1
    (appendTailTransformed self axis arr rd).2 with hws
  have hlen : ws.length = arr.dim.prod := by
    rw [hperm.length_eq, length_writePairs]
  rw [hwr]
  dsimp only []
  refine ⟨rfl, hlen, ?_⟩
  intro p e hmem hp
  have hQ : ∀ i (hi : i < ws.length), (ws.get ⟨i, hi⟩).1 = (i : Int) := by
    intro i hi
    have hi2 : i < (ws.map Prod.fst).length := by
      rw [List.length_map]
      exact hi
    have hval := List.getElem_of_eq hfst hi2
    rw [List.getElem_map] at hval
    rw [List.getElem_map, List.getElem_range] at hval
    rw [List.get_eq_getElem]
    exact hval
  have hfill : fillTail ws.length ws = ws.map Prod.snd := fillTail_spec ws hQ
  have hpw : p < ws.length := by omega
  rw [hfill]
  rw [List.getD_eq_getElem _ _ (show p < (ws.map Prod.snd).length by
    rw [List.length_map]; omega)]
  rw [List.getElem_map]
  have hpair : (((p : Nat) : Int), (ws.get ⟨p, hpw⟩).2) = ws.get ⟨p, hpw⟩ := by
    apply Prod.ext
    · exact (hQ p hpw).symm
    · rfl
  have hin1 : (((p : Nat) : Int), (ws.get ⟨p, hpw⟩).2) ∈ ws := by
    rw [hpair, List.get_eq_getElem]
    exact List.getElem_mem _
  have hin2 : (((p : Nat) : Int), e) ∈ ws := (hperm.mem_iff).mpr hmem
  have hnd : (ws.map Prod.fst).Nodup := by
    rw [hfst]
    exact List.Nodup.map Nat.cast_injective (List.nodup_range _)
  exact nodup_fst_unique hnd hin1 hin2

theorem take_set_of_le {β : Type u} (l : List β) (i j : Nat) (v : β) (h : j ≤ i) :
    (l.set i v).take j = l.take j := by
  induction l generalizing i j with
  | nil => rfl
  | cons x xs ih =>
    cases i with
    | zero =>
      cases j with
      | zero => rfl
      | succ m => omega
    | succ n =>
      cases j with
      | zero => rfl
      | succ m =>
        simp only [List.set_cons_succ, List.take_succ_cons]
        rw [ih n m (by omega)]

theorem drop_set_of_lt {β : Type u} (l : List β) (i m : Nat) (v : β) (h : i < m) :
    (l.set i v).drop m = l.drop m := by
  induction l generalizing i m with
  | nil => rfl
  | cons x xs ih =>
    cases i with
    | zero =>
      cases m with
      | zero => omega
      | succ k => rfl
    | succ n =>
      cases m with
      | zero => omega
      | succ k =>
        simp only [List.set_cons_succ, List.drop_succ_cons]
        exact ih n k (by omega)

theorem take_succ_getD {β : Type u} [Inhabited β] (l : List β) (j : Nat) (h : j < l.length) :
    l.take (j + 1) = l.take j ++ [l.getD j default] := by
  induction l generalizing j with
  | nil => simp at h
  | cons x xs ih =>
    cases j with
    | zero => rfl
    | succ m =>
      simp only [List.take_succ_cons, List.getD_cons_succ]
      rw [ih m (by simpa using h)]
      rfl

theorem fortranAux_set_last (acc : Int) (l : List Nat) (a b : Nat) (hl : l ≠ []) :
    fortranAux acc (l.set (l.length - 1) a) = fortranAux acc (l.set (l.length - 1) b) := by
  induction l generalizing acc with
  | nil => exact absurd rfl hl
  | cons x xs ih =>
    cases xs with
    | nil => rfl
    | cons y ys =>
      have hlen : (x :: y :: ys).length - 1 = (y :: ys).length - 1 + 1 := by
        simp only [List.length_cons]
        omega
      rw [hlen]
      rw [show (x :: y :: ys).set ((y :: ys).length - 1 + 1) a =
        x :: (y :: ys).set ((y :: ys).length - 1) a from rfl]
      rw [show (x :: y :: ys).set ((y :: ys).length - 1 + 1) b =
        x :: (y :: ys).set ((y :: ys).length - 1) b from rfl]
      rw [show fortranAux acc (x :: (y :: ys).set ((y :: ys).length - 1) a) =
        acc :: fortranAux (acc * (x : Int)) ((y :: ys).set ((y :: ys).length - 1) a) from rfl]
      rw [show fortranAux acc (x :: (y :: ys).set ((y :: ys).length - 1) b) =
        acc :: fortranAux (acc * (x : Int)) ((y :: ys).set ((y :: ys).length - 1) b) from rfl]
      rw [ih (acc * (x : Int)) (by simp)]

/-- The swap of a result shape whose growing-axis entry was overwritten:
the entry moves to the front, the front entry moves to the axis slot. -/
theorem listSwap_set_axis (dim : List Nat) (axis v : Nat) (hax : axis < dim.length)
    (hax1 : 1 ≤ axis) :
    listSwap (dim.set axis v) 0 axis = (dim.set axis (dim.getD 0 default)).set 0 v := by
  unfold listSwap
  rw [getD_set_self dim axis v default hax,
    getD_set_ne dim axis 0 v default (by omega)]
  rw [List.set_comm v (dim.getD 0 default) (dim.set axis v) (by omega)]
  rw [List.set_set]

/-- The committed strides are independent of the result shape's growing-axis
entry — only the off-axis extents feed the computation. -/
theorem stridesForAppend_rd_indep [Inhabited α] (self : OwnedArray α) (axis : Nat) (a b : Nat)
    (hax : axis < self.dim.length) :
    stridesForAppend self axis (self.dim.set axis a) =
      stridesForAppend self axis (self.dim.set axis b) := by
  have hnil : self.dim ≠ [] := by
    intro hn
    rw [hn] at hax
    simp at hax
  unfold stridesForAppend
  by_cases h1 : self.dim.prod = 0
  · rw [if_pos h1, if_pos h1]
    by_cases h2 : axis = self.dim.length - 1
    · rw [if_pos h2, if_pos h2]
      show fortranAux 1 (self.dim.set axis a) = fortranAux 1 (self.dim.set axis b)
      rw [h2]
      exact fortranAux_set_last 1 self.dim a b hnil
    · rw [if_neg h2, if_neg h2]
      rcases Nat.eq_zero_or_pos axis with h0 | hpos1
    -- axis 0: the swaps are identities and canonical strides ignore the head
      · subst h0
        rw [listSwap_zero_zero, listSwap_zero_zero, listSwap_zero_zero, listSwap_zero_zero,
          defaultStrides_set_head _ _ hnil, defaultStrides_set_head _ _ hnil]
      · have hne2 : self.dim.set axis (self.dim.getD 0 default) ≠ [] := by
          intro hn
          have hlen := congrArg List.length hn
          rw [List.length_set, List.length_nil] at hlen
          omega
        rw [listSwap_set_axis self.dim axis a hax hpos1,
          listSwap_set_axis self.dim axis b hax hpos1,
          defaultStrides_set_head _ _ hne2, defaultStrides_set_head _ _ hne2]
  · rw [if_neg h1, if_neg h1]

theorem prod_take_le_prod_take (L : List Nat) (hpos : ∀ x ∈ L, 1 ≤ x) (i j : Nat) (h : i ≤ j) :
    (L.take i).prod ≤ (L.take j).prod := by
  conv_rhs => rw [← List.take_append_drop i (L.take j)]
  rw [List.prod_append, List.take_take, min_eq_left h]
  refine Nat.le_mul_of_pos_right _ ?_
  have := List.one_le_prod_of_one_le (l := (L.take j).drop i)
    (fun x hx => hpos x (List.mem_of_mem_take (List.mem_of_mem_drop hx)))
  omega

theorem mem_take_one_le (dim : List Nat) (axis : Nat)
    (hpos : ∀ j, j < dim.length → j ≠ axis → 1 ≤ dim.getD j 0) :
    ∀ x ∈ dim.take axis, 1 ≤ x := by
  intro x hx
  obtain ⟨q, hq, hget⟩ := List.getElem_of_mem hx
  rw [List.length_take] at hq
  obtain ⟨hq1, hq2⟩ := lt_min_iff.mp hq
  rw [List.getElem_take] at hget
  have := hpos q hq2 (by omega)
  rw [List.getD_eq_getElem _ _ hq2, hget] at this
  exact this

theorem getD_mul_prod_drop (W : List Nat) (q : Nat) (hq : q < W.length) :
    W.getD q 0 * (W.drop (q + 1)).prod = (W.drop q).prod := by
  rw [drop_eq_getD_cons W q hq, List.prod_cons]

theorem prod_drop_le_prod_drop_one (W : List Nat) (hW : ∀ x ∈ W, 1 ≤ x) (q : Nat)
    (hq : 1 ≤ q) : (W.drop q).prod ≤ (W.drop 1).prod := by
  have e : W.drop q = (W.drop 1).drop (q - 1) := by
    rw [List.drop_drop, show 1 + (q - 1) = q from by omega]
  rw [e]
  exact prod_drop_le_prod (W.drop 1) (fun x hx => hW x (List.mem_of_mem_drop hx)) (q - 1)

theorem fortranAux_getD (acc : Int) (l : List Nat) (i : Nat) (h : i < l.length) :
    (fortranAux acc l).getD i 0 = acc * (((l.take i).prod : Nat) : Int) := by
  induction l generalizing acc i with
  | nil => simp at h
  | cons d ds ih =>
    cases i with
    | zero => simp [fortranAux]
    | succ m =>
      rw [show (fortranAux acc (d :: ds)).getD (m + 1) 0 =
        (fortranAux (acc * (d : Int)) ds).getD m 0 from rfl,
        ih (acc * (d : Int)) m (by simpa using h),
        show (d :: ds).take (m + 1) = d :: ds.take m from rfl, List.prod_cons]
      push_cast
      ring

/-- Promoting an extent-1 growing axis over fortran-family committed strides
(growth along the last axis of an initially empty array) reproduces the
committed stride of that axis. -/
theorem promoteFold_fortran_last (dim : List Nat) (axis n1 : Nat)
    (hax : axis < dim.length) (hlast : axis = dim.length - 1)
    (hpos : ∀ j, j < dim.length → j ≠ axis → 1 ≤ dim.getD j 0) :
    promoteFold axis 1 (axesOf (dim.set axis 1) (fortranAux 1 (dim.set axis n1))) =
      (fortranAux 1 (dim.set axis n1)).getD axis 0 := by
  have hlen1 : (dim.set axis 1).length = dim.length := List.length_set _ _ _
  have hstr : ∀ j, j ≤ axis →
      (fortranAux 1 (dim.set axis n1)).getD j 0 = (((dim.take j).prod : Nat) : Int) := by
    intro j hj
    rw [fortranAux_getD 1 _ j (by rw [List.length_set]; omega),
      take_set_of_le dim axis j n1 hj, one_mul]
  obtain ⟨h1, h2, h3⟩ :=
    promoteFold_spec axis (axesOf (dim.set axis 1) (fortranAux 1 (dim.set axis n1))) 1
  have hub : ∀ ax ∈ axesOf (dim.set axis 1) (fortranAux 1 (dim.set axis n1)), ax.1 ≠ axis →
      (ax.2.1 : Int) * ax.2.2 ≤ (((dim.take axis).prod : Nat) : Int) := by
    intro ax hax2 hne
    obtain ⟨j, hj, haxj⟩ := axesOf_mem_iff.mp hax2
    rw [haxj] at hne ⊢
    dsimp only [] at hne ⊢
    rw [hlen1] at hj
    have hjlt : j < axis := by omega
    rw [getD_set_ne dim axis j 1 0 hne, hstr j (by omega)]
    have hq : dim.getD j 0 * (dim.take j).prod = (dim.take (j + 1)).prod := by
      rw [take_succ_getD dim j (by omega), List.prod_append]
      simp [Nat.mul_comm]
    have hm := prod_take_le_prod_take (dim.take axis) (mem_take_one_le dim axis hpos)
      (j + 1) axis (by omega)
    rw [List.take_take, min_eq_left (by omega : j + 1 ≤ axis), List.take_take, min_self] at hm
    exact_mod_cast le_trans (le_of_eq hq) hm
  rw [hstr axis (le_refl axis)]
  apply le_antisymm
  · rcases h3 with hc | ⟨ax, hax2, hne, hval⟩
    · rw [hc]
      exact_mod_cast List.one_le_prod_of_one_le (mem_take_one_le dim axis hpos)
    · rw [hval]
      exact hub ax hax2 hne
  · cases axis with
    | zero => simpa using h1
    | succ m =>
      have hmem : ((m : Nat), (dim.set (m + 1) 1).getD m 0,
          (fortranAux 1 (dim.set (m + 1) n1)).getD m 0) ∈
          axesOf (dim.set (m + 1) 1) (fortranAux 1 (dim.set (m + 1) n1)) :=
        axesOf_mem_iff.mpr ⟨m, by rw [hlen1]; omega, rfl⟩
      have hlb := h2 _ hmem (by dsimp only []; omega)
      dsimp only [] at hlb
      rw [getD_set_ne dim (m + 1) m 1 0 (by omega), hstr m (by omega)] at hlb
      have hq : dim.getD m 0 * (dim.take m).prod = (dim.take (m + 1)).prod := by
        rw [take_succ_getD dim m (by omega), List.prod_append]
        simp [Nat.mul_comm]
      have hcast : (((dim.take (m + 1)).prod : Nat) : Int) =
          ((dim.getD m 0 : Nat) : Int) * (((dim.take m).prod : Nat) : Int) := by
        exact_mod_cast hq.symm
      rw [hcast]
      exact hlb

/-- Promoting an extent-1 growing axis over swap-default-family committed
strides (growth along a non-last axis of an initially empty array) reproduces
the committed stride of that axis. -/
theorem promoteFold_swap_axis (dim : List Nat) (axis n1 : Nat)
    (hax : axis < dim.length) (hax1 : 1 ≤ axis) (hn1 : 1 ≤ n1)
    (hpos : ∀ j, j < dim.length → j ≠ axis → 1 ≤ dim.getD j 0) :
    promoteFold axis 1 (axesOf (dim.set axis 1)
        (listSwap (defaultStrides (listSwap (dim.set axis n1) 0 axis)) 0 axis)) =
      (listSwap (defaultStrides (listSwap (dim.set axis n1) 0 axis)) 0 axis).getD axis 0 := by
  rw [listSwap_set_axis dim axis n1 hax hax1]
  set W : List Nat := (dim.set axis (dim.getD 0 default)).set 0 n1 with hW
  have hWlen : W.length = dim.length := by rw [hW, List.length_set, List.length_set]
  have hW1 : ∀ x ∈ W, 1 ≤ x := by
    intro x hx
    obtain ⟨q, hq, hget⟩ := List.getElem_of_mem hx
    have hq2 : q < dim.length := by rw [← hWlen]; exact hq
    have hgd : W.getD q 0 = x := by rw [List.getD_eq_getElem _ _ hq, hget]
    by_cases h0 : q = 0
    · subst h0
      rw [hW, getD_set_self _ 0 n1 0 (by rw [List.length_set]; omega)] at hgd
      omega
    · by_cases haq : q = axis
      · rw [haq] at hgd
        rw [hW, getD_set_ne _ 0 axis n1 0 (by omega),
          getD_set_self dim axis (dim.getD 0 default) 0 hax,
          show (default : Nat) = 0 from rfl] at hgd
        have := hpos 0 (by omega) (by omega)
        omega
      · rw [hW, getD_set_ne _ 0 q n1 0 h0, getD_set_ne dim axis q _ 0 haq] at hgd
        have := hpos q hq2 haq
        omega
  have hSlen : (defaultStrides W).length = dim.length := by
    rw [defaultStrides_length, hWlen]
  have hd0 : (default : Int) = 0 := rfl
  have hσax : (listSwap (defaultStrides W) 0 axis).getD axis 0 =
      (((W.drop 1).prod : Nat) : Int) := by
    unfold listSwap
    rw [getD_set_self _ axis _ 0 (by rw [List.length_set, hSlen]; omega), hd0,
      defaultStrides_getD W 0 (by rw [hWlen]; omega)]
  have hσ0 : (listSwap (defaultStrides W) 0 axis).getD 0 0 =
      (((W.drop (axis + 1)).prod : Nat) : Int) := by
    unfold listSwap
    rw [getD_set_ne _ axis 0 _ 0 (by omega),
      getD_set_self _ 0 _ 0 (by rw [hSlen]; omega), hd0,
      defaultStrides_getD W axis (by rw [hWlen]; omega)]
  have hσk : ∀ k, k < dim.length → k ≠ 0 → k ≠ axis →
      (listSwap (defaultStrides W) 0 axis).getD k 0 =
        (((W.drop (k + 1)).prod : Nat) : Int) := by
    intro k hk h0 hka
    unfold listSwap
    rw [getD_set_ne _ axis k _ 0 hka, getD_set_ne _ 0 k _ 0 h0,
      defaultStrides_getD W k (by rw [hWlen]; omega)]
  have hWax : W.getD axis 0 = dim.getD 0 0 := by
    rw [hW, getD_set_ne _ 0 axis n1 0 (by omega),
      getD_set_self dim axis _ 0 hax, show (default : Nat) = 0 from rfl]
  have hWk : ∀ k, k ≠ 0 → k ≠ axis → W.getD k 0 = dim.getD k 0 := by
    intro k h0 hka
    rw [hW, getD_set_ne _ 0 k n1 0 h0, getD_set_ne dim axis k _ 0 hka]
  obtain ⟨h1, h2, h3⟩ := promoteFold_spec axis
    (axesOf (dim.set axis 1) (listSwap (defaultStrides W) 0 axis)) 1
  have hub : ∀ ax ∈ axesOf (dim.set axis 1) (listSwap (defaultStrides W) 0 axis),
      ax.1 ≠ axis → (ax.2.1 : Int) * ax.2.2 ≤ (((W.drop 1).prod : Nat) : Int) := by
    intro ax hax2 hne
    obtain ⟨j, hj, haxj⟩ := axesOf_mem_iff.mp hax2
    rw [haxj] at hne ⊢
    dsimp only [] at hne ⊢
    rw [List.length_set] at hj
    by_cases h0 : j = 0
    · subst h0
      rw [getD_set_ne dim axis 0 1 0 (by omega), hσ0, ← hWax]
      have hq := getD_mul_prod_drop W axis (by rw [hWlen]; omega)
      have hle : (W.drop axis).prod ≤ (W.drop 1).prod :=
        prod_drop_le_prod_drop_one W hW1 axis hax1
      calc ((W.getD axis 0 : Nat) : Int) * (((W.drop (axis + 1)).prod : Nat) : Int)
          = (((W.drop axis).prod : Nat) : Int) := by exact_mod_cast hq
        _ ≤ (((W.drop 1).prod : Nat) : Int) := by exact_mod_cast hle
    · rw [getD_set_ne dim axis j 1 0 hne, hσk j hj h0 hne, ← hWk j h0 hne]
      have hq := getD_mul_prod_drop W j (by rw [hWlen]; omega)
      have hle : (W.drop j).prod ≤ (W.drop 1).prod :=
        prod_drop_le_prod_drop_one W hW1 j (by omega)
      calc ((W.getD j 0 : Nat) : Int) * (((W.drop (j + 1)).prod : Nat) : Int)
          = (((W.drop j).prod : Nat) : Int) := by exact_mod_cast hq
        _ ≤ (((W.drop 1).prod : Nat) : Int) := by exact_mod_cast hle
  rw [hσax]
  apply le_antisymm
  · rcases h3 with hc | ⟨ax, hax2, hne, hval⟩
    · rw [hc]
      have hp : 1 ≤ (W.drop 1).prod :=
        List.one_le_prod_of_one_le (fun x hx => hW1 x (List.mem_of_mem_drop hx))
      exact_mod_cast hp
    · rw [hval]
      exact hub ax hax2 hne
  · by_cases ha1 : axis = 1
    · have hmem : ((0 : Nat), (dim.set axis 1).getD 0 0,
          (listSwap (defaultStrides W) 0 axis).getD 0 0) ∈
          axesOf (dim.set axis 1) (listSwap (defaultStrides W) 0 axis) :=
        axesOf_mem_iff.mpr ⟨0, by rw [List.length_set]; omega, rfl⟩
      have hlb := h2 _ hmem (by dsimp only []; omega)
      dsimp only [] at hlb
      rw [getD_set_ne dim axis 0 1 0 (by omega), hσ0, ← hWax] at hlb
      have hq := getD_mul_prod_drop W axis (by rw [hWlen]; omega)
      have hc2 : (((W.drop 1).prod : Nat) : Int) =
          ((W.getD axis 0 : Nat) : Int) * (((W.drop (axis + 1)).prod : Nat) : Int) := by
        subst ha1
        exact_mod_cast hq.symm
      rw [hc2]
      exact hlb
    · have hmem : ((1 : Nat), (dim.set axis 1).getD 1 0,
          (listSwap (defaultStrides W) 0 axis).getD 1 0) ∈
          axesOf (dim.set axis 1) (listSwap (defaultStrides W) 0 axis) :=
        axesOf_mem_iff.mpr ⟨1, by rw [List.length_set]; omega, rfl⟩
      have hlb := h2 _ hmem (by dsimp only []; omega)
      dsimp only [] at hlb
      rw [getD_set_ne dim axis 1 1 0 (by omega), hσk 1 (by omega) (by omega) (by omega),
        ← hWk 1 (by omega) (by omega)] at hlb
      have hq := getD_mul_prod_drop W 1 (by rw [hWlen]; omega)
      have hc2 : (((W.drop 1).prod : Nat) : Int) =
          ((W.getD 1 0 : Nat) : Int) * (((W.drop (1 + 1)).prod : Nat) : Int) := by
        exact_mod_cast hq.symm
      rw [hc2]
      exact hlb

/-- The promotion fold skips the growing axis, so the value of that axis's
stride entry never feeds it. -/
theorem promoteFold_set_axis_invar (axis : Nat) (a : Int) (dim : List Nat)
    (σ : List Int) (v : Int) :
    promoteFold axis a (axesOf dim (σ.set axis v)) =
      promoteFold axis a (axesOf dim σ) := by
  unfold promoteFold axesOf
  rw [List.foldl_map, List.foldl_map]
  refine List.foldl_ext _ _ a ?_
  intro acc b hb
  dsimp only []
  by_cases hbax : b = axis
  · rw [if_pos hbax, if_pos hbax]
  · rw [if_neg hbax, if_neg hbax, getD_set_ne σ axis b v 0 hbax]

/-- Sequential `try_append_array` calls: fold over the slabs, stopping at the
first call that does not return `Ok`. -/
def appendSeq [Inhabited α] (cloneF : α → Option α) (axis : Nat) :
    OwnedArray α → List (View α) → AppendOutcome α
  | st, [] => .ok st
  | st, v :: rest =>
    match tryAppendArray cloneF st axis v with
    | .ok st2 => appendSeq cloneF axis st2 rest
    | .err e st2 => .err e st2
    | .panicked st2 => .panicked st2
    | .assertFailed => .assertFailed

/-- Total extent along the growing axis of a list of slabs. -/
def concatExtent (axis : Nat) (slabs : List (View α)) : Nat :=
  (slabs.map (fun v => v.dim.getD axis 0)).sum

/-- Shape of the single combined slab: the base shape with the growing-axis
extent replaced by the slabs' total extent. -/
def concatDim (self : OwnedArray α) (axis : Nat) (slabs : List (View α)) : List Nat :=
  self.dim.set axis (concatExtent axis slabs)

/-- The element of the stacked slabs at a multi-index of the combined shape:
locate the block containing the growing-axis coordinate and read that slab at
the localized index. -/
def slabSelect [Inhabited α] (axis : Nat) : List (View α) → List Nat → α
  | [], _ => default
  | v :: rest, idx =>
    if idx.getD axis 0 < v.dim.getD axis 0 then v.elemAt idx
    else slabSelect axis rest (idx.set axis (idx.getD axis 0 - v.dim.getD axis 0))

/-- The single combined slab: a standard-layout view whose logical elements
are the given slabs stacked along the growing axis. -/
def concatSlab [Inhabited α] (self : OwnedArray α) (axis : Nat) (slabs : List (View α)) :
    View α :=
  { data := (indicesOf (concatDim self axis slabs)).map (slabSelect axis slabs),
    off := 0,
    dim := concatDim self axis slabs,
    strides := defaultStrides (concatDim self axis slabs) }

/-- Buffer slot (relative to the first appended slot) that the sequential
route writes for a multi-index of the combined shape: blocks before the
containing one contribute their full size, the containing call contributes
the offset of the localized index under the committed strides. -/
def slabPos (axis R1 : Nat) (σ : List Int) : List (View α) → List Nat → Nat
  | [], _ => 0
  | v :: rest, idx =>
    if idx.getD axis 0 < v.dim.getD axis 0 then (offsetOf σ idx).toNat
    else v.dim.getD axis 0 * R1 +
      slabPos axis R1 σ rest (idx.set axis (idx.getD axis 0 - v.dim.getD axis 0))

/-- Number of slabs with nonzero extent along the growing axis. -/
def nzCount (axis : Nat) (slabs : List (View α)) : Nat :=
  (slabs.filter (fun v => decide (v.dim.getD axis 0 ≠ 0))).length

/-- The destination offsets of one call cover exactly `[0, n * R1)`: they
stay below the bound and reach every value in it. -/
def callCover (axis : Nat) (Adim : List Nat) (σ : List Int) (n R1 : Nat) : Prop :=
  (∀ idx ∈ indicesOf (Adim.set axis n), offsetOf σ idx < ((n * R1 : Nat) : Int)) ∧
  (∀ k : Nat, k < n * R1 →
    ∃ idx ∈ indicesOf (Adim.set axis n), offsetOf σ idx = (k : Int))

/-- The strides every proceeding call of the sequence commits: the first
proceeding call computes them (and, by `stridesForAppend_rd_indep`, the
result-shape axis entry it is computed from is irrelevant), later calls keep
them. -/
def sigAll (self : OwnedArray α) (axis : Nat) (N : Nat) : List Int :=
  stridesForAppend self axis (self.dim.set axis (self.dim.getD axis 0 + N))

theorem concatExtent_cons (axis : Nat) (v : View α) (rest : List (View α)) :
    concatExtent axis (v :: rest) = v.dim.getD axis 0 + concatExtent axis rest := by
  simp [concatExtent]

theorem nzCount_cons_zero (axis : Nat) (v : View α) (rest : List (View α))
    (h : v.dim.getD axis 0 = 0) : nzCount axis (v :: rest) = nzCount axis rest := by
  unfold nzCount
  rw [List.filter_cons,
    if_neg (by simp only [decide_eq_true_eq, ne_eq, not_not]; exact h)]

theorem nzCount_cons_pos (axis : Nat) (v : View α) (rest : List (View α))
    (h : v.dim.getD axis 0 ≠ 0) : nzCount axis (v :: rest) = nzCount axis rest + 1 := by
  unfold nzCount
  rw [List.filter_cons, if_pos (by simp only [decide_eq_true_eq, ne_eq]; exact h)]
  rfl

theorem nzCount_pos_extent (axis : Nat) (L : List (View α)) (h : 1 ≤ nzCount axis L) :
    1 ≤ concatExtent axis L := by
  induction L with
  | nil => simp [nzCount] at h
  | cons v rest ih =>
    rw [concatExtent_cons]
    by_cases hv : v.dim.getD axis 0 = 0
    · rw [nzCount_cons_zero axis v rest hv] at h
      have := ih h
      omega
    · omega

theorem slabSelect_zero_head [Inhabited α] (axis : Nat) (v : View α) (rest : List (View α))
    (idx : List Nat) (hv : v.dim.getD axis 0 = 0) :
    slabSelect axis (v :: rest) idx = slabSelect axis rest idx := by
  show (if idx.getD axis 0 < v.dim.getD axis 0 then v.elemAt idx
    else slabSelect axis rest (idx.set axis (idx.getD axis 0 - v.dim.getD axis 0))) =
      slabSelect axis rest idx
  rw [hv, if_neg (Nat.not_lt_zero _), Nat.sub_zero, set_getD_self_eq]

theorem slabPos_zero_head [Inhabited α] (axis R1 : Nat) (σ : List Int) (v : View α)
    (rest : List (View α)) (idx : List Nat) (hv : v.dim.getD axis 0 = 0) :
    slabPos (α := α) axis R1 σ (v :: rest) idx = slabPos (α := α) axis R1 σ rest idx := by
  show (if idx.getD axis 0 < v.dim.getD axis 0 then (offsetOf σ idx).toNat
    else v.dim.getD axis 0 * R1 +
      slabPos axis R1 σ rest (idx.set axis (idx.getD axis 0 - v.dim.getD axis 0))) =
      slabPos axis R1 σ rest idx
  rw [hv, if_neg (Nat.not_lt_zero _), Nat.sub_zero, set_getD_self_eq, Nat.zero_mul,
    Nat.zero_add]

theorem prod_eraseIdx (l : List Nat) (i : Nat) (h : i < l.length) :
    l.prod = l.getD i 0 * (l.eraseIdx i).prod := by
  induction l generalizing i with
  | nil => simp at h
  | cons x xs ih =>
    cases i with
    | zero => simp
    | succ m =>
      rw [show (x :: xs).eraseIdx (m + 1) = x :: xs.eraseIdx m from rfl,
        List.prod_cons, List.prod_cons, show (x :: xs).getD (m + 1) 0 = xs.getD m 0 from rfl,
        ih m (by simpa using h)]
      ring

theorem eraseIdx_getD_lt {β : Type u} (l : List β) (i j : Nat) (d : β) (h : j < i) :
    (l.eraseIdx i).getD j d = l.getD j d := by
  induction l generalizing i j with
  | nil => rfl
  | cons x xs ih =>
    cases i with
    | zero => exact absurd h (Nat.not_lt_zero j)
    | succ m =>
      cases j with
      | zero => rfl
      | succ k =>
        show (xs.eraseIdx m).getD k d = xs.getD k d
        exact ih m k (by omega)

theorem eraseIdx_getD_ge {β : Type u} (l : List β) (i j : Nat) (d : β) (h : i ≤ j) :
    (l.eraseIdx i).getD j d = l.getD (j + 1) d := by
  induction l generalizing i j with
  | nil => rfl
  | cons x xs ih =>
    cases i with
    | zero => rfl
    | succ m =>
      cases j with
      | zero => exact absurd h (by omega)
      | succ k =>
        show (xs.eraseIdx m).getD k d = xs.getD (k + 1) d
        exact ih m k (by omega)

theorem getD_eq_of_eraseIdx_eq {β : Type u} (l1 l2 : List β) (axis j : Nat) (d : β)
    (he : l1.eraseIdx axis = l2.eraseIdx axis) (hj : j ≠ axis) :
    l1.getD j d = l2.getD j d := by
  rcases Nat.lt_or_ge j axis with h | h
  · rw [← eraseIdx_getD_lt l1 axis j d h, ← eraseIdx_getD_lt l2 axis j d h, he]
  · obtain ⟨k, rfl⟩ : ∃ k, j = k + 1 := ⟨j - 1, by omega⟩
    rw [← eraseIdx_getD_ge l1 axis k d (by omega), ← eraseIdx_getD_ge l2 axis k d (by omega),
      he]

theorem eq_set_of_eraseIdx_eq {β : Type u} (l1 l2 : List β) (axis : Nat) (d : β)
    (hl : l1.length = l2.length) (he : l1.eraseIdx axis = l2.eraseIdx axis)
    (hax : axis < l2.length) :
    l1 = l2.set axis (l1.getD axis d) := by
  apply ext_getD _ _ d (by rw [List.length_set]; exact hl)
  intro i hi
  by_cases hia : i = axis
  · subst hia
    rw [getD_set_self l2 i _ d hax]
  · rw [getD_set_ne l2 axis i _ d hia]
    exact getD_eq_of_eraseIdx_eq l1 l2 axis i d he hia

theorem one_le_offaxis (Adim : List Nat) (axis : Nat) (hax : axis < Adim.length)
    (hR : (Adim.eraseIdx axis).prod ≠ 0) :
    ∀ j, j < Adim.length → j ≠ axis → 1 ≤ Adim.getD j 0 := by
  intro j hj hja
  have hmem : ∀ x ∈ Adim.eraseIdx axis, 1 ≤ x := one_le_of_prod_ne_zero _ hR
  have hlen : (Adim.eraseIdx axis).length = Adim.length - 1 := by
    rw [List.length_eraseIdx]
    simp [hax]
  rcases Nat.lt_or_ge j axis with h | h
  · have he := eraseIdx_getD_lt Adim axis j 0 h
    have hjl : j < (Adim.eraseIdx axis).length := by omega
    rw [← he, List.getD_eq_getElem _ _ hjl]
    exact hmem _ (List.getElem_mem _)
  · obtain ⟨k, rfl⟩ : ∃ k, j = k + 1 := ⟨j - 1, by omega⟩
    have he := eraseIdx_getD_ge Adim axis k 0 (by omega)
    have hkl : k < (Adim.eraseIdx axis).length := by omega
    rw [← he, List.getD_eq_getElem _ _ hkl]
    exact hmem _ (List.getElem_mem _)

theorem prod_set_axis (l : List Nat) (axis m : Nat) (hax : axis < l.length) :
    (l.set axis m).prod = m * (l.eraseIdx axis).prod := by
  rw [prod_eraseIdx (l.set axis m) axis (by rw [List.length_set]; exact hax),
    getD_set_self l axis m 0 hax, eraseIdx_set_self]

theorem offsetOf_replicate_zero (σ : List Int) (n : Nat) :
    offsetOf σ (List.replicate n 0) = 0 := by
  induction σ generalizing n with
  | nil => simp [offsetOf_nil_strides]
  | cons s ss ih =>
    cases n with
    | zero => simp [offsetOf_nil_idx]
    | succ m =>
      rw [show List.replicate (m + 1) (0 : Nat) = 0 :: List.replicate m 0 from rfl,
        offsetOf_cons, ih]
      simp

theorem replicate_set_zero (n i : Nat) :
    (List.replicate n (0 : Nat)).set i 0 = List.replicate n 0 := by
  induction n generalizing i with
  | zero => rfl
  | succ m ih =>
    cases i with
    | zero => rfl
    | succ k =>
      show (0 : Nat) :: (List.replicate m 0).set k 0 = List.replicate (m + 1) 0
      rw [ih, List.replicate_succ]

theorem getD_replicate_lt {β : Type u} (b d : β) (n j : Nat) (h : j < n) :
    (List.replicate n b).getD j d = b := by
  induction n generalizing j with
  | zero => omega
  | succ m ih =>
    cases j with
    | zero => rfl
    | succ k => exact ih k (by omega)

theorem mem_drop_one_le (dim : List Nat)
    (hpos : ∀ j, j < dim.length → j ≠ 0 → 1 ≤ dim.getD j 0) :
    ∀ x ∈ dim.drop 1, 1 ≤ x := by
  intro x hx
  obtain ⟨q, hq, hget⟩ := List.getElem_of_mem hx
  rw [List.getElem_drop] at hget
  rw [List.length_drop] at hq
  have hq2 : 1 + q < dim.length := by omega
  have := hpos (1 + q) hq2 (by omega)
  rw [List.getD_eq_getElem _ _ hq2, hget] at this
  exact this

theorem sigAll_length [Inhabited α] (A : OwnedArray α) (axis N : Nat)
    (hs0 : A.strides.length = A.dim.length) :
    (sigAll A axis N).length = A.dim.length :=
  stridesForAppend_length A axis _ hs0 (List.length_set _ _ _)

theorem sigAll_nonneg [Inhabited α] (A : OwnedArray α) (axis N : Nat)
    (hsnn : ∀ s ∈ A.strides, 0 ≤ s) : ∀ s ∈ sigAll A axis N, 0 ≤ s :=
  stridesForAppend_nonneg A axis _ hsnn

/-- Promoting an extent-1 growing axis 0 over row-major committed strides
(growth along axis 0 of an initially empty array, where the double swap is the
identity) reproduces the committed stride of axis 0. -/
theorem promoteFold_default_head (dim : List Nat) (n1 : Nat) (hlen : 2 ≤ dim.length)
    (hpos : ∀ j, j < dim.length → j ≠ 0 → 1 ≤ dim.getD j 0) :
    promoteFold 0 1 (axesOf (dim.set 0 1) (defaultStrides (dim.set 0 n1))) =
      (defaultStrides (dim.set 0 n1)).getD 0 0 := by
  have hdrop : ∀ m, 1 ≤ m → (dim.set 0 n1).drop m = dim.drop m := by
    intro m hm
    exact drop_set_of_lt dim 0 m n1 (by omega)
  have hd1 : ∀ x ∈ dim.drop 1, 1 ≤ x := mem_drop_one_le dim hpos
  have hstr : ∀ j, j < dim.length →
      (defaultStrides (dim.set 0 n1)).getD j 0 = (((dim.drop (j + 1)).prod : Nat) : Int) := by
    intro j hj
    rw [defaultStrides_getD _ j (by rw [List.length_set]; omega), hdrop (j + 1) (by omega)]
  obtain ⟨h1, h2, h3⟩ :=
    promoteFold_spec 0 (axesOf (dim.set 0 1) (defaultStrides (dim.set 0 n1))) 1
  have hub : ∀ ax ∈ axesOf (dim.set 0 1) (defaultStrides (dim.set 0 n1)), ax.1 ≠ 0 →
      (ax.2.1 : Int) * ax.2.2 ≤ (((dim.drop 1).prod : Nat) : Int) := by
    intro ax hax2 hne
    obtain ⟨j, hj, haxj⟩ := axesOf_mem_iff.mp hax2
    rw [haxj] at hne ⊢
    dsimp only [] at hne ⊢
    rw [List.length_set] at hj
    rw [getD_set_ne dim 0 j 1 0 hne, hstr j hj]
    have hq := getD_mul_prod_drop dim j hj
    have hle : (dim.drop j).prod ≤ (dim.drop 1).prod := by
      have e : dim.drop j = (dim.drop 1).drop (j - 1) := by
        rw [List.drop_drop, show 1 + (j - 1) = j from by omega]
      rw [e]
      exact prod_drop_le_prod (dim.drop 1) hd1 (j - 1)
    calc ((dim.getD j 0 : Nat) : Int) * (((dim.drop (j + 1)).prod : Nat) : Int)
        = (((dim.drop j).prod : Nat) : Int) := by exact_mod_cast hq
      _ ≤ (((dim.drop 1).prod : Nat) : Int) := by exact_mod_cast hle
  rw [hstr 0 (by omega)]
  apply le_antisymm
  · rcases h3 with hc | ⟨ax, hax2, hne, hval⟩
    · rw [hc]
      have hp : 1 ≤ (dim.drop 1).prod := List.one_le_prod_of_one_le hd1
      exact_mod_cast hp
    · rw [hval]
      exact hub ax hax2 hne
  · have hmem : ((1 : Nat), (dim.set 0 1).getD 1 0,
        (defaultStrides (dim.set 0 n1)).getD 1 0) ∈
        axesOf (dim.set 0 1) (defaultStrides (dim.set 0 n1)) :=
      axesOf_mem_iff.mpr ⟨1, by rw [List.length_set]; omega, rfl⟩
    have hlb := h2 _ hmem (by dsimp only []; omega)
    dsimp only [] at hlb
    rw [getD_set_ne dim 0 1 1 0 (by omega), hstr 1 (by omega)] at hlb
    have hq := getD_mul_prod_drop dim 1 (by omega)
    have hc2 : (((dim.drop 1).prod : Nat) : Int) =
        ((dim.getD 1 0 : Nat) : Int) * (((dim.drop (1 + 1)).prod : Nat) : Int) := by
      exact_mod_cast hq.symm
    rw [show (0 : Nat) + 1 = 1 from rfl, hc2]
    exact hlb

theorem appendValidation_noop_inv (self : OwnedArray α) (axis : Nat) (arr : View α)
    (rd : List Nat) (nl : Nat) (h : appendValidation self axis arr = .noop rd nl) :
    self.dim.length ≠ 0 ∧ self.dim.eraseIdx axis = arr.dim.eraseIdx axis ∧
    rd = resDimOf self.dim arr.dim axis ∧ arr.dim.prod = 0 := by
  unfold appendValidation at h
  by_cases h1 : self.dim.length = 0
  · rw [if_pos h1] at h
    exact Validation.noConfusion h
  rw [if_neg h1] at h
  by_cases h2 : self.dim.eraseIdx axis ≠ arr.dim.eraseIdx axis
  · rw [if_pos h2] at h
    exact Validation.noConfusion h
  rw [if_neg h2] at h
  rw [not_ne_iff] at h2
  cases hsz : sizeOfShapeChecked (resDimOf self.dim arr.dim axis) with
  | error e =>
    rw [hsz] at h
    exact Validation.noConfusion h
  | ok nl2 =>
    rw [hsz] at h
    dsimp only [] at h
    by_cases h3 : arr.dim.prod = 0
    · rw [if_pos h3] at h
      injection h with hrd hnl
      exact ⟨h1, h2, hrd.symm, h3⟩
    rw [if_neg h3] at h
    by_cases h4 : self.dim.prod ≠ 0 ∧ 1 < self.dim.getD axis 0 ∧
        layoutCheckFails self.dim self.strides axis = true
    · rw [if_pos h4] at h
      exact Validation.noConfusion h
    rw [if_neg h4] at h
    by_cases h5 : self.data.length ≠ self.dim.prod
    · rw [if_pos h5] at h
      exact Validation.noConfusion h
    rw [if_neg h5] at h
    exact Validation.noConfusion h

theorem appendValidation_proceed_inv (self : OwnedArray α) (axis : Nat) (arr : View α)
    (rd : List Nat) (nl : Nat) (h : appendValidation self axis arr = .proceed rd nl) :
    self.dim.length ≠ 0 ∧ self.dim.eraseIdx axis = arr.dim.eraseIdx axis ∧
    rd = resDimOf self.dim arr.dim axis ∧ arr.dim.prod ≠ 0 ∧
    self.data.length = self.dim.prod := by
  unfold appendValidation at h
  by_cases h1 : self.dim.length = 0
  · rw [if_pos h1] at h
    exact Validation.noConfusion h
  rw [if_neg h1] at h
  by_cases h2 : self.dim.eraseIdx axis ≠ arr.dim.eraseIdx axis
  · rw [if_pos h2] at h
    exact Validation.noConfusion h
  rw [if_neg h2] at h
  rw [not_ne_iff] at h2
  cases hsz : sizeOfShapeChecked (resDimOf self.dim arr.dim axis) with
  | error e =>
    rw [hsz] at h
    exact Validation.noConfusion h
  | ok nl2 =>
    rw [hsz] at h
    dsimp only [] at h
    by_cases h3 : arr.dim.prod = 0
    · rw [if_pos h3] at h
      exact Validation.noConfusion h
    rw [if_neg h3] at h
    by_cases h4 : self.dim.prod ≠ 0 ∧ 1 < self.dim.getD axis 0 ∧
        layoutCheckFails self.dim self.strides axis = true
    · rw [if_pos h4] at h
      exact Validation.noConfusion h
    rw [if_neg h4] at h
    by_cases h5 : self.data.length ≠ self.dim.prod
    · rw [if_pos h5] at h
      exact Validation.noConfusion h
    rw [if_neg h5] at h
    rw [not_ne_iff] at h5
    injection h with hrd hnl
    exact ⟨h1, h2, hrd.symm, h3, h5⟩

/-- Inverting a successful `try_append_array` call: it was either the empty
no-op (shape bumped, nothing else), or a full proceed whose head-offset and
standard-order asserts passed, whose writes did not panic, and whose result is
the committed record. -/
theorem tryAppendArray_ok_inv [Inhabited α] (cloneF : α → Option α) (self : OwnedArray α)
    (axis : Nat) (arr : View α) (out : OwnedArray α)
    (h : tryAppendArray cloneF self axis arr = .ok out) :
    (∃ rd nl, appendValidation self axis arr = .noop rd nl ∧
      out = { self with dim := rd }) ∨
    (∃ rd nl, appendValidation self axis arr = .proceed rd nl ∧ self.off = 0 ∧
      isStandardLayout (appendTailTransformed self axis arr rd).1.dim
        (appendTailTransformed self axis arr rd).1.strides ∧
      (appendWrites cloneF self axis arr rd).2 = false ∧
      out = { data := self.data ++ fillTail (appendWrites cloneF self axis arr rd).1.length
                (appendWrites cloneF self axis arr rd).1,
              off := 0, dim := rd, strides := stridesForAppend self axis rd }) := by
  unfold tryAppendArray at h
  cases hval : appendValidation self axis arr with
  | fail e =>
    rw [hval] at h
    exact AppendOutcome.noConfusion h
  | noop rd nl =>
    rw [hval] at h
    dsimp only [] at h
    by_cases hc : self.dim.prod ≠ nl
    · rw [if_pos hc] at h
      exact AppendOutcome.noConfusion h
    rw [if_neg hc] at h
    injection h with h2
    exact Or.inl ⟨rd, nl, rfl, h2.symm⟩
  | proceed rd nl =>
    rw [hval] at h
    dsimp only [] at h
    by_cases hc1 : self.off ≠ 0
    · rw [if_pos hc1] at h
      exact AppendOutcome.noConfusion h
    rw [if_neg hc1] at h
    rw [not_ne_iff] at hc1
    by_cases hc2 : ¬ isStandardLayout (appendTailTransformed self axis arr rd).1.dim
        (appendTailTransformed self axis arr rd).1.strides
    · rw [if_pos hc2] at h
      exact AppendOutcome.noConfusion h
    rw [if_neg hc2] at h
    rw [not_not] at hc2
    by_cases hc3 : (appendWrites cloneF self axis arr rd).2 = true
    · rw [if_pos hc3] at h
      exact AppendOutcome.noConfusion h
    rw [if_neg hc3] at h
    rw [Bool.not_eq_true] at hc3
    by_cases hc4 : self.data.length + (appendWrites cloneF self axis arr rd).1.length ≠ nl
    · rw [if_pos hc4] at h
      exact AppendOutcome.noConfusion h
    rw [if_neg hc4] at h
    injection h with h2
    exact Or.inr ⟨rd, nl, rfl, hc1, hc2, hc3, h2.symm⟩

/-- The untransformed destination offsets of one call: pairwise distinct and
covering `[0, slab size)` exactly (the transform is a permutation and the
transformed destinations are the standard enumeration). -/
theorem appendWrites_dst_facts [Inhabited α] (self : OwnedArray α) (axis : Nat)
    (arr : View α) (rd : List Nat)
    (hsl : (stridesForAppend self axis rd).length = arr.dim.length)
    (hasl : arr.strides.length = arr.dim.length)
    (hnn : ∀ s ∈ stridesForAppend self axis rd, 0 ≤ s)
    (hstd : isStandardLayout (appendTailTransformed self axis arr rd).1.dim
      (appendTailTransformed self axis arr rd).1.strides) :
    ((writePairs { dim := arr.dim, strides := stridesForAppend self axis rd, off := 0 }
        arr).map Prod.fst).Nodup ∧
    (∀ pr ∈ writePairs { dim := arr.dim, strides := stridesForAppend self axis rd, off := 0 }
        arr, 0 ≤ pr.1 ∧ pr.1 < (arr.dim.prod : Int)) ∧
    (∀ k : Nat, k < arr.dim.prod →
      ∃ pr ∈ writePairs { dim := arr.dim, strides := stridesForAppend self axis rd, off := 0 }
        arr, pr.1 = (k : Int)) := by
  have hnn2 : ∀ i, 0 ≤
      (({ dim := arr.dim, strides := stridesForAppend self axis rd, off := 0 } :
        TailView).strides.getD i 0) := fun i => getD_nonneg_of_mem_nonneg hnn i
  have hT : appendTailTransformed self axis arr rd =
      writeTransform { dim := arr.dim, strides := stridesForAppend self axis rd, off := 0 }
        arr := rfl
  have hperm : (writePairs (appendTailTransformed self axis arr rd).1
      (appendTailTransformed self axis arr rd).2).Perm
      (writePairs { dim := arr.dim, strides := stridesForAppend self axis rd, off := 0 }
        arr) := by
    rw [hT]
    exact writeTransform_writePairs_perm _ arr hsl rfl hasl hnn2
  have hoff : (appendTailTransformed self axis arr rd).1.off = 0 := by
    rw [hT]
    exact writeTransform_off _ arr hnn2
  have hfst : (writePairs (appendTailTransformed self axis arr rd).1
      (appendTailTransformed self axis arr rd).2).map Prod.fst =
      (List.range (appendTailTransformed self axis arr rd).1.dim.prod).map
        (fun (k : Nat) => (k : Int)) := writePairs_fst_standard _ _ hstd hoff
  have hpf : ((writePairs (appendTailTransformed self axis arr rd).1
      (appendTailTransformed self axis arr rd).2).map Prod.fst).Perm
      ((writePairs { dim := arr.dim, strides := stridesForAppend self axis rd, off := 0 }
        arr).map Prod.fst) := hperm.map Prod.fst
  have hprodT : (appendTailTransformed self axis arr rd).1.dim.prod = arr.dim.prod := by
    have hh := hperm.length_eq
    rw [length_writePairs, length_writePairs] at hh
    exact hh
  refine ⟨?_, ?_, ?_⟩
  · refine hpf.nodup ?_
    rw [hfst]
    exact List.Nodup.map Nat.cast_injective (List.nodup_range _)
  · intro pr hpr
    have hmem : pr.1 ∈
        (writePairs { dim := arr.dim, strides := stridesForAppend self axis rd, off := 0 }
          arr).map Prod.fst := List.mem_map.mpr ⟨pr, hpr, rfl⟩
    have hmem2 : pr.1 ∈ (List.range (appendTailTransformed self axis arr rd).1.dim.prod).map
        (fun (k : Nat) => (k : Int)) := by
      rw [← hfst]
      exact (hpf.mem_iff).mpr hmem
    rw [List.mem_map] at hmem2
    obtain ⟨k, hk, hke⟩ := hmem2
    rw [List.mem_range, hprodT] at hk
    constructor
    · rw [← hke]
      exact Int.natCast_nonneg k
    · rw [← hke]
      exact_mod_cast hk
  · intro k hk
    have hmem2 : (k : Int) ∈ (List.range (appendTailTransformed self axis arr rd).1.dim.prod).map
        (fun (j : Nat) => (j : Int)) :=
      List.mem_map.mpr ⟨k, List.mem_range.mpr (by rw [hprodT]; exact hk), rfl⟩
    have hmem : (k : Int) ∈
        (writePairs { dim := arr.dim, strides := stridesForAppend self axis rd, off := 0 }
          arr).map Prod.fst := by
      rw [← hfst] at hmem2
      exact (hpf.mem_iff).mp hmem2
    rw [List.mem_map] at hmem
    obtain ⟨pr, hpr, hpre⟩ := hmem
    exact ⟨pr, hpr, hpre⟩

/-- Reading the combined slab at a valid multi-index yields the stacked
slabs' element there. -/
theorem concatSlab_elemAt [Inhabited α] (self : OwnedArray α) (axis : Nat)
    (slabs : List (View α)) (idx : List Nat)
    (hm : idx ∈ indicesOf (concatDim self axis slabs)) :
    (concatSlab self axis slabs).elemAt idx = slabSelect axis slabs idx := by
  obtain ⟨n, hn, hidx⟩ := List.getElem_of_mem hm
  have hoffs := offsets_standard (concatDim self axis slabs)
  have hn2 : n < ((indicesOf (concatDim self axis slabs)).map
      (fun idx => offsetOf (defaultStrides (concatDim self axis slabs)) idx)).length := by
    rw [List.length_map]
    exact hn
  have hval := List.getElem_of_eq hoffs hn2
  rw [List.getElem_map, List.getElem_map, List.getElem_range] at hval
  rw [hidx] at hval
  show ((indicesOf (concatDim self axis slabs)).map (slabSelect axis slabs)).getD
      ((0 : Int) + offsetOf (defaultStrides (concatDim self axis slabs)) idx).toNat default =
    slabSelect axis slabs idx
  rw [zero_add, hval, Int.toNat_natCast,
    List.getD_eq_getElem _ _ (by rw [List.length_map]; exact hn), List.getElem_map, hidx]

theorem slabPos_cons [Inhabited α] (axis R1 : Nat) (σ : List Int) (v : View α)
    (rest : List (View α)) (idx : List Nat) :
    slabPos (α := α) axis R1 σ (v :: rest) idx =
      if idx.getD axis 0 < v.dim.getD axis 0 then (offsetOf σ idx).toNat
      else v.dim.getD axis 0 * R1 +
        slabPos (α := α) axis R1 σ rest (idx.set axis (idx.getD axis 0 - v.dim.getD axis 0)) :=
  rfl

theorem slabSelect_cons [Inhabited α] (axis : Nat) (v : View α) (rest : List (View α))
    (idx : List Nat) :
    slabSelect axis (v :: rest) idx =
      if idx.getD axis 0 < v.dim.getD axis 0 then v.elemAt idx
      else slabSelect axis rest (idx.set axis (idx.getD axis 0 - v.dim.getD axis 0)) :=
  rfl

theorem extent_zero_of_nz_zero (axis : Nat) (L : List (View α)) (h : nzCount axis L = 0) :
    concatExtent axis L = 0 := by
  induction L with
  | nil => rfl
  | cons v rest ih =>
    by_cases hv : v.dim.getD axis 0 = 0
    · rw [concatExtent_cons, hv, Nat.zero_add]
      exact ih (by rw [nzCount_cons_zero axis v rest hv] at h; exact h)
    · rw [nzCount_cons_pos axis v rest hv] at h
      omega

/-- If one call's destinations cover `[0, n1 * R1)` and the combined call's
destinations are injective and cover `[0, N * R1)` with `n1 < N`, the growing
axis's stride must be exactly `R1`, the off-axis block size. -/
theorem sigma_axis_of_covers (Adim : List Nat) (axis : Nat) (σ : List Int)
    (hax : axis < Adim.length)
    (hpos : ∀ j, j < Adim.length → j ≠ axis → 1 ≤ Adim.getD j 0)
    (hnn : ∀ s ∈ σ, 0 ≤ s)
    (n1 N R1 : Nat) (hR1 : 1 ≤ R1) (hn1 : 1 ≤ n1) (hlt : n1 < N)
    (hcov1 : callCover axis Adim σ n1 R1)
    (hinj2 : ∀ idx1 ∈ indicesOf (Adim.set axis N), ∀ idx2 ∈ indicesOf (Adim.set axis N),
      offsetOf σ idx1 = offsetOf σ idx2 → idx1 = idx2)
    (hcov2 : callCover axis Adim σ N R1) :
    σ.getD axis 0 = ((R1 : Nat) : Int) := by
  have hs0 : 0 ≤ σ.getD axis 0 := getD_nonneg_of_mem_nonneg hnn axis
  have htrans : ∀ (a b : Nat), ∀ idx ∈ indicesOf (Adim.set axis a),
      idx.getD axis 0 < b → idx ∈ indicesOf (Adim.set axis b) := by
    intro a b idx hmem hc
    obtain ⟨hlen2, hb⟩ := mem_indicesOf.mp hmem
    refine mem_indicesOf.mpr ⟨?_, ?_⟩
    · rw [List.length_set] at hlen2 ⊢
      exact hlen2
    · intro i hi
      rw [List.length_set] at hi
      by_cases hia : i = axis
      · subst hia
        rw [getD_set_self Adim i b 0 (by omega)]
        exact hc
      · rw [getD_set_ne Adim axis i b 0 hia]
        have := hb i (by rw [List.length_set]; exact hi)
        rwa [getD_set_ne Adim axis i a 0 hia] at this
  have hcoord : ∀ (m : Nat), ∀ idx ∈ indicesOf (Adim.set axis m), idx.getD axis 0 < m := by
    intro m idx hmem
    obtain ⟨hlen2, hb⟩ := mem_indicesOf.mp hmem
    have := hb axis (by rw [List.length_set]; exact hax)
    rwa [getD_set_self Adim axis m 0 hax] at this
  have hdec : ∀ idx : List Nat, axis < idx.length →
      offsetOf σ idx = offsetOf σ (idx.set axis 0) +
        ((idx.getD axis 0 : Nat) : Int) * σ.getD axis 0 := by
    intro idx hl
    have h1 := offsetOf_set σ idx axis (idx.getD axis 0) hl
    rw [set_getD_self_eq] at h1
    exact h1
  have hstar_mem : (List.replicate Adim.length 0).set axis n1 ∈
      indicesOf (Adim.set axis N) := by
    refine mem_indicesOf.mpr ⟨?_, ?_⟩
    · rw [List.length_set, List.length_replicate, List.length_set]
    · intro i hi
      rw [List.length_set] at hi
      by_cases hia : i = axis
      · subst hia
        rw [getD_set_self _ i n1 0 (by rw [List.length_replicate]; omega),
          getD_set_self Adim i N 0 (by omega)]
        omega
      · rw [getD_set_ne _ axis i n1 0 hia, getD_set_ne Adim axis i N 0 hia,
          getD_replicate_lt 0 0 Adim.length i hi]
        exact hpos i hi hia
  have hstar_off : offsetOf σ ((List.replicate Adim.length 0).set axis n1) =
      ((n1 : Nat) : Int) * σ.getD axis 0 := by
    rw [offsetOf_set σ _ axis n1 (by rw [List.length_replicate]; omega),
      replicate_set_zero, offsetOf_replicate_zero, zero_add]
  have hA : ((R1 : Nat) : Int) ≤ σ.getD axis 0 := by
    by_contra hcon
    push_neg at hcon
    have hlt2 : ((n1 : Nat) : Int) * σ.getD axis 0 < ((n1 * R1 : Nat) : Int) := by
      push_cast
      exact mul_lt_mul_of_pos_left hcon (show (0 : Int) < (n1 : Int) by exact_mod_cast hn1)
    have hge0 : 0 ≤ ((n1 : Nat) : Int) * σ.getD axis 0 :=
      mul_nonneg (Int.natCast_nonneg n1) hs0
    obtain ⟨k, hkval⟩ : ∃ k : Nat, ((n1 : Nat) : Int) * σ.getD axis 0 = (k : Int) :=
      ⟨(((n1 : Nat) : Int) * σ.getD axis 0).toNat, (Int.toNat_of_nonneg hge0).symm⟩
    have hk_lt : k < n1 * R1 := by
      rw [hkval] at hlt2
      exact_mod_cast hlt2
    obtain ⟨idx1, hidx1_mem, hidx1_off⟩ := hcov1.2 k hk_lt
    have hidx1_mem2 : idx1 ∈ indicesOf (Adim.set axis N) :=
      htrans n1 N idx1 hidx1_mem (by have := hcoord n1 idx1 hidx1_mem; omega)
    have hoffeq : offsetOf σ idx1 =
        offsetOf σ ((List.replicate Adim.length 0).set axis n1) := by
      rw [hidx1_off, ← hkval, hstar_off]
    have heq := hinj2 idx1 hidx1_mem2 _ hstar_mem hoffeq
    have hc1 : idx1.getD axis 0 < n1 := hcoord n1 idx1 hidx1_mem
    have hc2 : ((List.replicate Adim.length 0).set axis n1).getD axis 0 = n1 :=
      getD_set_self _ axis n1 0 (by rw [List.length_replicate]; omega)
    rw [heq, hc2] at hc1
    omega
  have hB : σ.getD axis 0 ≤ ((R1 : Nat) : Int) := by
    have hkb : n1 * R1 < N * R1 := Nat.mul_lt_mul_of_lt_of_le hlt (le_refl R1) (by omega)
    obtain ⟨idx2, hidx2_mem, hidx2_off⟩ := hcov2.2 (n1 * R1) hkb
    have hl2 : axis < idx2.length := by
      obtain ⟨hlen2, -⟩ := mem_indicesOf.mp hidx2_mem
      rw [List.length_set] at hlen2
      omega
    have hd := hdec idx2 hl2
    by_cases hcase : idx2.getD axis 0 < n1
    · have hmem1 : idx2 ∈ indicesOf (Adim.set axis n1) :=
        htrans N n1 idx2 hidx2_mem hcase
      have hcontra := hcov1.1 idx2 hmem1
      rw [hidx2_off] at hcontra
      exact absurd hcontra (lt_irrefl _)
    · push_neg at hcase
      have hbase : 0 ≤ offsetOf σ (idx2.set axis 0) := offsetOf_nonneg σ _ hnn
      have hcs : ((n1 : Nat) : Int) * σ.getD axis 0 ≤
          ((idx2.getD axis 0 : Nat) : Int) * σ.getD axis 0 :=
        mul_le_mul_of_nonneg_right (by exact_mod_cast hcase) hs0
      have hfin : ((n1 : Nat) : Int) * σ.getD axis 0 ≤ ((n1 * R1 : Nat) : Int) := by
        rw [← hidx2_off, hd]
        linarith [hcs, hbase]
      have hcan : ((n1 : Nat) : Int) * σ.getD axis 0 ≤
          ((n1 : Nat) : Int) * ((R1 : Nat) : Int) := by
        push_cast at hfin ⊢
        linarith [hfin]
      exact le_of_mul_le_mul_left hcan (by exact_mod_cast hn1)
  exact le_antisymm hB hA

/-- When the growing axis's stride equals the off-axis block size R1 (or at
most one slab is nonempty, so only one block is ever entered), the sequential
block-plus-local-offset slot equals the offset of the full index under the
committed strides. -/
theorem slabPos_offset [Inhabited α] (axis R1 : Nat) (σ : List Int)
    (hnn : ∀ s ∈ σ, 0 ≤ s) :
    ∀ (L : List (View α)) (idx : List Nat), axis < idx.length →
      idx.getD axis 0 < concatExtent axis L →
      (σ.getD axis 0 = ((R1 : Nat) : Int) ∨ nzCount axis L ≤ 1) →
      slabPos (α := α) axis R1 σ L idx = (offsetOf σ idx).toNat := by
  intro L
  induction L with
  | nil =>
    intro idx hal hc hsx
    simp [concatExtent] at hc
  | cons v rest ih =>
    intro idx hal hc hsx
    rw [slabPos_cons]
    by_cases hcl : idx.getD axis 0 < v.dim.getD axis 0
    · rw [if_pos hcl]
    · rw [if_neg hcl]
      push_neg at hcl
      by_cases hn0 : v.dim.getD axis 0 = 0
      · rw [hn0, Nat.sub_zero, set_getD_self_eq, Nat.zero_mul, Nat.zero_add]
        refine ih idx hal ?_ ?_
        · rw [concatExtent_cons, hn0, Nat.zero_add] at hc
          exact hc
        · rcases hsx with h | h
          · exact Or.inl h
          · exact Or.inr (by rw [nzCount_cons_zero axis v rest hn0] at h; exact h)
      · have hsx2 : σ.getD axis 0 = ((R1 : Nat) : Int) := by
          rcases hsx with h | h
          · exact h
          · exfalso
            rw [nzCount_cons_pos axis v rest hn0] at h
            have hr0 : nzCount axis rest = 0 := by omega
            rw [concatExtent_cons] at hc
            have hz := extent_zero_of_nz_zero axis rest hr0
            omega
        have hlen2 : axis < (idx.set axis (idx.getD axis 0 - v.dim.getD axis 0)).length := by
          rw [List.length_set]
          exact hal
        have hc2 : (idx.set axis (idx.getD axis 0 - v.dim.getD axis 0)).getD axis 0 <
            concatExtent axis rest := by
          rw [getD_set_self idx axis _ 0 hal]
          rw [concatExtent_cons] at hc
          omega
        rw [ih _ hlen2 hc2 (Or.inl hsx2)]
        have hd1 := offsetOf_set σ idx axis (idx.getD axis 0) hal
        rw [set_getD_self_eq] at hd1
        have hd2 := offsetOf_set σ idx axis (idx.getD axis 0 - v.dim.getD axis 0) hal
        have hbase : 0 ≤ offsetOf σ (idx.set axis 0) := offsetOf_nonneg σ _ hnn
        rw [hsx2] at hd1 hd2
        rw [hd1, hd2]
        have hsplit : ((idx.getD axis 0 : Nat) : Int) * ((R1 : Nat) : Int) =
            ((v.dim.getD axis 0 * R1 : Nat) : Int) +
            ((idx.getD axis 0 - v.dim.getD axis 0 : Nat) : Int) * ((R1 : Nat) : Int) := by
          rw [Nat.cast_sub hcl, Nat.cast_mul]
          ring
        rw [hsplit]
        have h1 : 0 ≤ ((idx.getD axis 0 - v.dim.getD axis 0 : Nat) : Int) *
            ((R1 : Nat) : Int) := mul_nonneg (Int.natCast_nonneg _) (Int.natCast_nonneg _)
        generalize hX : ((idx.getD axis 0 - v.dim.getD axis 0 : Nat) : Int) *
          ((R1 : Nat) : Int) = X at h1 ⊢
        generalize hY : v.dim.getD axis 0 * R1 = Y at *
        omega

/-- With a zero off-axis block every slab is empty, so every successful call
is the shape-only no-op: the growing-axis entry accumulates and nothing else
changes. -/
theorem appendSeq_all_noop [Inhabited α] (A : OwnedArray α) (axis : Nat)
    (hax : axis < A.dim.length)
    (hR : (A.dim.eraseIdx axis).prod = 0) :
    ∀ (L : List (View α)) (st F : OwnedArray α) (P : Nat),
      (∀ v ∈ L, v.dim.length = A.dim.length) →
      st = { A with dim := A.dim.set axis (A.dim.getD axis 0 + P) } →
      appendSeq cloneOk axis st L = .ok F →
      F = { A with
        dim := A.dim.set axis (A.dim.getD axis 0 + (P + concatExtent axis L)) } := by
  intro L
  induction L with
  | nil =>
    intro st F P hrk hst hseq
    have h2 : AppendOutcome.ok st = AppendOutcome.ok F := hseq
    injection h2 with h3
    rw [← h3, hst, show concatExtent (α := α) axis [] = 0 from rfl, Nat.add_zero]
  | cons v rest ih =>
    intro st F P hrk hst hseq
    have hstdim : st.dim = A.dim.set axis (A.dim.getD axis 0 + P) := by rw [hst]
    have hseq2 : (match tryAppendArray cloneOk st axis v with
      | .ok st2 => appendSeq cloneOk axis st2 rest
      | .err e st2 => .err e st2
      | .panicked st2 => .panicked st2
      | .assertFailed => .assertFailed) = .ok F := hseq
    cases hcall : tryAppendArray cloneOk st axis v with
    | ok st2 =>
      rw [hcall] at hseq2
      dsimp only [] at hseq2
      rcases tryAppendArray_ok_inv cloneOk st axis v st2 hcall with
        ⟨rd, nl, hval, hout⟩ | ⟨rd, nl, hval, -, -, -, hout⟩
      · obtain ⟨-, herase, hrd, -⟩ := appendValidation_noop_inv st axis v rd nl hval
        have hrd2 : rd = A.dim.set axis (A.dim.getD axis 0 +
            (P + v.dim.getD axis 0)) := by
          rw [hrd]
          unfold resDimOf
          rw [hstdim, getD_set_self A.dim axis _ 0 hax, List.set_set]
          have harith : A.dim.getD axis 0 + P + v.dim.getD axis 0 =
              A.dim.getD axis 0 + (P + v.dim.getD axis 0) := by omega
          rw [harith]
        have hst2 : st2 = { A with dim := A.dim.set axis (A.dim.getD axis 0 +
            (P + v.dim.getD axis 0)) } := by
          rw [hout, hst, hrd2]
        have hfin := ih st2 F (P + v.dim.getD axis 0)
          (fun w hw => hrk w (List.mem_cons_of_mem _ hw)) hst2 hseq2
        rw [hfin]
        have harith : A.dim.getD axis 0 + (P + v.dim.getD axis 0 + concatExtent axis rest) =
            A.dim.getD axis 0 + (P + concatExtent axis (v :: rest)) := by
          rw [concatExtent_cons]
          omega
        rw [harith]
      · obtain ⟨-, herase, -, hprodne, -⟩ := appendValidation_proceed_inv st axis v rd nl hval
        exfalso
        have haxv : axis < v.dim.length := by
          rw [hrk v (List.mem_cons_self _ _)]
          exact hax
        have hz : (v.dim.eraseIdx axis).prod = 0 := by
          rw [← herase, hstdim, eraseIdx_set_self]
          exact hR
        have := prod_eraseIdx v.dim axis haxv
        rw [hz, Nat.mul_zero] at this
        exact hprodne this
    | err e st2 =>
      rw [hcall] at hseq2
      dsimp only [] at hseq2
      exact AppendOutcome.noConfusion hseq2
    | panicked st2 =>
      rw [hcall] at hseq2
      dsimp only [] at hseq2
      exact AppendOutcome.noConfusion hseq2
    | assertFailed =>
      rw [hcall] at hseq2
      dsimp only [] at hseq2
      exact AppendOutcome.noConfusion hseq2

theorem ownedArray_ext_fields {α : Type} (x : OwnedArray α) (d : List α) (o : Nat)
    (dm : List Nat) (s : List Int) (h1 : x.data = d) (h2 : x.off = o) (h3 : x.dim = dm)
    (h4 : x.strides = s) : x = { data := d, off := o, dim := dm, strides := s } := by
  cases x
  dsimp only [] at h1 h2 h3 h4
  rw [h1, h2, h3, h4]

theorem indicesOf_set_transfer (Adim : List Nat) (axis a b : Nat) (idx : List Nat)
    (hmem : idx ∈ indicesOf (Adim.set axis a)) (hc : idx.getD axis 0 < b) :
    idx ∈ indicesOf (Adim.set axis b) := by
  obtain ⟨hlen2, hb⟩ := mem_indicesOf.mp hmem
  refine mem_indicesOf.mpr ⟨?_, ?_⟩
  · rw [List.length_set] at hlen2 ⊢
    exact hlen2
  · intro i hi
    rw [List.length_set] at hi
    by_cases hia : i = axis
    · subst hia
      rw [getD_set_self Adim i b 0 (by omega)]
      exact hc
    · rw [getD_set_ne Adim axis i b 0 hia]
      have := hb i (by rw [List.length_set]; exact hi)
      rwa [getD_set_ne Adim axis i a 0 hia] at this

theorem indicesOf_set_coord (Adim : List Nat) (axis : Nat) (hax : axis < Adim.length)
    (m : Nat) (idx : List Nat) (hmem : idx ∈ indicesOf (Adim.set axis m)) :
    idx.getD axis 0 < m := by
  obtain ⟨hlen2, hb⟩ := mem_indicesOf.mp hmem
  have := hb axis (by rw [List.length_set]; exact hax)
  rwa [getD_set_self Adim axis m 0 hax] at this

theorem indicesOf_set_shift (Adim : List Nat) (axis a b c2 : Nat) (idx : List Nat)
    (hax : axis < Adim.length)
    (hmem : idx ∈ indicesOf (Adim.set axis a)) (hc : c2 < b) :
    idx.set axis c2 ∈ indicesOf (Adim.set axis b) := by
  obtain ⟨hlen2, hb⟩ := mem_indicesOf.mp hmem
  rw [List.length_set] at hlen2
  refine mem_indicesOf.mpr ⟨?_, ?_⟩
  · rw [List.length_set, List.length_set]
    exact hlen2
  · intro i hi
    rw [List.length_set] at hi
    by_cases hia : i = axis
    · subst hia
      rw [getD_set_self idx i c2 0 (by omega), getD_set_self Adim i b 0 (by omega)]
      exact hc
    · rw [getD_set_ne idx axis i c2 0 hia, getD_set_ne Adim axis i b 0 hia]
      have := hb i (by rw [List.length_set]; exact hi)
      rwa [getD_set_ne Adim axis i a 0 hia] at this

/-- The strides the first proceeding call commits do not depend on how much
extent that call adds. -/
theorem commit_first [Inhabited α] (A : OwnedArray α) (axis : Nat)
    (hax : axis < A.dim.length) (n N : Nat) :
    stridesForAppend A axis (A.dim.set axis (A.dim.getD axis 0 + n)) = sigAll A axis N := by
  unfold sigAll
  exact stridesForAppend_rd_indep A axis _ _ hax

/-- After the first proceeding call the committed strides are stable: later
calls keep them, and a later promote step (growing axis still of extent 1)
recomputes the very same value. -/
theorem commit_later [Inhabited α] (A : OwnedArray α) (axis : Nat) (st : OwnedArray α)
    (P N : Nat) (rd : List Nat)
    (hax : axis < A.dim.length)
    (hR : (A.dim.eraseIdx axis).prod ≠ 0)
    (hP : 1 ≤ P) (hPN : P ≤ N)
    (hdim : st.dim = A.dim.set axis (A.dim.getD axis 0 + P))
    (hstr : st.strides = sigAll A axis N) :
    stridesForAppend st axis rd = sigAll A axis N := by
  have hprod : st.dim.prod ≠ 0 := by
    rw [hdim, prod_set_axis A.dim axis _ hax]
    exact Nat.mul_ne_zero (by omega) hR
  unfold stridesForAppend
  rw [if_neg hprod]
  by_cases hone : st.dim.getD axis 0 = 1
  · rw [if_pos hone]
    have hext : st.dim.getD axis 0 = A.dim.getD axis 0 + P := by
      rw [hdim, getD_set_self A.dim axis _ 0 hax]
    have hd0 : A.dim.getD axis 0 = 0 := by omega
    have hP1 : P = 1 := by omega
    have hAprod : A.dim.prod = 0 := by
      rw [prod_eraseIdx A.dim axis hax, hd0, Nat.zero_mul]
    have hσ : sigAll A axis N =
        (if axis = A.dim.length - 1 then
          fortranStrides (A.dim.set axis (A.dim.getD axis 0 + N))
         else listSwap (defaultStrides
           (listSwap (A.dim.set axis (A.dim.getD axis 0 + N)) 0 axis)) 0 axis) := by
      unfold sigAll stridesForAppend
      rw [if_pos hAprod]
    have hdim1 : st.dim = A.dim.set axis 1 := by
      rw [hdim, hd0, hP1]
    have hpos := one_le_offaxis A.dim axis hax hR
    rw [hstr, hdim1, hσ]
    by_cases hlast : axis = A.dim.length - 1
    · rw [if_pos hlast,
        show fortranStrides (A.dim.set axis (A.dim.getD axis 0 + N)) =
          fortranAux 1 (A.dim.set axis (A.dim.getD axis 0 + N)) from rfl,
        promoteFold_fortran_last A.dim axis (A.dim.getD axis 0 + N) hax hlast hpos,
        set_getD_self_eq]
    · rw [if_neg hlast]
      rcases Nat.eq_zero_or_pos axis with h0 | hax1
      · subst h0
        rw [listSwap_zero_zero, listSwap_zero_zero,
          promoteFold_default_head A.dim (A.dim.getD 0 0 + N) (by omega) hpos,
          set_getD_self_eq]
      · rw [promoteFold_swap_axis A.dim axis (A.dim.getD axis 0 + N) hax hax1 (by omega)
          hpos, set_getD_self_eq]
  · rw [if_neg hone]
    exact hstr

/-- Trajectory of the sequential route: before any proceeding call the state
is the original array; afterwards the buffer grows block by block (block `j`
holding slab `j`'s elements at their committed-stride offsets), the shape's
growing-axis entry accumulates, the head offset is zero and the strides are
the stable committed strides.  In addition, the first proceeding call's
destination cover is reported for the stride-value comparison. -/
theorem appendSeq_master [Inhabited α] (A : OwnedArray α) (axis N : Nat)
    (hax : axis < A.dim.length)
    (hs0 : A.strides.length = A.dim.length)
    (hR : (A.dim.eraseIdx axis).prod ≠ 0)
    (hsnn : ∀ s ∈ A.strides, 0 ≤ s) :
    ∀ (L : List (View α)) (st F : OwnedArray α) (P : Nat),
      (∀ v ∈ L, v.dim.length = A.dim.length ∧ v.strides.length = A.dim.length) →
      P + concatExtent axis L = N →
      ((P = 0 ∧ st = A) ∨
        (1 ≤ P ∧ A.off = 0 ∧ st.off = 0 ∧
          st.dim = A.dim.set axis (A.dim.getD axis 0 + P) ∧
          st.strides = sigAll A axis N)) →
      appendSeq cloneOk axis st L = .ok F →
      ((concatExtent axis L = 0 ∧ F = st) ∨
        (1 ≤ concatExtent axis L ∧ A.off = 0 ∧ ∃ C : List α,
          F.data = st.data ++ C ∧ F.off = 0 ∧
          F.dim = A.dim.set axis (A.dim.getD axis 0 + N) ∧
          F.strides = sigAll A axis N ∧
          C.length = concatExtent axis L * (A.dim.eraseIdx axis).prod ∧
          (∀ idx ∈ indicesOf (A.dim.set axis (concatExtent axis L)),
            C.getD (slabPos (α := α) axis (A.dim.eraseIdx axis).prod (sigAll A axis N) L idx)
                default = slabSelect axis L idx ∧
            slabPos (α := α) axis (A.dim.eraseIdx axis).prod (sigAll A axis N) L idx <
              concatExtent axis L * (A.dim.eraseIdx axis).prod))) ∧
      (P = 0 → 1 ≤ concatExtent axis L →
        ∃ n1, 1 ≤ n1 ∧ (2 ≤ nzCount axis L → n1 < concatExtent axis L) ∧
          callCover axis A.dim (sigAll A axis N) n1 (A.dim.eraseIdx axis).prod) := by
  intro L
  induction L with
  | nil =>
    intro st F P hrk hacc hinv hseq
    have h2 : AppendOutcome.ok st = AppendOutcome.ok F := hseq
    injection h2 with h3
    constructor
    · exact Or.inl ⟨by simp [concatExtent], h3.symm⟩
    · intro hP0 habs
      simp [concatExtent] at habs
  | cons v rest ih =>
    intro st F P hrk hacc hinv hseq
    obtain ⟨hvd, hvs⟩ := hrk v (List.mem_cons_self _ _)
    have hrkr : ∀ w ∈ rest, w.dim.length = A.dim.length ∧ w.strides.length = A.dim.length :=
      fun w hw => hrk w (List.mem_cons_of_mem _ hw)
    have hseq2 : (match tryAppendArray cloneOk st axis v with
      | .ok st2 => appendSeq cloneOk axis st2 rest
      | .err e st2 => .err e st2
      | .panicked st2 => .panicked st2
      | .assertFailed => .assertFailed) = .ok F := hseq
    cases hcall : tryAppendArray cloneOk st axis v with
    | err e st2 =>
      rw [hcall] at hseq2
      dsimp only [] at hseq2
      exact AppendOutcome.noConfusion hseq2
    | panicked st2 =>
      rw [hcall] at hseq2
      dsimp only [] at hseq2
      exact AppendOutcome.noConfusion hseq2
    | assertFailed =>
      rw [hcall] at hseq2
      dsimp only [] at hseq2
      exact AppendOutcome.noConfusion hseq2
    | ok st2 =>
      rw [hcall] at hseq2
      dsimp only [] at hseq2
      have hstdimlen : st.dim.length = A.dim.length := by
        rcases hinv with ⟨-, hstA⟩ | ⟨-, -, -, hdim, -⟩
        · rw [hstA]
        · rw [hdim, List.length_set]
      have haxst : axis < st.dim.length := by
        rw [hstdimlen]
        exact hax
      have hstslen : st.strides.length = st.dim.length := by
        rcases hinv with ⟨-, hstA⟩ | ⟨-, -, -, hdim, hstr⟩
        · rw [hstA]; exact hs0
        · rw [hstr, hdim, List.length_set, sigAll_length A axis N hs0]
      have hsetA : ∀ m : Nat, st.dim.set axis m = A.dim.set axis m := by
        intro m
        rcases hinv with ⟨-, hstA⟩ | ⟨-, -, -, hdim, -⟩
        · rw [hstA]
        · rw [hdim, List.set_set]
      have hgetDA : st.dim.getD axis 0 = A.dim.getD axis 0 + P := by
        rcases hinv with ⟨hP0, hstA⟩ | ⟨-, -, -, hdim, -⟩
        · rw [hstA, hP0, Nat.add_zero]
        · rw [hdim, getD_set_self A.dim axis _ 0 hax]
      have herA : st.dim.eraseIdx axis = A.dim.eraseIdx axis := by
        rcases hinv with ⟨-, hstA⟩ | ⟨-, -, -, hdim, -⟩
        · rw [hstA]
        · rw [hdim, eraseIdx_set_self]
      rcases tryAppendArray_ok_inv cloneOk st axis v st2 hcall with
        ⟨rd, nl, hval, hout⟩ | ⟨rd, nl, hval, hoff0, hstd, hw2, hout⟩
      · -- no-op step
        obtain ⟨-, herase, hrd, hvprod0⟩ := appendValidation_noop_inv st axis v rd nl hval
        have haxv : axis < v.dim.length := by rw [hvd]; exact hax
        have hRv : (v.dim.eraseIdx axis).prod = (A.dim.eraseIdx axis).prod := by
          rw [← herase, herA]
        have hn0 : v.dim.getD axis 0 = 0 := by
          have hfac := prod_eraseIdx v.dim axis haxv
          rw [hvprod0, hRv] at hfac
          rcases Nat.mul_eq_zero.mp hfac.symm with h | h
          · exact h
          · exact absurd h hR
        have hrdeq : rd = st.dim := by
          rw [hrd]
          unfold resDimOf
          rw [hn0, Nat.add_zero, set_getD_self_eq]
        have hst2 : st2 = st := by rw [hout, hrdeq]
        rw [hst2] at hseq2
        have hSig : concatExtent axis (v :: rest) = concatExtent axis rest := by
          rw [concatExtent_cons, hn0, Nat.zero_add]
        have hacc2 : P + concatExtent axis rest = N := by
          rw [← hSig]
          exact hacc
        obtain ⟨ihMain, ihC4⟩ := ih st F P hrkr hacc2 hinv hseq2
        constructor
        · rcases ihMain with ⟨hz, hFst⟩ | ⟨h1r, hA0, C, hCd, hCo, hCdim, hCstr, hClen, hCchar⟩
          · exact Or.inl ⟨by rw [hSig]; exact hz, hFst⟩
          · refine Or.inr ⟨by rw [hSig]; exact h1r, hA0, C, hCd, hCo, hCdim, hCstr, ?_, ?_⟩
            · rw [hSig]
              exact hClen
            · intro idx hidx
              rw [hSig] at hidx
              obtain ⟨hc1, hc2⟩ := hCchar idx hidx
              rw [hSig, slabPos_zero_head axis _ _ v rest idx hn0,
                slabSelect_zero_head axis v rest idx hn0]
              exact ⟨hc1, hc2⟩
        · intro hP0 hge
          rw [hSig] at hge
          obtain ⟨n1, hn1a, hn1b, hn1c⟩ := ihC4 hP0 hge
          refine ⟨n1, hn1a, ?_, hn1c⟩
          intro hnz
          rw [nzCount_cons_zero axis v rest hn0] at hnz
          rw [hSig]
          exact hn1b hnz
      · -- proceeding step
        obtain ⟨-, herase, hrd, hvprodne, -⟩ :=
          appendValidation_proceed_inv st axis v rd nl hval
        have haxv : axis < v.dim.length := by rw [hvd]; exact hax
        have hRv : (v.dim.eraseIdx axis).prod = (A.dim.eraseIdx axis).prod := by
          rw [← herase, herA]
        have hvfac : v.dim.prod = v.dim.getD axis 0 * (A.dim.eraseIdx axis).prod := by
          rw [prod_eraseIdx v.dim axis haxv, hRv]
        have hn1 : 1 ≤ v.dim.getD axis 0 := by
          rcases Nat.eq_zero_or_pos (v.dim.getD axis 0) with h0 | h1
          · rw [h0, Nat.zero_mul] at hvfac
            exact absurd hvfac hvprodne
          · exact h1
        have hvA : v.dim = A.dim.set axis (v.dim.getD axis 0) := by
          have h2 := eq_set_of_eraseIdx_eq v.dim st.dim axis 0
            (by rw [hvd, hstdimlen]) herase.symm haxst
          rw [hsetA] at h2
          exact h2
        have hrdA : rd = A.dim.set axis (A.dim.getD axis 0 + (P + v.dim.getD axis 0)) := by
          rw [hrd]
          unfold resDimOf
          rw [hgetDA, hsetA]
          have harith : A.dim.getD axis 0 + P + v.dim.getD axis 0 =
              A.dim.getD axis 0 + (P + v.dim.getD axis 0) := by omega
          rw [harith]
        have hPN : P + v.dim.getD axis 0 ≤ N := by
          rw [concatExtent_cons] at hacc
          omega
        have hcommit : stridesForAppend st axis rd = sigAll A axis N := by
          rcases hinv with ⟨hP0, hstA⟩ | ⟨hP1, -, -, hdim, hstr⟩
          · rw [hstA, hrdA, hP0, Nat.zero_add]
            exact commit_first A axis hax (v.dim.getD axis 0) N
          · exact commit_later A axis st P N rd hax hR hP1 (by omega) hdim hstr
        have hsl2 : (stridesForAppend st axis rd).length = v.dim.length := by
          rw [hcommit, sigAll_length A axis N hs0, hvd]
        have hasl2 : v.strides.length = v.dim.length := by rw [hvs, hvd]
        have hnn2 : ∀ s ∈ stridesForAppend st axis rd, 0 ≤ s := by
          rw [hcommit]
          exact sigAll_nonneg A axis N hsnn
        obtain ⟨-, hwlen, hchar⟩ := appendWrites_char st axis v rd hsl2 hasl2 hnn2 hstd
        obtain ⟨hnod, hbnd, hsurj⟩ := appendWrites_dst_facts st axis v rd hsl2 hasl2 hnn2 hstd
        have hAoff : A.off = 0 := by
          rcases hinv with ⟨-, hstA⟩ | ⟨-, hA0, -, -, -⟩
          · rw [hstA] at hoff0
            exact hoff0
          · exact hA0
        have hblen : (fillTail (appendWrites cloneOk st axis v rd).1.length
            (appendWrites cloneOk st axis v rd).1).length =
            v.dim.getD axis 0 * (A.dim.eraseIdx axis).prod := by
          rw [length_fillTail, hwlen, hvfac]
        have hst2off : st2.off = 0 := by rw [hout]
        have hst2dim : st2.dim = A.dim.set axis (A.dim.getD axis 0 +
            (P + v.dim.getD axis 0)) := by
          rw [hout]
          exact hrdA
        have hst2str : st2.strides = sigAll A axis N := by
          rw [hout]
          exact hcommit
        have hst2data : st2.data = st.data ++
            fillTail (appendWrites cloneOk st axis v rd).1.length
              (appendWrites cloneOk st axis v rd).1 := by
          rw [hout]
        have hacc2 : (P + v.dim.getD axis 0) + concatExtent axis rest = N := by
          rw [concatExtent_cons] at hacc
          omega
        obtain ⟨ihMain, ihC4⟩ := ih st2 F (P + v.dim.getD axis 0) hrkr hacc2
          (Or.inr ⟨by omega, hAoff, hst2off, hst2dim, hst2str⟩) hseq2
        have hslot : ∀ idx ∈ indicesOf v.dim,
            (0 ≤ offsetOf (sigAll A axis N) idx ∧
             (offsetOf (sigAll A axis N) idx).toNat <
               v.dim.getD axis 0 * (A.dim.eraseIdx axis).prod) ∧
            (fillTail (appendWrites cloneOk st axis v rd).1.length
              (appendWrites cloneOk st axis v rd).1).getD
                (offsetOf (sigAll A axis N) idx).toNat default = v.elemAt idx := by
          intro idx hidx
          have hpair : (offsetOf (sigAll A axis N) idx, v.elemAt idx) =
              ((0 : Int) + offsetOf (stridesForAppend st axis rd) idx, v.elemAt idx) := by
            rw [zero_add, hcommit]
          have hmem : (offsetOf (sigAll A axis N) idx, v.elemAt idx) ∈
              writePairs { dim := v.dim, strides := stridesForAppend st axis rd, off := 0 }
                v := by
            rw [hpair]
            exact List.mem_map.mpr ⟨idx, hidx, rfl⟩
          obtain ⟨hb1, hb2⟩ := hbnd _ hmem
          have hr1 : 0 ≤ offsetOf (sigAll A axis N) idx := hb1
          have hr2 : (offsetOf (sigAll A axis N) idx).toNat <
              v.dim.getD axis 0 * (A.dim.eraseIdx axis).prod := by
            have hb3 : offsetOf (sigAll A axis N) idx <
                ((v.dim.getD axis 0 * (A.dim.eraseIdx axis).prod : Nat) : Int) := by
              have hb4 : offsetOf (sigAll A axis N) idx < ((v.dim.prod : Nat) : Int) := hb2
              rw [hvfac] at hb4
              exact hb4
            generalize hq : v.dim.getD axis 0 * (A.dim.eraseIdx axis).prod = q at hb3 ⊢
            omega
          refine ⟨⟨hr1, hr2⟩, ?_⟩
          have hcast : (((offsetOf (sigAll A axis N) idx).toNat : Nat) : Int) =
              offsetOf (sigAll A axis N) idx := Int.toNat_of_nonneg hr1
          have hmem2 : ((((offsetOf (sigAll A axis N) idx).toNat : Nat) : Int),
              v.elemAt idx) ∈
              writePairs { dim := v.dim, strides := stridesForAppend st axis rd, off := 0 }
                v := by
            rw [hcast]
            exact hmem
          have hplt : (offsetOf (sigAll A axis N) idx).toNat < v.dim.prod := by
            rw [hvfac]
            exact hr2
          exact hchar _ _ hmem2 hplt
        constructor
        · rcases ihMain with ⟨hz, hFst2⟩ |
            ⟨h1r, -, C2, hCd, hCo, hCdim, hCstr, hClen, hCchar⟩
          · refine Or.inr ⟨by rw [concatExtent_cons]; omega, hAoff,
              fillTail (appendWrites cloneOk st axis v rd).1.length
                (appendWrites cloneOk st axis v rd).1, ?_, ?_, ?_, ?_, ?_, ?_⟩
            · rw [hFst2, hst2data]
            · rw [hFst2, hst2off]
            · rw [hFst2, hst2dim]
              have harith : P + v.dim.getD axis 0 = N := by omega
              rw [harith]
            · rw [hFst2, hst2str]
            · rw [hblen, concatExtent_cons, hz, Nat.add_zero]
            · intro idx hidx
              have hSig : concatExtent axis (v :: rest) = v.dim.getD axis 0 := by
                rw [concatExtent_cons, hz, Nat.add_zero]
              rw [hSig] at hidx
              have hidxv : idx ∈ indicesOf v.dim := by
                rw [hvA]
                exact hidx
              have hcoordlt : idx.getD axis 0 < v.dim.getD axis 0 :=
                indicesOf_set_coord A.dim axis hax _ idx hidx
              obtain ⟨⟨hr1, hr2⟩, hvalue⟩ := hslot idx hidxv
              rw [slabPos_cons, if_pos hcoordlt, slabSelect_cons, if_pos hcoordlt, hSig]
              exact ⟨hvalue, hr2⟩
          · refine Or.inr ⟨by rw [concatExtent_cons]; omega, hAoff,
              (fillTail (appendWrites cloneOk st axis v rd).1.length
                (appendWrites cloneOk st axis v rd).1) ++ C2, ?_, ?_, ?_, ?_, ?_, ?_⟩
            · rw [hCd, hst2data, List.append_assoc]
            · exact hCo
            · exact hCdim
            · exact hCstr
            · rw [List.length_append, hblen, hClen, concatExtent_cons, Nat.add_mul]
            · intro idx hidx
              by_cases hcl : idx.getD axis 0 < v.dim.getD axis 0
              · have hidxv : idx ∈ indicesOf v.dim := by
                  rw [hvA]
                  exact indicesOf_set_transfer A.dim axis _ _ idx hidx hcl
                obtain ⟨⟨hr1, hr2⟩, hvalue⟩ := hslot idx hidxv
                rw [slabPos_cons, if_pos hcl, slabSelect_cons, if_pos hcl]
                constructor
                · rw [getD_append_left_of_lt _ _ _ (by rw [hblen]; exact hr2)]
                  exact hvalue
                · calc (offsetOf (sigAll A axis N) idx).toNat
                      < v.dim.getD axis 0 * (A.dim.eraseIdx axis).prod := hr2
                    _ ≤ concatExtent axis (v :: rest) * (A.dim.eraseIdx axis).prod := by
                      refine mul_le_mul_right' ?_ _
                      rw [concatExtent_cons]
                      omega
              · push_neg at hcl
                have hcoordlt : idx.getD axis 0 < concatExtent axis (v :: rest) :=
                  indicesOf_set_coord A.dim axis hax _ idx hidx
                have hcoordlt2 : idx.getD axis 0 - v.dim.getD axis 0 <
                    concatExtent axis rest := by
                  rw [concatExtent_cons] at hcoordlt
                  omega
                have hidx2 : idx.set axis (idx.getD axis 0 - v.dim.getD axis 0) ∈
                    indicesOf (A.dim.set axis (concatExtent axis rest)) :=
                  indicesOf_set_shift A.dim axis _ _ _ idx hax hidx hcoordlt2
                obtain ⟨hc1, hc2⟩ := hCchar _ hidx2
                rw [slabPos_cons, if_neg (by omega), slabSelect_cons, if_neg (by omega)]
                constructor
                · rw [← hblen, getD_append_add _ _ _ (by rw [hClen]; exact hc2)]
                  exact hc1
                · rw [concatExtent_cons, Nat.add_mul]
                  have hq1 : v.dim.getD axis 0 * (A.dim.eraseIdx axis).prod =
                      (fillTail (appendWrites cloneOk st axis v rd).1.length
                        (appendWrites cloneOk st axis v rd).1).length := hblen.symm
                  generalize v.dim.getD axis 0 * (A.dim.eraseIdx axis).prod = q1 at hq1 hc2 ⊢
                  generalize concatExtent axis rest * (A.dim.eraseIdx axis).prod = q2
                    at hc2 ⊢
                  omega
        · intro hP0 hge1
          refine ⟨v.dim.getD axis 0, hn1, ?_, ?_, ?_⟩
          · intro hnz
            rw [nzCount_cons_pos axis v rest (by omega)] at hnz
            have hrest1 : 1 ≤ concatExtent axis rest :=
              nzCount_pos_extent axis rest (by omega)
            rw [concatExtent_cons]
            omega
          · intro idx hidx
            have hidxv : idx ∈ indicesOf v.dim := by
              rw [hvA]
              exact hidx
            obtain ⟨⟨hr1, hr2⟩, -⟩ := hslot idx hidxv
            have hcast : (((offsetOf (sigAll A axis N) idx).toNat : Nat) : Int) =
                offsetOf (sigAll A axis N) idx := Int.toNat_of_nonneg hr1
            rw [← hcast]
            exact_mod_cast hr2
          · intro k hk
            have hk2 : k < v.dim.prod := by
              rw [hvfac]
              exact hk
            obtain ⟨pr, hpr, hpr1⟩ := hsurj k hk2
            obtain ⟨idx, hidxm, hpreq⟩ := mem_writePairs_iff.mp hpr
            have hidxv : idx ∈ indicesOf v.dim := hidxm
            refine ⟨idx, by rw [← hvA]; exact hidxv, ?_⟩
            have hO : offsetOf (sigAll A axis N) idx = pr.1 := by
              rw [hpreq]
              show offsetOf (sigAll A axis N) idx =
                (0 : Int) + offsetOf (stridesForAppend st axis rd) idx
              rw [zero_add, hcommit]
            rw [hO, hpr1]

/-- Duplicate-free destinations make the traversal's destination map
injective on the indices. -/
theorem writePairs_fst_nodup_inj [Inhabited α] (t : TailView) (arr : View α)
    (hnd : ((writePairs t arr).map Prod.fst).Nodup) :
    ∀ idx1 ∈ indicesOf t.dim, ∀ idx2 ∈ indicesOf t.dim,
      t.off + offsetOf t.strides idx1 = t.off + offsetOf t.strides idx2 → idx1 = idx2 := by
  intro idx1 h1 idx2 h2 heq
  unfold writePairs at hnd
  rw [List.map_map] at hnd
  have hinj := (List.nodup_map_iff_inj_on (indicesOf_nodup t.dim)).mp hnd
  exact hinj idx1 h1 idx2 h2 heq

/-- C9: for all compatible shapes, appending the slabs `v_1 … v_k` along the
growing axis by `k` sequential `try_append_array` calls yields the same final
array — same shape, same buffer contents, same strides and head offset — as
appending the single combined slab (the slabs stacked along the axis, total
extent `Σ n_i`) in one call, whenever each route's calls succeed: every
sequential call and the combined call return `Ok`, which in this debug-profile
embedding includes each call's own checked preconditions and debug asserts
(the head-offset, standard-order and committed-length asserts of the source).
The array's strides are assumed nonnegative, matching the source's
`sort_axes_in_default_order` contract ("The axes should have stride >= 0",
line 462, debug-asserted at line 523), and the slabs have the array's rank, as
Rust's `Dimension` typing enforces. -/
theorem append_seq_eq_concat [Inhabited α] (self : OwnedArray α) (axis : Nat)
    (slabs : List (View α)) (stSeq stOne : OwnedArray α)
    (hax : axis < self.dim.length)
    (hsl : self.strides.length = self.dim.length)
    (hranks : ∀ v ∈ slabs, v.dim.length = self.dim.length ∧
      v.strides.length = self.dim.length)
    (hsnn : ∀ s ∈ self.strides, 0 ≤ s)
    (hseq : appendSeq cloneOk axis self slabs = .ok stSeq)
    (hone : tryAppendArray cloneOk self axis (concatSlab self axis slabs) = .ok stOne) :
    stSeq = stOne := by
  have hcdimget : (concatSlab self axis slabs).dim.getD axis 0 =
      concatExtent axis slabs := by
    show (concatDim self axis slabs).getD axis 0 = _
    unfold concatDim
    exact getD_set_self self.dim axis _ 0 hax
  rcases tryAppendArray_ok_inv cloneOk self axis (concatSlab self axis slabs) stOne hone with
    ⟨rd, nl, hval, hout⟩ | ⟨rd, nl, hval, hoff0, hstd, hw2, hout⟩
  · -- the combined call is a no-op: the combined slab is empty
    obtain ⟨-, herase, hrd, hprod0⟩ :=
      appendValidation_noop_inv self axis (concatSlab self axis slabs) rd nl hval
    have hrdA2 : rd = self.dim.set axis (self.dim.getD axis 0 + concatExtent axis slabs) := by
      rw [hrd]
      unfold resDimOf
      rw [hcdimget]
    have hp : (concatSlab self axis slabs).dim.prod =
        concatExtent axis slabs * (self.dim.eraseIdx axis).prod := by
      show (concatDim self axis slabs).prod = _
      unfold concatDim
      exact prod_set_axis self.dim axis _ hax
    rw [hp] at hprod0
    by_cases hR0 : (self.dim.eraseIdx axis).prod = 0
    · -- zero off-axis block: both routes only bump the shape
      have hst0 : self = { self with
          dim := self.dim.set axis (self.dim.getD axis 0 + 0) } := by
        rw [Nat.add_zero, set_getD_eq_self self.dim axis hax]
      have hfin := appendSeq_all_noop self axis hax hR0 slabs self stSeq 0
        (fun v hv => (hranks v hv).1) hst0 hseq
      rw [hfin, hout, hrdA2, Nat.zero_add]
    · -- zero total extent: both routes are the identity
      have hN0 : concatExtent axis slabs = 0 := by
        rcases Nat.mul_eq_zero.mp hprod0 with h | h
        · exact h
        · exact absurd h hR0
      obtain ⟨hMain, -⟩ := appendSeq_master self axis (concatExtent axis slabs) hax hsl hR0
        hsnn slabs self stSeq 0 hranks (Nat.zero_add _) (Or.inl ⟨rfl, rfl⟩) hseq
      rcases hMain with ⟨-, hFst⟩ | ⟨h1r, -⟩
      · rw [hFst, hout, hrdA2, hN0, Nat.add_zero, set_getD_eq_self self.dim axis hax]
      · omega
  · -- the combined call proceeds
    obtain ⟨-, herase, hrd, hprodne, -⟩ :=
      appendValidation_proceed_inv self axis (concatSlab self axis slabs) rd nl hval
    have hrdA2 : rd = self.dim.set axis (self.dim.getD axis 0 + concatExtent axis slabs) := by
      rw [hrd]
      unfold resDimOf
      rw [hcdimget]
    have hp : (concatSlab self axis slabs).dim.prod =
        concatExtent axis slabs * (self.dim.eraseIdx axis).prod := by
      show (concatDim self axis slabs).prod = _
      unfold concatDim
      exact prod_set_axis self.dim axis _ hax
    have hne : concatExtent axis slabs * (self.dim.eraseIdx axis).prod ≠ 0 := by
      rw [← hp]
      exact hprodne
    have hSig1 : 1 ≤ concatExtent axis slabs := by
      rcases Nat.eq_zero_or_pos (concatExtent axis slabs) with h0 | h1
      · rw [h0, Nat.zero_mul] at hne
        exact absurd rfl hne
      · exact h1
    have hRne : (self.dim.eraseIdx axis).prod ≠ 0 := by
      intro h0
      rw [h0, Nat.mul_zero] at hne
      exact hne rfl
    have hrdlen : rd.length = self.dim.length := by
      rw [hrdA2, List.length_set]
    have hslO : (stridesForAppend self axis rd).length =
        (concatSlab self axis slabs).dim.length := by
      rw [stridesForAppend_length self axis rd hsl hrdlen]
      show _ = (concatDim self axis slabs).length
      unfold concatDim
      rw [List.length_set]
    have haslO : (concatSlab self axis slabs).strides.length =
        (concatSlab self axis slabs).dim.length := by
      show (defaultStrides (concatDim self axis slabs)).length =
        (concatDim self axis slabs).length
      rw [defaultStrides_length]
    have hnnO : ∀ s ∈ stridesForAppend self axis rd, 0 ≤ s :=
      stridesForAppend_nonneg self axis rd hsnn
    have hcommitAll : stridesForAppend self axis rd =
        sigAll self axis (concatExtent axis slabs) := by
      rw [hrdA2]
      unfold sigAll
      rfl
    obtain ⟨-, hwlenO, hcharO⟩ :=
      appendWrites_char self axis (concatSlab self axis slabs) rd hslO haslO hnnO hstd
    obtain ⟨hnodO, hbndO, hsurjO⟩ :=
      appendWrites_dst_facts self axis (concatSlab self axis slabs) rd hslO haslO hnnO hstd
    obtain ⟨hMain, hC4⟩ := appendSeq_master self axis (concatExtent axis slabs) hax hsl hRne
      hsnn slabs self stSeq 0 hranks (Nat.zero_add _) (Or.inl ⟨rfl, rfl⟩) hseq
    rcases hMain with ⟨hz, -⟩ | ⟨h1r, hA0, C, hCd, hCo, hCdim, hCstr, hClen, hCchar⟩
    · omega
    -- injectivity of the combined destinations on indices
    have hinj2 : ∀ idx1 ∈ indicesOf (self.dim.set axis (concatExtent axis slabs)),
        ∀ idx2 ∈ indicesOf (self.dim.set axis (concatExtent axis slabs)),
        offsetOf (sigAll self axis (concatExtent axis slabs)) idx1 =
          offsetOf (sigAll self axis (concatExtent axis slabs)) idx2 → idx1 = idx2 := by
      intro idx1 h1 idx2 h2 heq
      refine writePairs_fst_nodup_inj
        ({ dim := (concatSlab self axis slabs).dim, strides := stridesForAppend self axis rd, off := 0 })
        (concatSlab self axis slabs) hnodO idx1 h1 idx2 h2 ?_
      show (0 : Int) + offsetOf (stridesForAppend self axis rd) idx1 =
        (0 : Int) + offsetOf (stridesForAppend self axis rd) idx2
      rw [zero_add, zero_add, hcommitAll]
      exact heq
    -- the combined call's destination cover
    have hcov2 : callCover axis self.dim (sigAll self axis (concatExtent axis slabs))
        (concatExtent axis slabs) (self.dim.eraseIdx axis).prod := by
      constructor
      · intro idx hidx
        have hmem : ((0 : Int) + offsetOf (stridesForAppend self axis rd) idx,
            (concatSlab self axis slabs).elemAt idx) ∈
            writePairs
              ({ dim := (concatSlab self axis slabs).dim, strides := stridesForAppend self axis rd, off := 0 })
              (concatSlab self axis slabs) :=
          List.mem_map.mpr ⟨idx, hidx, rfl⟩
        have hb2 : (0 : Int) + offsetOf (stridesForAppend self axis rd) idx <
            (((concatSlab self axis slabs).dim.prod : Nat) : Int) := (hbndO _ hmem).2
        rw [zero_add, hcommitAll, hp] at hb2
        exact hb2
      · intro k hk
        obtain ⟨pr, hpr, hpr1⟩ := hsurjO k (by rw [hp]; exact hk)
        obtain ⟨idx, hidxm, hpreq⟩ := mem_writePairs_iff.mp hpr
        refine ⟨idx, hidxm, ?_⟩
        rw [← hpr1, hpreq]
        show _ = (0 : Int) + offsetOf (stridesForAppend self axis rd) idx
        rw [zero_add, hcommitAll]
    have hposA := one_le_offaxis self.dim axis hax hRne
    -- either the growing-axis stride is the block size, or only one block
    have hsxor : (sigAll self axis (concatExtent axis slabs)).getD axis 0 =
        (((self.dim.eraseIdx axis).prod : Nat) : Int) ∨ nzCount axis slabs ≤ 1 := by
      by_cases hnz : 2 ≤ nzCount axis slabs
      · obtain ⟨n1, hn1a, hn1b, hn1cov⟩ := hC4 rfl hSig1
        exact Or.inl (sigma_axis_of_covers self.dim axis _ hax hposA
          (sigAll_nonneg self axis _ hsnn) n1 (concatExtent axis slabs) _
          (by omega) hn1a (hn1b hnz) hn1cov hinj2 hcov2)
      · exact Or.inr (by omega)
    -- the two filled tails agree slot by slot
    have hfillClen : (fillTail
        (appendWrites cloneOk self axis (concatSlab self axis slabs) rd).1.length
        (appendWrites cloneOk self axis (concatSlab self axis slabs) rd).1).length =
        concatExtent axis slabs * (self.dim.eraseIdx axis).prod := by
      rw [length_fillTail, hwlenO, hp]
    have hCfill : C = fillTail
        (appendWrites cloneOk self axis (concatSlab self axis slabs) rd).1.length
        (appendWrites cloneOk self axis (concatSlab self axis slabs) rd).1 := by
      apply ext_getD _ _ default (by rw [hClen, hfillClen])
      intro q hq
      rw [hClen] at hq
      obtain ⟨pr, hpr, hpr1⟩ := hsurjO q (by rw [hp]; exact hq)
      obtain ⟨idx, hidxm, hpreq⟩ := mem_writePairs_iff.mp hpr
      have hOq : offsetOf (sigAll self axis (concatExtent axis slabs)) idx = (q : Int) := by
        rw [← hpr1, hpreq]
        show _ = (0 : Int) + offsetOf (stridesForAppend self axis rd) idx
        rw [zero_add, hcommitAll]
      have hmemq : (((q : Nat) : Int), (concatSlab self axis slabs).elemAt idx) ∈
          writePairs
            ({ dim := (concatSlab self axis slabs).dim, strides := stridesForAppend self axis rd, off := 0 })
            (concatSlab self axis slabs) := by
        have hpair : (((q : Nat) : Int), (concatSlab self axis slabs).elemAt idx) =
            ((0 : Int) + offsetOf (stridesForAppend self axis rd) idx,
              (concatSlab self axis slabs).elemAt idx) := by
          rw [zero_add, hcommitAll, hOq]
        rw [hpair]
        exact List.mem_map.mpr ⟨idx, hidxm, rfl⟩
      have hfq : (fillTail
          (appendWrites cloneOk self axis (concatSlab self axis slabs) rd).1.length
          (appendWrites cloneOk self axis (concatSlab self axis slabs) rd).1).getD q default =
          (concatSlab self axis slabs).elemAt idx :=
        hcharO q _ hmemq (by rw [hp]; exact hq)
      have hidxA : idx ∈ indicesOf (self.dim.set axis (concatExtent axis slabs)) := hidxm
      obtain ⟨hcq1, -⟩ := hCchar idx hidxA
      have haxidx : axis < idx.length := by
        obtain ⟨hlen2, -⟩ := mem_indicesOf.mp hidxA
        rw [List.length_set] at hlen2
        omega
      have hcoord : idx.getD axis 0 < concatExtent axis slabs :=
        indicesOf_set_coord self.dim axis hax _ idx hidxA
      have hposeq : slabPos (α := α) axis (self.dim.eraseIdx axis).prod
          (sigAll self axis (concatExtent axis slabs)) slabs idx = q := by
        rw [slabPos_offset axis _ _ (sigAll_nonneg self axis _ hsnn) slabs idx haxidx
          hcoord hsxor, hOq, Int.toNat_natCast]
      rw [hposeq] at hcq1
      rw [hcq1, hfq]
      exact (concatSlab_elemAt self axis slabs idx hidxm).symm
    rw [hout]
    refine ownedArray_ext_fields stSeq _ _ _ _ ?_ ?_ ?_ ?_
    · rw [hCd, hCfill]
    · exact hCo
    · rw [hCdim]
      exact hrdA2.symm
    · rw [hCstr]
      exact hcommitAll.symm

def exC9fA : OwnedArray Int :=
  { data := [1, 2, 3, 4], off := 0, dim := [2, 2], strides := [1, 2] }

def exC9fS : List (View Int) :=
  [{ data := [5, 6], off := 0, dim := [2, 1], strides := [1, 1] },
   { data := [7, 8], off := 0, dim := [2, 1], strides := [1, 1] }]

/-- Witness: a fortran-layout (column-major) 2-by-2 array grown along its last
axis by two column slabs — sequentially and by one combined call — with every
hypothesis of the C9 theorem discharged on the concrete input. -/
theorem append_seq_eq_concat_witness :
    ∃ stSeq stOne : OwnedArray Int,
      appendSeq cloneOk 1 exC9fA exC9fS = .ok stSeq ∧
      tryAppendArray cloneOk exC9fA 1 (concatSlab exC9fA 1 exC9fS) = .ok stOne ∧
      stSeq = stOne := by
  refine ⟨{ data := [1, 2, 3, 4, 5, 6, 7, 8], off := 0, dim := [2, 4], strides := [1, 2] },
    { data := [1, 2, 3, 4, 5, 6, 7, 8], off := 0, dim := [2, 4], strides := [1, 2] },
    by decide, by decide, ?_⟩
  exact append_seq_eq_concat exC9fA 1 exC9fS _ _ (by decide) (by decide) (by decide)
    (by decide) (by decide) (by decide)

end NdModel
